import Mathlib

/-!
Shallow embedding of the inode layer of `src/fs.c` (an xv6-derived file
system).  The embedding is sequential: every C function becomes a pure
state-passing Lean function; `panic` and the (single-threaded) cases where a
thread would sleep forever on a condition variable become `Except.error`
with the corresponding message.  The deferred block frees
(`rcu_delayed2(dev, b, bfree)`) are modelled as immediate `bfree` calls,
which is their effect once the enclosing operation's read sections end.

The disk is modelled region-wise, following the on-disk layout of spec §6
(boot, superblock, inode table, block bitmap, data blocks): the inode table
is a map `inum -> dinode`, the bitmap a map `block -> Bool`, and the data
blocks a map `block -> (byte index -> byte)`.  The geometry constants come
from `fs.h` (absent from the sources; values given by spec §6 and the
claims): `BSIZE = 512`, `NDIRECT = 12`, `NINDIRECT = BSIZE/4`,
`MAXFILE = NDIRECT + NINDIRECT`, `DIRSIZ = 14`.  Machine integers are `Nat`
(or `Int` for C `int` fields), with an explicit `% 2^32` where 32-bit
overflow matters.
-/

namespace XvFs

def BSIZE : Nat := 512

def NDIRECT : Nat := 12

def NINDIRECT : Nat := BSIZE / 4

def MAXFILE : Nat := NDIRECT + NINDIRECT

def DIRSIZ : Nat := 14

def T_DIR : Nat := 1

def T_FILE : Nat := 2

def T_DEV : Nat := 3

/-- Modulus of the C `uint` type. -/
def U32 : Nat := 2 ^ 32

/-- Contents of one disk block: byte index to byte value. -/
def Blk : Type := Nat → Nat

/-- The all-zero block (what `bzero` writes, and what free blocks hold). -/
def zeroBlk : Blk := fun _ => 0

/-- Pointwise update of a map. -/
def updF {α : Type} (f : Nat → α) (i : Nat) (v : α) : Nat → α :=
  fun j => if j = i then v else f j

/-- On-disk inode (`struct dinode`): type, major, minor, nlink, size, gen,
addrs[NDIRECT+1].  `type = 0` means free. -/
structure Dinode where
  type : Nat
  major : Nat
  minor : Nat
  nlink : Nat
  size : Nat
  gen : Nat
  addrs : List Nat
deriving Repr, DecidableEq

/-- In-memory inode (`struct inode`).  The flag bits `I_VALID`, `I_BUSYR`,
`I_BUSYW`, `I_FREE` are separate `Bool` fields; `ref` and `readbusy` are C
`int`s, hence `Int`. -/
structure Inode where
  dev : Nat
  inum : Nat
  ref : Int
  valid : Bool
  busyr : Bool
  busyw : Bool
  free : Bool
  readbusy : Int
  type : Nat
  major : Nat
  minor : Nat
  nlink : Nat
  size : Nat
  gen : Nat
  addrs : List Nat
deriving Repr, DecidableEq

/-- `ip->addrs[i]` (out-of-range reads default to 0; well-formed inodes have
exactly `NDIRECT+1` entries). -/
def Inode.addr (ip : Inode) (i : Nat) : Nat := ip.addrs.getD i 0

/-- The disk, region-wise: superblock geometry, inode table, block bitmap,
block contents. -/
structure Disk where
  sbSize : Nat
  ninodes : Nat
  dinodes : Nat → Dinode
  bitmap : Nat → Bool
  blocks : Nat → Blk

/-- Number of blocks whose bitmap bit is clear (capacity available to
`balloc`). -/
def freeBlocks (d : Disk) : Nat :=
  ((Finset.range d.sbSize).filter (fun b => d.bitmap b = false)).card

/-- `balloc(dev)` — scan the bitmap for the first clear bit, set it, return
the block number.  Panics when no block is free. -/
def balloc (d : Disk) : Except String (Nat × Disk) :=
  match (List.range d.sbSize).find? (fun b => ! d.bitmap b) with
  | some b => .ok (b, { d with bitmap := updF d.bitmap b true })
  | none => .error "balloc: out of blocks"

/-- `bzero(dev, bno)` — zero a block. -/
def bzero (d : Disk) (b : Nat) : Disk :=
  { d with blocks := updF d.blocks b zeroBlk }

/-- `bfree(dev, b)` — zero the data block, then clear its bitmap bit.
Panics if the bit was already clear. -/
def bfree (d : Disk) (b : Nat) : Except String Disk :=
  let d1 := bzero d b
  if d1.bitmap b = false then .error "freeing free block"
  else .ok { d1 with bitmap := updF d1.bitmap b false }

/-- Read entry `j` of a block interpreted as an array of little-endian
32-bit unsigned integers (`a = (uint*)bp->data; a[j]`). -/
def blkGetU32 (blk : Blk) (j : Nat) : Nat :=
  blk (4 * j) % 256 + 256 * (blk (4 * j + 1) % 256) +
    65536 * (blk (4 * j + 2) % 256) + 16777216 * (blk (4 * j + 3) % 256)

/-- Write entry `j` of a block interpreted as a `uint` array (`a[j] = v`). -/
def blkSetU32 (blk : Blk) (j : Nat) (v : Nat) : Blk := fun i =>
  if i = 4 * j then v % 256
  else if i = 4 * j + 1 then v / 256 % 256
  else if i = 4 * j + 2 then v / 65536 % 256
  else if i = 4 * j + 3 then v / 16777216 % 256
  else blk i

/-- `memmove(bp->data + lo, src + srcBase, m)`: overwrite bytes
`[lo, lo+m)` of a block with bytes `srcBase, srcBase+1, …` of `src`. -/
def memmoveBlk (blk : Blk) (lo : Nat) (src : Nat → Nat) (srcBase m : Nat) : Blk :=
  fun i => if lo ≤ i ∧ i < lo + m then src (srcBase + (i - lo)) else blk i

/-- `memmove(dst + dstBase, bp->data + lo, m)`: overwrite bytes
`[dstBase, dstBase+m)` of a buffer with bytes `lo, lo+1, …` of a block. -/
def memmoveBuf (dst : Nat → Nat) (dstBase : Nat) (blk : Blk) (lo m : Nat) : Nat → Nat :=
  fun k => if dstBase ≤ k ∧ k < dstBase + m then blk (lo + (k - dstBase)) else dst k

/-- The `struct dinode` image of an in-memory inode, as written by
`iupdate`. -/
def dinodeOf (ip : Inode) : Dinode :=
  { type := ip.type, major := ip.major, minor := ip.minor, nlink := ip.nlink,
    size := ip.size, gen := ip.gen, addrs := ip.addrs }

/-- `iupdate(ip)` — copy the in-memory inode to its disk slot. -/
def iupdate (d : Disk) (ip : Inode) : Disk :=
  { d with dinodes := updF d.dinodes ip.inum (dinodeOf ip) }

/-- `bmap(ip, bn)` — disk block address of the `bn`-th block of `ip`,
allocating (direct slot, indirect block, indirect entry) as needed.
Panics when `bn ≥ NDIRECT + NINDIRECT`. -/
def bmap (d : Disk) (ip : Inode) (bn : Nat) : Except String (Nat × Inode × Disk) :=
  if bn < NDIRECT then
    let addr := ip.addr bn
    if addr = 0 then
      match balloc d with
      | .error e => .error e
      | .ok (a, d1) => .ok (a, { ip with addrs := ip.addrs.set bn a }, d1)
    else .ok (addr, ip, d)
  else if bn - NDIRECT < NINDIRECT then
    let step1 : Except String (Nat × Inode × Disk) :=
      if ip.addr NDIRECT = 0 then
        match balloc d with
        | .error e => .error e
        | .ok (a, d1) => .ok (a, { ip with addrs := ip.addrs.set NDIRECT a }, d1)
      else .ok (ip.addr NDIRECT, ip, d)
    match step1 with
    | .error e => .error e
    | .ok (iaddr, ip1, d1) =>
      let blk := d1.blocks iaddr
      let a := blkGetU32 blk (bn - NDIRECT)
      if a = 0 then
        match balloc d1 with
        | .error e => .error e
        | .ok (a2, d2) =>
          .ok (a2, ip1, { d2 with blocks := updF d2.blocks iaddr (blkSetU32 blk (bn - NDIRECT) a2) })
      else .ok (a, ip1, d1)
  else .error "bmap: out of range"

/-- The loop of `writei`: `for(tot=0; tot<n; tot+=m, off+=m, src+=m)`,
writing `m = min(n - tot, BSIZE - off%BSIZE)` bytes per iteration through
`bmap`. -/
def writeLoop (d : Disk) (ip : Inode) (src : Nat → Nat) (n tot off : Nat) :
    Except String (Disk × Inode) :=
  if _h : tot < n then
    match bmap d ip (off / BSIZE) with
    | .error e => .error e
    | .ok (a, ip1, d1) =>
      let m := min (n - tot) (BSIZE - off % BSIZE)
      let d2 := { d1 with blocks := updF d1.blocks a (memmoveBlk (d1.blocks a) (off % BSIZE) src tot m) }
      writeLoop d2 ip1 src n (tot + m) (off + m)
  else .ok (d, ip)
termination_by n - tot
decreasing_by
  have hb : off % BSIZE < BSIZE := Nat.mod_lt _ (by decide)
  have hm : 1 ≤ min (n - tot) (BSIZE - off % BSIZE) := by
    refine le_min (by omega) (by omega)
  omega

/-- The loop of `readi`, copying from the mapped blocks into the
destination buffer. -/
def readLoop (d : Disk) (ip : Inode) (dst : Nat → Nat) (n tot off : Nat) :
    Except String ((Nat → Nat) × Disk × Inode) :=
  if _h : tot < n then
    match bmap d ip (off / BSIZE) with
    | .error e => .error e
    | .ok (a, ip1, d1) =>
      let m := min (n - tot) (BSIZE - off % BSIZE)
      let dst1 := memmoveBuf dst tot (d1.blocks a) (off % BSIZE) m
      readLoop d1 ip1 dst1 n (tot + m) (off + m)
  else .ok (dst, d, ip)
termination_by n - tot
decreasing_by
  have hb : off % BSIZE < BSIZE := Nat.mod_lt _ (by decide)
  have hm : 1 ≤ min (n - tot) (BSIZE - off % BSIZE) := by
    refine le_min (by omega) (by omega)
  omega

/-- `writei(ip, src, off, n)`.  Device inodes dispatch through `devsw`,
which is external to this layer (spec §1); the sequential embedding stops
there.  Returns the byte count written (or −1) together with the final
state. -/
def writei (d : Disk) (ip : Inode) (src : Nat → Nat) (off n : Nat) :
    Except String (Int × Disk × Inode) :=
  if ip.type = T_DEV then .error "devsw write: external device dispatch"
  else if off > ip.size ∨ (off + n) % U32 < off then .ok (-1, d, ip)
  else
    let n1 := if off + n > MAXFILE * BSIZE then MAXFILE * BSIZE - off else n
    match writeLoop d ip src n1 0 off with
    | .error e => .error e
    | .ok (d1, ip1) =>
      if 0 < n1 ∧ off + n1 > ip1.size then
        let ip2 := { ip1 with size := off + n1 }
        .ok ((n1 : Int), iupdate d1 ip2, ip2)
      else .ok ((n1 : Int), d1, ip1)

/-- `readi(ip, dst, off, n)`.  Returns the byte count read (or −1), the
destination buffer, and the final state (whose only possible change is
block allocation by `bmap` when the range contains holes). -/
def readi (d : Disk) (ip : Inode) (dst : Nat → Nat) (off n : Nat) :
    Except String (Int × (Nat → Nat) × Disk × Inode) :=
  if ip.type = T_DEV then .error "devsw read: external device dispatch"
  else if off > ip.size ∨ (off + n) % U32 < off then .ok (-1, dst, d, ip)
  else
    let n1 := if off + n > ip.size then ip.size - off else n
    match readLoop d ip dst n1 0 off with
    | .error e => .error e
    | .ok (dst1, d1, ip1) => .ok ((n1 : Int), dst1, d1, ip1)

/-- The direct-block loop of `itrunc`: free `addrs[0..NDIRECT)` and zero the
slots. -/
def freeDirects (d : Disk) (ip : Inode) (i : Nat) : Except String (Disk × Inode) :=
  if i < NDIRECT then
    if ip.addr i ≠ 0 then
      match bfree d (ip.addr i) with
      | .error e => .error e
      | .ok d1 => freeDirects d1 { ip with addrs := ip.addrs.set i 0 } (i + 1)
    else freeDirects d ip (i + 1)
  else .ok (d, ip)
termination_by NDIRECT - i

/-- The indirect-entry loop of `itrunc`: free every nonzero entry of the
indirect block (whose contents `a` were captured by `bread`). -/
def freeIndirects (d : Disk) (a : Blk) (j : Nat) : Except String Disk :=
  if j < NINDIRECT then
    if blkGetU32 a j ≠ 0 then
      match bfree d (blkGetU32 a j) with
      | .error e => .error e
      | .ok d1 => freeIndirects d1 a (j + 1)
    else freeIndirects d a (j + 1)
  else .ok d
termination_by NINDIRECT - j

/-- `itrunc(ip)` — free all content blocks (direct, indirect entries, then
the indirect block itself), zero `size`, and `iupdate`. -/
def itrunc (d : Disk) (ip : Inode) : Except String (Disk × Inode) :=
  match freeDirects d ip 0 with
  | .error e => .error e
  | .ok (d1, ip1) =>
    let step2 : Except String (Disk × Inode) :=
      if ip1.addr NDIRECT ≠ 0 then
        let a := d1.blocks (ip1.addr NDIRECT)
        match freeIndirects d1 a 0 with
        | .error e => .error e
        | .ok d2 =>
          match bfree d2 (ip1.addr NDIRECT) with
          | .error e => .error e
          | .ok d3 => .ok (d3, { ip1 with addrs := ip1.addrs.set NDIRECT 0 })
      else .ok (d1, ip1)
    match step2 with
    | .error e => .error e
    | .ok (d2, ip2) =>
      let ip3 := { ip2 with size := 0 }
      .ok (iupdate d2 ip3, ip3)

/-- The busy-flag acquisition inside `iput`'s teardown path (fs.c lines
354–359): panic checks, then set `I_BUSYR|I_BUSYW` and bump `readbusy`. -/
def iputAcquire (ip : Inode) : Except String Inode :=
  if ip.busyr || ip.busyw then .error "iput busy"
  else if ! ip.valid then .error "iput not valid"
  else .ok { ip with busyr := true, busyw := true, readbusy := ip.readbusy + 1 }

/-- The busy-flag release at the end of `iput`'s teardown path (fs.c lines
368–369): clear both flags, drop `readbusy`. -/
def iputRelease (ip : Inode) : Inode :=
  { ip with busyr := false, busyw := false, readbusy := ip.readbusy - 1 }

/-- `iput(ip)` — drop a reference; on the last drop of an unlinked inode,
truncate it, zero `type/major/minor`, bump `gen`, and write it to disk. -/
def iput (d : Disk) (ip : Inode) : Except String (Disk × Inode) :=
  let r := ip.ref - 1
  let ip0 := { ip with ref := r }
  if r = 0 then
    if ip0.ref = 0 ∧ ip0.nlink = 0 then
      match iputAcquire ip0 with
      | .error e => .error e
      | .ok ip1 =>
        match itrunc d ip1 with
        | .error e => .error e
        | .ok (d1, ip2) =>
          let ip3 := { ip2 with type := 0, major := 0, minor := 0, gen := ip2.gen + 1 }
          .ok (iupdate d1 ip3, iputRelease ip3)
    else .ok (d, ip0)
  else .ok (d, ip0)

/-- `ilock(ip, writer)` — acquire the flag-based reader/writer lock.  In
the sequential embedding a state in which the C code would sleep on the
condition variable is an error. -/
def ilockV (ip : Inode) (writer : Bool) : Except String Inode :=
  if ip.ref < 1 then .error "ilock"
  else if ip.busyw || (writer && ip.busyr) then .error "blocked: ilock would sleep"
  else
    let ip1 := { ip with busyr := true, busyw := ip.busyw || writer, readbusy := ip.readbusy + 1 }
    if ! ip1.valid then .error "ilock"
    else .ok ip1

/-- `iunlock(ip)` — drop `readbusy`; clear `I_BUSYR` exactly when it
reaches zero; always clear `I_BUSYW`. -/
def iunlockV (ip : Inode) : Except String Inode :=
  if (! ip.busyr && ! ip.busyw) || ip.ref < 1 then .error "iunlock"
  else
    let lastreader := ip.readbusy - 1
    .ok { ip with readbusy := lastreader, busyw := false,
                  busyr := ip.busyr && ! (lastreader = 0 : Bool) }

/-! ## The inode cache (`ins`) and the operations that use it

The cache is the concurrent namespace `ins` keyed by `inum` (device
ignored, as in `iget`).  Sequentially it is a list of entries; `ns_lookup`
finds the entry with the given key, `ns_enumerate(evict)` returns the
first entry with `ref == 0`. -/

/-- Whole-system state: the disk plus the in-memory inode cache. -/
structure FS where
  disk : Disk
  icache : List Inode

/-- `ns_lookup(ins, inum)`. -/
def cacheLookup (c : List Inode) (inum : Nat) : Option Inode :=
  c.find? (fun e => e.inum == inum)

/-- Store an updated inode back into the cache slot with its key (the C
code mutates the entry in place through the pointer). -/
def cacheSet (c : List Inode) (inum : Nat) (ip : Inode) : List Inode :=
  c.map (fun e => if e.inum == inum then ip else e)

/-- `ns_enumerate(ins, evict)`: the first cache entry with `ref == 0`. -/
def cacheEvict (c : List Inode) : Option Inode :=
  c.find? (fun e => e.ref == 0)

/-- `ns_remove(ins, key, e)`. -/
def cacheRemove (c : List Inode) (inum : Nat) : List Inode :=
  c.filter (fun e => ! (e.inum == inum))

/-- `iget(dev, inum)`.  Hit path: bump `ref`, check `I_FREE` and
`I_VALID` (in the sequential embedding, the retry on a mid-eviction entry
and the wait for `I_VALID` would sleep forever, hence errors).  Miss path:
evict the first `ref == 0` entry, insert a fresh locked entry, load the
dinode, publish `I_VALID`, and `iunlock`. -/
def iget (fs : FS) (dev inum : Nat) : Except String (FS × Inode) :=
  match cacheLookup fs.icache inum with
  | some e =>
    if e.dev ≠ dev then .error "iget dev mismatch"
    else
      let e1 := { e with ref := e.ref + 1 }
      if e1.free then .error "blocked: iget retry on I_FREE entry"
      else if ! e1.valid then .error "blocked: iget would sleep for I_VALID"
      else .ok ({ fs with icache := cacheSet fs.icache inum e1 }, e1)
  | none =>
    match cacheEvict fs.icache with
    | none => .error "iget out of space"
    | some victim =>
      let c1 := cacheRemove fs.icache victim.inum
      let dn := fs.disk.dinodes inum
      let ip0 : Inode :=
        { dev := dev, inum := inum, ref := 1, valid := true, busyr := true,
          busyw := true, free := false, readbusy := 1, type := dn.type,
          major := dn.major, minor := dn.minor, nlink := dn.nlink,
          size := dn.size, gen := dn.gen, addrs := dn.addrs }
      match iunlockV ip0 with
      | .error e => .error e
      | .ok ip1 => .ok ({ fs with icache := c1 ++ [ip1] }, ip1)

/-- `idup(ip)`. -/
def idup (ip : Inode) : Inode := { ip with ref := ip.ref + 1 }

/-- The loop of `ialloc` over `inum ∈ [1, ninodes)`.  `nino` is the
`sb.ninodes` snapshot read by `readsb` before the loop.  For each inum
whose on-disk type looks free: `iget`, `ilock(_, 1)`, re-check `type` via
the cache; on success set the type, bump `gen`, assert the slot is zeroed,
`iupdate`, and return the (locked) entry's inum.  Otherwise `iunlockput`
and continue. -/
def iallocLoop (nino : Nat) (fs : FS) (dev t inum : Nat) : Except String (FS × Nat) :=
  if inum < nino then
    if (fs.disk.dinodes inum).type == 0 then
      match iget fs dev inum with
      | .error e => .error e
      | .ok (fs1, ip) =>
        match ilockV ip true with
        | .error e => .error e
        | .ok ip1 =>
          if ip1.type == 0 then
            let ip2 := { ip1 with type := t, gen := ip1.gen + 1 }
            if ip2.nlink ≠ 0 ∨ ip2.size ≠ 0 ∨ ip2.addr 0 ≠ 0 then .error "ialloc not zeroed"
            else
              .ok ({ disk := iupdate fs1.disk ip2, icache := cacheSet fs1.icache inum ip2 }, inum)
          else
            match iunlockV ip1 with
            | .error e => .error e
            | .ok ip2 =>
              match iput fs1.disk ip2 with
              | .error e => .error e
              | .ok (d1, ip3) =>
                iallocLoop nino { disk := d1, icache := cacheSet fs1.icache inum ip3 } dev t (inum + 1)
    else iallocLoop nino fs dev t (inum + 1)
  else .error "ialloc: no inodes"
termination_by nino - inum

/-- `ialloc(dev, type)` — allocate an on-disk inode of the given type;
returns the inum of the locked in-memory inode.  The scan starts at
`inum = 1`. -/
def ialloc (fs : FS) (dev t : Nat) : Except String (FS × Nat) :=
  iallocLoop fs.disk.ninodes fs dev t 1

/-! ## Directories -/

/-- `de->inum` of directory record `k` of a block (`struct dirent` is a
little-endian `ushort` followed by `name[DIRSIZ]`, 16 bytes). -/
def deInum (blk : Blk) (k : Nat) : Nat :=
  blk (16 * k) % 256 + 256 * (blk (16 * k + 1) % 256)

/-- `de->name` of directory record `k` of a block. -/
def deName (blk : Blk) (k : Nat) : Nat → Nat :=
  fun i => blk (16 * k + 2 + i)

/-- `strncmp(s, t, n) == 0` starting at index `i`: equal until a
difference, a common NUL, or `n` bytes. -/
def strncmpEq (s t : Nat → Nat) : Nat → Nat → Bool
  | 0, _ => true
  | n + 1, i =>
    if s i ≠ t i then false
    else if s i = 0 then true
    else strncmpEq s t n (i + 1)

/-- `namecmp(s, t) == 0`, i.e. `strncmp(s, t, DIRSIZ) == 0`. -/
def namecmpEq (s t : Nat → Nat) : Bool := strncmpEq s t DIRSIZ 0

/-- The inner loop of `dirlookup` over one block's `BSIZE/16` records:
the first record with `inum ≠ 0` whose name matches. -/
def dirscanBlk (blk : Blk) (name : Nat → Nat) (k : Nat) : Option Nat :=
  if k < BSIZE / 16 then
    if deInum blk k != 0 && namecmpEq name (deName blk k) then some k
    else dirscanBlk blk name (k + 1)
  else none
termination_by BSIZE / 16 - k

/-- The outer loop of `dirlookup` over the directory's blocks.  `sz` is
`dp->size`, which no operation in the loop changes (`bmap` touches only
`addrs`); it is passed explicitly to bound the recursion. -/
def dirlookupLoop (fs : FS) (dp : Inode) (name : Nat → Nat) (sz off : Nat) :
    Except String (FS × Inode × Option (Inode × Nat)) :=
  if off < sz then
    match bmap fs.disk dp (off / BSIZE) with
    | .error e => .error e
    | .ok (a, dp1, d1) =>
      let blk := d1.blocks a
      match dirscanBlk blk name 0 with
      | some k =>
        match iget { fs with disk := d1 } dp1.dev (deInum blk k) with
        | .error e => .error e
        | .ok (fs2, child) => .ok (fs2, dp1, some (child, off + 16 * k))
      | none => dirlookupLoop { fs with disk := d1 } dp1 name sz (off + BSIZE)
  else .ok (fs, dp, none)
termination_by sz - off
decreasing_by
  have : 0 < BSIZE := by decide
  omega

/-- `dirlookup(dp, name, poff)` — look a name up in a directory; on a hit,
return the child via `iget` together with the byte offset of the matching
record (what `*poff` receives when requested). -/
def dirlookup (fs : FS) (dp : Inode) (name : Nat → Nat) :
    Except String (FS × Inode × Option (Inode × Nat)) :=
  if dp.type ≠ T_DIR then .error "dirlookup not DIR"
  else dirlookupLoop fs dp name dp.size 0

/-- The free-slot scan of `dirlink`: `for(off = 0; off < dp->size;
off += sizeof(de))`, reading each record with `readi` and stopping at the
first with `inum == 0`; falls off the end with `off = dp->size`. -/
def dirlinkScan (d : Disk) (dp : Inode) (sz off : Nat) : Except String (Disk × Inode × Nat) :=
  if off < sz then
    match readi d dp (fun _ => 0) off 16 with
    | .error e => .error e
    | .ok (r, de, d1, dp1) =>
      if r ≠ 16 then .error "dirlink read"
      else if deInum de 0 == 0 then .ok (d1, dp1, off)
      else dirlinkScan d1 dp1 sz (off + 16)
  else .ok (d, dp, off)
termination_by sz - off

/-- `strncpy(dst, s, n)` byte `i`: the source byte while no NUL has
occurred at an index `≤ i`, and 0 from the NUL on. -/
def strncpyN (s : Nat → Nat) : Nat → Nat := fun i =>
  if (List.range (i + 1)).any (fun j => s j == 0) then 0 else s i

/-- The 16-byte record `dirlink` builds: `de.inum = inum` (a `ushort`,
little-endian) and `strncpy(de.name, name, DIRSIZ)`. -/
def mkDirent (inum : Nat) (name : Nat → Nat) : Nat → Nat := fun i =>
  if i = 0 then inum % 256
  else if i = 1 then inum / 256 % 256
  else if i < 16 then strncpyN name (i - 2)
  else 0

/-- `dirlink(dp, name, inum)` — reject (−1) when the name is present
(after `iput` of the looked-up child); otherwise write the new record at
the first free slot (or append at `dp->size`) and return 0. -/
def dirlink (fs : FS) (dp : Inode) (name : Nat → Nat) (inum : Nat) :
    Except String (FS × Inode × Int) :=
  match dirlookup fs dp name with
  | .error e => .error e
  | .ok (fs1, dp1, some (child, _)) =>
    match iput fs1.disk child with
    | .error e => .error e
    | .ok (d2, child1) =>
      .ok ({ disk := d2, icache := cacheSet fs1.icache child1.inum child1 }, dp1, -1)
  | .ok (fs1, dp1, none) =>
    match dirlinkScan fs1.disk dp1 dp1.size 0 with
    | .error e => .error e
    | .ok (d2, dp2, off) =>
      match writei d2 dp2 (mkDirent inum name) off 16 with
      | .error e => .error e
      | .ok (r, d3, dp3) =>
        if r ≠ 16 then .error "dirlink"
        else .ok ({ disk := d3, icache := fs1.icache }, dp3, 0)

/-! ## Paths -/

/-- `skipelem(path, name)`.  The path is the byte string up to the C
string's NUL; `name` is the caller's `DIRSIZ`-byte buffer, updated in
place.  Returns `none` when no component remains; otherwise the rest of
the path (leading slashes stripped) and the updated buffer: the component
is NUL-terminated when shorter than `DIRSIZ` and truncated to exactly
`DIRSIZ` bytes (no NUL) otherwise. -/
def skipelem (path : List Nat) (name : Nat → Nat) : Option (List Nat × (Nat → Nat)) :=
  let p1 := path.dropWhile (fun c => c == 47)
  if p1 = [] then none
  else
    let s := p1.takeWhile (fun c => ! (c == 47) && ! (c == 0))
    let len := s.length
    let name1 : Nat → Nat :=
      if len ≥ DIRSIZ then fun i => if i < DIRSIZ then s.getD i 0 else name i
      else fun i => if i < len then s.getD i 0 else if i = len then 0 else name i
    some ((p1.drop len).dropWhile (fun c => c == 47), name1)

/-! ## The lock-state transition system (claim C3)

The reachable busy-flag states of one in-memory inode, under the lock
operations of fs.c: `ilock`, `iunlock`, the fresh-entry initialisation in
`iget` (flags `I_BUSYR|I_BUSYW`, `readbusy = 1`), and the two busy-flag
transitions of `iput`'s teardown path.  The release transition of `iput`
runs from the state its acquire produced (`itrunc`/`iupdate` do not touch
the flags), so it is guarded by both flags being set. -/

/-- One busy-flag transition of an in-memory inode. -/
inductive LockStep : Inode → Inode → Prop where
  | ilock {ip ip' : Inode} (w : Bool) : ilockV ip w = .ok ip' → LockStep ip ip'
  | iunlock {ip ip' : Inode} : iunlockV ip = .ok ip' → LockStep ip ip'
  | iputAcq {ip ip' : Inode} : iputAcquire ip = .ok ip' → LockStep ip ip'
  | iputRel {ip : Inode} : ip.busyr = true → ip.busyw = true →
      LockStep ip (iputRelease ip)

/-- Initial lock states: the zeroed entries made by `iinit` (`memset` to
0), and the fresh locked entries made by `iget`'s miss path. -/
def lockInitial (ip : Inode) : Prop :=
  (ip.busyr = false ∧ ip.busyw = false ∧ ip.readbusy = 0) ∨
    (ip.busyr = true ∧ ip.busyw = true ∧ ip.readbusy = 1)

/-- Lock states reachable from an initial state by the transitions. -/
def LockReachable (ip : Inode) : Prop :=
  ∃ ip0, lockInitial ip0 ∧ Relation.ReflTransGen LockStep ip0 ip

/-- The claimed lock invariant: `BUSYW ⇒ readbusy = 1 ∧ BUSYR` and
`BUSYR ⇒ readbusy ≥ 1`. -/
def LockInv (ip : Inode) : Prop :=
  (ip.busyw = true → ip.readbusy = 1 ∧ ip.busyr = true) ∧
    (ip.busyr = true → 1 ≤ ip.readbusy)

/-- Strengthening that makes `LockInv` inductive: with no reader flag the
count is zero. -/
def LockInvAux (ip : Inode) : Prop :=
  LockInv ip ∧ (ip.busyr = false → ip.readbusy = 0)

/-! ## Well-formedness and the logical view of file contents -/

/-- The disk block holding the `bn`-th content block of `ip` (0 when not
allocated): `addrs[bn]` for direct blocks, entry `bn - NDIRECT` of the
indirect block otherwise. -/
def blockAddr (d : Disk) (ip : Inode) (bn : Nat) : Nat :=
  if bn < NDIRECT then ip.addr bn
  else if ip.addr NDIRECT = 0 then 0
  else blkGetU32 (d.blocks (ip.addr NDIRECT)) (bn - NDIRECT)

/-- All block numbers an inode references: slot 0 is the indirect block
itself, slot `bn + 1` the `bn`-th content block. -/
def slotAddr (d : Disk) (ip : Inode) : Nat → Nat
  | 0 => ip.addr NDIRECT
  | bn + 1 => blockAddr d ip bn

/-- Logical byte `j` of an inode's contents; unallocated blocks read as
zero (free blocks are zeroed by `bfree`). -/
def fileByteD (d : Disk) (ip : Inode) (j : Nat) : Nat :=
  if blockAddr d ip (j / BSIZE) = 0 then 0
  else d.blocks (blockAddr d ip (j / BSIZE)) (j % BSIZE)

/-- Well-formedness of an inode's block references against the disk:
the referenced blocks are pairwise distinct, in range, and marked in-use
in the bitmap; block 0 (the boot block) is marked; free blocks are
zeroed; the size is within the maximum file size. -/
structure WF (d : Disk) (ip : Inode) : Prop where
  addrsLen : ip.addrs.length = NDIRECT + 1
  inj : ∀ s t, s ≤ MAXFILE → t ≤ MAXFILE → s ≠ t →
    slotAddr d ip s ≠ 0 → slotAddr d ip s ≠ slotAddr d ip t
  marked : ∀ s, s ≤ MAXFILE → slotAddr d ip s ≠ 0 →
    slotAddr d ip s < d.sbSize ∧ d.bitmap (slotAddr d ip s) = true
  boot : d.bitmap 0 = true
  freeZero : ∀ b, d.bitmap b = false → d.blocks b = zeroBlk
  sizeLe : ip.size ≤ MAXFILE * BSIZE
  sbLt : d.sbSize < U32

/-- Well-formedness of a directory's contents: every block within `size`
is allocated (directories are dense) and every byte from `size` to the
maximum file size reads as zero. -/
def DirOK (d : Disk) (ip : Inode) : Prop :=
  (∀ bn, bn < MAXFILE → bn * BSIZE < ip.size → blockAddr d ip bn ≠ 0) ∧
    (∀ j, ip.size ≤ j → j < MAXFILE * BSIZE → fileByteD d ip j = 0)

/-- The `inum` of directory record `e` (byte offset `16 * e`) of a
directory's logical contents. -/
def dirInumAt (d : Disk) (ip : Inode) (e : Nat) : Nat :=
  fileByteD d ip (16 * e) % 256 + 256 * (fileByteD d ip (16 * e + 1) % 256)

/-- The name bytes of directory record `e` of a directory's logical
contents. -/
def dirNameAt (d : Disk) (ip : Inode) (e : Nat) : Nat → Nat :=
  fun i => fileByteD d ip (16 * e + 2 + i)

/-- Directory record `e` is in use and its name matches `name` under
`namecmp` — "a record with that name exists". -/
def dirMatch (d : Disk) (ip : Inode) (name : Nat → Nat) (e : Nat) : Prop :=
  dirInumAt d ip e ≠ 0 ∧ namecmpEq name (dirNameAt d ip e) = true

/-- A quiescent inode cache for device `dev`: keys are unique, a victim
with `ref == 0` exists, no entry is mid-eviction, and every entry whose
inum is a real on-disk slot is loaded, unlocked, and mirrors its dinode
(spec §8 invariant 1). -/
def CacheQuiet (fs : FS) (dev : Nat) : Prop :=
  (fs.icache.map Inode.inum).Nodup ∧
    (∃ e ∈ fs.icache, e.ref = 0) ∧
    ∀ e ∈ fs.icache, e.free = false ∧
      (e.inum < fs.disk.ninodes →
        e.dev = dev ∧ e.valid = true ∧ e.busyr = false ∧ e.busyw = false ∧
          e.readbusy = 0 ∧ 0 ≤ e.ref ∧ dinodeOf e = fs.disk.dinodes e.inum)

/-- Free on-disk inode slots are fully zeroed — the invariant `iput`'s
teardown establishes and `ialloc` relies on. -/
def FreeDinodesZeroed (d : Disk) : Prop :=
  ∀ i, i < d.ninodes → (d.dinodes i).type = 0 →
    (d.dinodes i).nlink = 0 ∧ (d.dinodes i).size = 0 ∧
      ∀ k, (d.dinodes i).addrs.getD k 0 = 0

/-- A small concrete disk used by the witnesses: 8 blocks (only the boot
block marked in-use), 4 on-disk inodes, inode 2 a regular file with one
link and no contents, everything else zeroed. -/
def exDisk : Disk :=
  { sbSize := 8, ninodes := 4,
    dinodes := fun i =>
      if i = 2 then { type := T_FILE, major := 0, minor := 0, nlink := 1, size := 0,
                      gen := 0, addrs := List.replicate 13 0 }
      else { type := 0, major := 0, minor := 0, nlink := 0, size := 0, gen := 0,
             addrs := List.replicate 13 0 },
    bitmap := fun b => b == 0,
    blocks := fun _ => zeroBlk }

/-- The cached in-memory copy of `exDisk`'s inode 2, unlocked with one
reference. -/
def exInode : Inode :=
  { dev := 0, inum := 2, ref := 1, valid := true, busyr := false, busyw := false,
    free := false, readbusy := 0, type := T_FILE, major := 0, minor := 0, nlink := 1,
    size := 0, gen := 0, addrs := List.replicate 13 0 }

/-- A cache entry with `ref == 0`, available for eviction (its inum is
not an on-disk slot of `exDisk`). -/
def exVictim : Inode :=
  { dev := 0, inum := 5, ref := 0, valid := true, busyr := false, busyw := false,
    free := false, readbusy := 0, type := 0, major := 0, minor := 0, nlink := 0,
    size := 0, gen := 0, addrs := List.replicate 13 0 }

/-- A whole-system state over `exDisk` whose cache holds only the
evictable entry. -/
def exFS : FS := { disk := exDisk, icache := [exVictim] }

/-- A 40-block variant of the example disk (39 free blocks), big enough
for operations that allocate. -/
def exDisk32 : Disk :=
  { sbSize := 40, ninodes := 4,
    dinodes := fun i =>
      if i = 2 then { type := T_FILE, major := 0, minor := 0, nlink := 1, size := 0,
                      gen := 0, addrs := List.replicate 13 0 }
      else { type := 0, major := 0, minor := 0, nlink := 0, size := 0, gen := 0,
             addrs := List.replicate 13 0 },
    bitmap := fun b => b == 0,
    blocks := fun _ => zeroBlk }

/-- A whole-system state over the 40-block disk. -/
def exFS32 : FS := { disk := exDisk32, icache := [exVictim] }

/-- What one successful `bmap d ip bn = .ok (a, ip1, d1)` call guarantees:
the returned block is nonzero and is the mapping of `bn` afterwards;
well-formedness is preserved; only `addrs` (inode side) and
`bitmap`/`blocks` (disk side) can change; the mapping and logical bytes of
every other block index are untouched; marked bits stay marked; an
already-mapped `bn` makes the call a no-op; a freshly mapped block is
zeroed; and at most two free blocks are consumed. -/
structure BmapPost (d : Disk) (ip : Inode) (bn a : Nat) (ip1 : Inode) (d1 : Disk) : Prop where
  wf : WF d1 ip1
  aNz : a ≠ 0
  mapsTo : blockAddr d1 ip1 bn = a
  ipEq : ip1 = { ip with addrs := ip1.addrs }
  dEq : d1 = { d with bitmap := d1.bitmap, blocks := d1.blocks }
  addrFrame : ∀ bn', bn' ≠ bn → blockAddr d1 ip1 bn' = blockAddr d ip bn'
  byteFrame : ∀ j, j / BSIZE ≠ bn → j < MAXFILE * BSIZE → fileByteD d1 ip1 j = fileByteD d ip j
  bitmapMono : ∀ b, d.bitmap b = true → d1.bitmap b = true
  noop : blockAddr d ip bn ≠ 0 → a = blockAddr d ip bn ∧ ip1 = ip ∧ d1 = d
  freshZero : blockAddr d ip bn = 0 → d1.blocks a = zeroBlk
  freeLe : freeBlocks d ≤ freeBlocks d1 + 2

/-! # Theorems -/

/-! ## Block allocator and in-block `uint` arrays -/

theorem balloc_spec (d : Disk) (hfree : 1 ≤ freeBlocks d) :
    ∃ b d1, balloc d = .ok (b, d1) ∧ d.bitmap b = false ∧ b < d.sbSize ∧
      d1 = { d with bitmap := updF d.bitmap b true } ∧
      freeBlocks d1 = freeBlocks d - 1 := by
  have hne : ∃ x ∈ List.range d.sbSize, (! d.bitmap x) = true := by
    by_contra hc
    push_neg at hc
    have : ((Finset.range d.sbSize).filter (fun b => d.bitmap b = false)) = ∅ := by
      refine Finset.filter_eq_empty_iff.2 ?_
      intro x hx hbx
      exact hc x (List.mem_range.2 (Finset.mem_range.1 hx)) (by simp [hbx])
    rw [freeBlocks, this] at hfree
    simp at hfree
  cases hfind : (List.range d.sbSize).find? (fun b => ! d.bitmap b) with
  | none =>
    rw [List.find?_eq_none] at hfind
    obtain ⟨x, hx, hpx⟩ := hne
    exact absurd hpx (hfind x hx)
  | some b =>
    have hp := List.find?_some hfind
    have hmem := List.mem_of_find?_eq_some hfind
    have hb : d.bitmap b = false := by simpa using hp
    have hblt : b < d.sbSize := List.mem_range.1 hmem
    refine ⟨b, _, by rw [balloc, hfind], hb, hblt, rfl, ?_⟩
    have hset : (Finset.range d.sbSize).filter (fun x => updF d.bitmap b true x = false) =
        ((Finset.range d.sbSize).filter (fun x => d.bitmap x = false)).erase b := by
      ext x
      simp only [Finset.mem_erase, Finset.mem_filter, Finset.mem_range, updF]
      constructor
      · rintro ⟨hx, hupd⟩
        split at hupd
        · exact absurd hupd (by simp)
        · rename_i hne2
          exact ⟨hne2, hx, hupd⟩
      · rintro ⟨hne2, hx, hbx⟩
        rw [if_neg hne2]
        exact ⟨hx, hbx⟩
    show ((Finset.range d.sbSize).filter (fun x => updF d.bitmap b true x = false)).card = _
    rw [hset, Finset.card_erase_of_mem (Finset.mem_filter.2 ⟨Finset.mem_range.2 hblt, hb⟩)]
    rfl

theorem bfree_spec (d : Disk) (b : Nat) (hb : d.bitmap b = true) :
    bfree d b = .ok { d with bitmap := updF d.bitmap b false,
                             blocks := updF d.blocks b zeroBlk } := by
  rw [bfree]
  simp only [bzero]
  rw [if_neg (by simp [hb])]

theorem blkSet_at0 (blk : Blk) (j v : Nat) : blkSetU32 blk j v (4 * j) = v % 256 := by
  rw [blkSetU32]
  rw [if_pos rfl]

theorem blkSet_at1 (blk : Blk) (j v : Nat) : blkSetU32 blk j v (4 * j + 1) = v / 256 % 256 := by
  rw [blkSetU32]
  rw [if_neg (by omega), if_pos rfl]

theorem blkSet_at2 (blk : Blk) (j v : Nat) : blkSetU32 blk j v (4 * j + 2) = v / 65536 % 256 := by
  rw [blkSetU32]
  rw [if_neg (by omega), if_neg (by omega), if_pos rfl]

theorem blkSet_at3 (blk : Blk) (j v : Nat) :
    blkSetU32 blk j v (4 * j + 3) = v / 16777216 % 256 := by
  rw [blkSetU32]
  rw [if_neg (by omega), if_neg (by omega), if_neg (by omega), if_pos rfl]

theorem blkGet_set_same (blk : Blk) (j v : Nat) (hv : v < U32) :
    blkGetU32 (blkSetU32 blk j v) j = v := by
  rw [blkGetU32, blkSet_at0, blkSet_at1, blkSet_at2, blkSet_at3]
  rw [U32] at hv
  omega

theorem blkSet_other (blk : Blk) (j v i : Nat)
    (h : i ≠ 4 * j ∧ i ≠ 4 * j + 1 ∧ i ≠ 4 * j + 2 ∧ i ≠ 4 * j + 3) :
    blkSetU32 blk j v i = blk i := by
  rw [blkSetU32]
  rw [if_neg h.1, if_neg h.2.1, if_neg h.2.2.1, if_neg h.2.2.2]

theorem blkGet_set_other (blk : Blk) (j j' v : Nat) (hne : j' ≠ j) :
    blkGetU32 (blkSetU32 blk j v) j' = blkGetU32 blk j' := by
  rw [blkGetU32, blkGetU32,
    blkSet_other blk j v _ (by omega), blkSet_other blk j v _ (by omega),
    blkSet_other blk j v _ (by omega), blkSet_other blk j v _ (by omega)]

theorem blkGet_zero (j : Nat) : blkGetU32 zeroBlk j = 0 := by
  rw [blkGetU32]
  rfl

theorem blkGet_lt (blk : Blk) (j : Nat) : blkGetU32 blk j < U32 := by
  rw [blkGetU32, U32]
  have h0 : blk (4 * j) % 256 < 256 := Nat.mod_lt _ (by omega)
  have h1 : blk (4 * j + 1) % 256 < 256 := Nat.mod_lt _ (by omega)
  have h2 : blk (4 * j + 2) % 256 < 256 := Nat.mod_lt _ (by omega)
  have h3 : blk (4 * j + 3) % 256 < 256 := Nat.mod_lt _ (by omega)
  omega

/-! ## `bmap` -/

theorem ndirect_val : NDIRECT = 12 := rfl

theorem nindirect_val : NINDIRECT = 128 := rfl

theorem maxfile_val : MAXFILE = 140 := rfl

theorem bsize_val : BSIZE = 512 := rfl

theorem dirsiz_val : DIRSIZ = 14 := rfl

theorem u32_val : U32 = 4294967296 := by rw [U32]; norm_num

theorem addr_set_self (ip : Inode) (i a : Nat) (h : i < ip.addrs.length) :
    Inode.addr { ip with addrs := ip.addrs.set i a } i = a := by
  simp [Inode.addr, List.getD_eq_getElem?_getD, List.getElem?_set_self, h]

theorem addr_set_other (ip : Inode) (i j a : Nat) (h : j ≠ i) :
    Inode.addr { ip with addrs := ip.addrs.set i a } j = ip.addr j := by
  simp [Inode.addr, List.getD_eq_getElem?_getD, List.getElem?_set_ne (by omega : i ≠ j)]

theorem blockAddr_direct (d : Disk) (ip : Inode) (bn : Nat) (h : bn < NDIRECT) :
    blockAddr d ip bn = ip.addr bn := by
  rw [blockAddr, if_pos h]

theorem blockAddr_ind (d : Disk) (ip : Inode) (bn : Nat) (h1 : ¬ bn < NDIRECT)
    (h2 : ip.addr NDIRECT ≠ 0) :
    blockAddr d ip bn = blkGetU32 (d.blocks (ip.addr NDIRECT)) (bn - NDIRECT) := by
  rw [blockAddr, if_neg h1, if_neg h2]

theorem blockAddr_ind0 (d : Disk) (ip : Inode) (bn : Nat) (h1 : ¬ bn < NDIRECT)
    (h2 : ip.addr NDIRECT = 0) : blockAddr d ip bn = 0 := by
  rw [blockAddr, if_neg h1, if_pos h2]

theorem slotAddr_zero (d : Disk) (ip : Inode) : slotAddr d ip 0 = ip.addr NDIRECT := rfl

theorem slotAddr_succ (d : Disk) (ip : Inode) (bn : Nat) :
    slotAddr d ip (bn + 1) = blockAddr d ip bn := rfl

/-- Re-establish `WF` after one fresh block `a` has been installed in slot
`s0` and marked in the bitmap, all other slots unchanged. -/
theorem WF_addBlock (d d' : Disk) (ip ip' : Inode) (s0 a : Nat) (hWF : WF d ip)
    (hslot : ∀ s, s ≠ s0 → slotAddr d' ip' s = slotAddr d ip s)
    (hnew : slotAddr d' ip' s0 = a)
    (hafree : d.bitmap a = false) (halt : a < d.sbSize)
    (hbm : d'.bitmap = updF d.bitmap a true)
    (hfz : ∀ b, d'.bitmap b = false → d'.blocks b = zeroBlk)
    (hlen : ip'.addrs.length = NDIRECT + 1)
    (hsize : ip'.size = ip.size) (hsb : d'.sbSize = d.sbSize) :
    WF d' ip' := by
  have ha0 : a ≠ 0 := by
    intro h
    rw [h, hWF.boot] at hafree
    exact Bool.noConfusion hafree
  have hold_ne_a : ∀ s, s ≤ MAXFILE → slotAddr d ip s ≠ 0 → slotAddr d ip s ≠ a := by
    intro s hs hnz heq
    have := (hWF.marked s hs hnz).2
    rw [heq, hafree] at this
    exact Bool.noConfusion this
  constructor
  · exact hlen
  · intro s t hs ht hst hsnz
    by_cases hss : s = s0
    · subst hss
      rw [hnew]
      have hts := hslot t (Ne.symm hst)
      rw [hts]
      by_cases htz : slotAddr d ip t = 0
      · rw [htz]
        exact ha0
      · exact fun h => hold_ne_a t ht htz (h.symm)
    · rw [hslot s hss] at hsnz ⊢
      by_cases hts : t = s0
      · subst hts
        rw [hnew]
        exact hold_ne_a s hs hsnz
      · rw [hslot t hts]
        exact hWF.inj s t hs ht hst hsnz
  · intro s hs hnz
    by_cases hss : s = s0
    · subst hss
      rw [hnew] at hnz ⊢
      refine ⟨by rw [hsb]; exact halt, ?_⟩
      rw [hbm, updF, if_pos rfl]
    · rw [hslot s hss] at hnz ⊢
      obtain ⟨h1, h2⟩ := hWF.marked s hs hnz
      refine ⟨by rw [hsb]; exact h1, ?_⟩
      rw [hbm, updF]
      split
      · rfl
      · exact h2
  · rw [hbm, updF]
    split
    · rfl
    · exact hWF.boot
  · exact hfz
  · rw [hsize]
    exact hWF.sizeLe
  · rw [hsb]
    exact hWF.sbLt

theorem freshNe0 (d : Disk) (b : Nat) (hboot : d.bitmap 0 = true)
    (hb : d.bitmap b = false) : b ≠ 0 := by
  intro h
  rw [h, hboot] at hb
  exact Bool.noConfusion hb

theorem div_lt_maxfile (j : Nat) (h : j < MAXFILE * BSIZE) : j / BSIZE < MAXFILE := by
  rw [bsize_val, maxfile_val] at h ⊢
  omega

theorem blockAddr_congr (d d' : Disk) (ip : Inode) (h : d'.blocks = d.blocks) :
    blockAddr d' ip = blockAddr d ip := by
  funext bn
  rw [blockAddr, blockAddr, h]

theorem fileByteD_congr (d d' : Disk) (ip ip' : Inode) (hbl : d'.blocks = d.blocks)
    (hba : blockAddr d' ip' = blockAddr d ip) : fileByteD d' ip' = fileByteD d ip := by
  funext j
  rw [fileByteD, fileByteD, hba, hbl]

theorem bmap_spec (d : Disk) (ip : Inode) (bn : Nat) (hWF : WF d ip) (hbn : bn < MAXFILE)
    (hfree : 2 ≤ freeBlocks d ∨ blockAddr d ip bn ≠ 0) :
    ∃ a ip1 d1, bmap d ip bn = .ok (a, ip1, d1) ∧ BmapPost d ip bn a ip1 d1 := by
  have eN := ndirect_val
  have eNI := nindirect_val
  have eM := maxfile_val
  by_cases hdir : bn < NDIRECT
  · by_cases hz : ip.addr bn = 0
    · -- direct slot, allocate
      have hpre0 : blockAddr d ip bn = 0 := by rw [blockAddr_direct d ip bn hdir]; exact hz
      have hfree2 : 2 ≤ freeBlocks d := by
        rcases hfree with h | h
        · exact h
        · exact absurd hpre0 h
      obtain ⟨b, d1, hok, hbfree, hblt, hd1, hfb⟩ := balloc_spec d (by omega)
      have hblocks : d1.blocks = d.blocks := by rw [hd1]
      have hbitmap : d1.bitmap = updF d.bitmap b true := by rw [hd1]
      have hsb : d1.sbSize = d.sbSize := by rw [hd1]
      have hlen : bn < ip.addrs.length := by rw [hWF.addrsLen]; omega
      have hb0 : b ≠ 0 := freshNe0 d b hWF.boot hbfree
      refine ⟨b, { ip with addrs := ip.addrs.set bn b }, d1, ?_, ?_⟩
      · simp only [bmap]
        rw [if_pos hdir, if_pos hz, hok]
      · have hmaps : blockAddr d1 { ip with addrs := ip.addrs.set bn b } bn = b := by
          rw [blockAddr_direct _ _ _ hdir, addr_set_self ip bn b hlen]
        have hindsame : Inode.addr { ip with addrs := ip.addrs.set bn b } NDIRECT =
            ip.addr NDIRECT := addr_set_other ip bn NDIRECT b (by omega)
        have haf : ∀ bn', bn' ≠ bn →
            blockAddr d1 { ip with addrs := ip.addrs.set bn b } bn' = blockAddr d ip bn' := by
          intro bn' hne
          by_cases hd' : bn' < NDIRECT
          · rw [blockAddr_direct _ _ _ hd', blockAddr_direct _ _ _ hd',
              addr_set_other ip bn bn' b hne]
          · by_cases hiz : ip.addr NDIRECT = 0
            · rw [blockAddr_ind0 _ _ _ hd' (by rw [hindsame]; exact hiz),
                blockAddr_ind0 _ _ _ hd' hiz]
            · rw [blockAddr_ind _ _ _ hd' (by rw [hindsame]; exact hiz),
                blockAddr_ind _ _ _ hd' hiz, hindsame, hblocks]
        refine ⟨?_, hb0, hmaps, rfl, by rw [hd1], haf, ?_, ?_, ?_, ?_, ?_⟩
        · refine WF_addBlock d d1 ip _ (bn + 1) b hWF ?_ hmaps hbfree hblt hbitmap ?_ ?_ rfl hsb
          · intro s hs
            match s with
            | 0 => rw [slotAddr_zero, slotAddr_zero, hindsame]
            | bn' + 1 =>
              rw [slotAddr_succ, slotAddr_succ]
              exact haf bn' (by omega)
          · intro x hx
            rw [hbitmap, updF] at hx
            split at hx
            · exact absurd hx (by simp)
            · rw [hblocks]
              exact hWF.freeZero x hx
          · rw [List.length_set]
            exact hWF.addrsLen
        · intro j hj _
          rw [fileByteD, fileByteD, haf _ hj, hblocks]
        · intro x hx
          rw [hbitmap, updF]
          split
          · rfl
          · exact hx
        · intro h
          exact absurd hpre0 h
        · intro _
          rw [hblocks]
          exact hWF.freeZero b hbfree
        · omega
    · -- direct slot, present: no-op
      have hpre : blockAddr d ip bn = ip.addr bn := blockAddr_direct d ip bn hdir
      refine ⟨ip.addr bn, ip, d, ?_, ?_⟩
      · simp only [bmap]
        rw [if_pos hdir, if_neg hz]
      · exact ⟨hWF, fun h => hz (by rw [← hpre] at h; rw [hpre] at h; exact h), hpre, rfl, rfl,
          fun _ _ => rfl, fun _ _ _ => rfl, fun _ h => h,
          fun _ => ⟨hpre.symm, rfl, rfl⟩, fun h => absurd (hpre ▸ h) hz, by omega⟩
  · -- indirect range
    have hind : bn - NDIRECT < NINDIRECT := by omega
    have hbn1 : NDIRECT ≤ bn := by omega
    by_cases hiz : ip.addr NDIRECT = 0
    · -- allocate the indirect block, then the data block
      have hpre0 : blockAddr d ip bn = 0 := blockAddr_ind0 d ip bn hdir hiz
      have hfree2 : 2 ≤ freeBlocks d := by
        rcases hfree with h | h
        · exact h
        · exact absurd hpre0 h
      obtain ⟨b1, d1, hok1, hbfree1, hblt1, hd1, hfb1⟩ := balloc_spec d (by omega)
      have hblocks1 : d1.blocks = d.blocks := by rw [hd1]
      have hbitmap1 : d1.bitmap = updF d.bitmap b1 true := by rw [hd1]
      have hsb1 : d1.sbSize = d.sbSize := by rw [hd1]
      have hb10 : b1 ≠ 0 := freshNe0 d b1 hWF.boot hbfree1
      have hlenN : NDIRECT < ip.addrs.length := by rw [hWF.addrsLen]; omega
      set ipb : Inode := { ip with addrs := ip.addrs.set NDIRECT b1 } with hipb
      have hnewind : ipb.addr NDIRECT = b1 := addr_set_self ip NDIRECT b1 hlenN
      have hzeroblk : d1.blocks b1 = zeroBlk := by
        rw [hblocks1]
        exact hWF.freeZero b1 hbfree1
      have hafB : ∀ bn', blockAddr d1 ipb bn' = blockAddr d ip bn' := by
        intro bn'
        by_cases hd' : bn' < NDIRECT
        · rw [blockAddr_direct _ _ _ hd', blockAddr_direct _ _ _ hd',
            addr_set_other ip NDIRECT bn' b1 (by omega)]
        · rw [blockAddr_ind0 d ip bn' hd' hiz,
            blockAddr_ind d1 ipb bn' hd' (by rw [hnewind]; exact hb10),
            hnewind, hzeroblk, blkGet_zero]
      have hWF1 : WF d1 ipb := by
        refine WF_addBlock d d1 ip ipb 0 b1 hWF ?_ (by rw [slotAddr_zero, hnewind])
          hbfree1 hblt1 hbitmap1 ?_ ?_ rfl hsb1
        · intro s hs
          match s with
          | 0 => exact absurd rfl hs
          | bn' + 1 => rw [slotAddr_succ, slotAddr_succ, hafB bn']
        · intro x hx
          rw [hbitmap1, updF] at hx
          split at hx
          · exact absurd hx (by simp)
          · rw [hblocks1]
            exact hWF.freeZero x hx
        · rw [List.length_set]
          exact hWF.addrsLen
      have hfb1' : 1 ≤ freeBlocks d1 := by omega
      obtain ⟨a2, d2, hok2, ha2free, ha2lt, hd2, hfb2⟩ := balloc_spec d1 hfb1'
      have hblocks2 : d2.blocks = d1.blocks := by rw [hd2]
      have hbitmap2 : d2.bitmap = updF d1.bitmap a2 true := by rw [hd2]
      have hsb2 : d2.sbSize = d1.sbSize := by rw [hd2]
      have ha20 : a2 ≠ 0 := freshNe0 d1 a2 hWF1.boot ha2free
      have ha2b1 : a2 ≠ b1 := by
        intro h
        rw [h, hbitmap1, updF, if_pos rfl] at ha2free
        exact Bool.noConfusion ha2free
      set dF : Disk :=
        { d2 with blocks := updF d2.blocks b1 (blkSetU32 (d1.blocks b1) (bn - NDIRECT) a2) }
        with hdF
      have hFblocks_b1 : dF.blocks b1 = blkSetU32 (d1.blocks b1) (bn - NDIRECT) a2 := by
        rw [hdF]
        show updF _ _ _ b1 = _
        rw [updF, if_pos rfl]
      have hFblocks_other : ∀ x, x ≠ b1 → dF.blocks x = d1.blocks x := by
        intro x hx
        rw [hdF]
        show updF _ _ _ x = _
        rw [updF, if_neg hx, hblocks2]
      have hFbitmap : dF.bitmap = updF d1.bitmap a2 true := by
        rw [hdF]
        exact hbitmap2
      have hFsb : dF.sbSize = d1.sbSize := by rw [hdF]; exact hsb2
      have ha2U : a2 < U32 := by
        have := hWF1.sbLt
        omega
      have hmapsF : blockAddr dF ipb bn = a2 := by
        rw [blockAddr_ind dF ipb bn hdir (by rw [hnewind]; exact hb10), hnewind,
          hFblocks_b1, blkGet_set_same _ _ _ ha2U]
      have hafF : ∀ bn', bn' ≠ bn → blockAddr dF ipb bn' = blockAddr d1 ipb bn' := by
        intro bn' hne
        by_cases hd' : bn' < NDIRECT
        · rw [blockAddr_direct _ _ _ hd', blockAddr_direct _ _ _ hd']
        · rw [blockAddr_ind dF ipb bn' hd' (by rw [hnewind]; exact hb10),
            blockAddr_ind d1 ipb bn' hd' (by rw [hnewind]; exact hb10), hnewind,
            hFblocks_b1, blkGet_set_other _ _ _ _ (by omega)]
      have hWF2 : WF dF ipb := by
        refine WF_addBlock d1 dF ipb ipb (bn + 1) a2 hWF1 ?_ hmapsF ha2free
          ha2lt hFbitmap ?_ hWF1.addrsLen rfl hFsb
        · intro s hs
          match s with
          | 0 => rfl
          | bn' + 1 =>
            rw [slotAddr_succ, slotAddr_succ]
            exact hafF bn' (by omega)
        · intro x hx
          rw [hFbitmap, updF] at hx
          split at hx
          · exact absurd hx (by simp)
          · have hxb1 : x ≠ b1 := by
              intro h
              rw [h, hbitmap1, updF, if_pos rfl] at hx
              exact Bool.noConfusion hx
            rw [hFblocks_other x hxb1]
            exact hWF1.freeZero x hx
      refine ⟨a2, ipb, dF, ?_, ?_⟩
      · simp only [bmap]
        rw [if_neg hdir, if_pos hind, if_pos hiz, hok1]
        dsimp only
        have hc : blkGetU32 (d1.blocks b1) (bn - NDIRECT) = 0 := by
          rw [hzeroblk, blkGet_zero]
        rw [if_pos hc, hok2]
      · refine ⟨hWF2, ha20, hmapsF, rfl, ?_, ?_, ?_, ?_, ?_, ?_, ?_⟩
        · rw [hdF, hd2, hd1]
        · intro bn' hne
          rw [hafF bn' hne, hafB bn']
        · intro j hj hjlt
          have hba : blockAddr dF ipb (j / BSIZE) = blockAddr d ip (j / BSIZE) := by
            rw [hafF _ hj, hafB]
          rw [fileByteD, fileByteD, hba]
          by_cases hc0 : blockAddr d ip (j / BSIZE) = 0
          · rw [if_pos hc0, if_pos hc0]
          · rw [if_neg hc0, if_neg hc0]
            have hjM : j / BSIZE < MAXFILE := div_lt_maxfile j hjlt
            have hmk := hWF.marked (j / BSIZE + 1) (by omega) (by rw [slotAddr_succ]; exact hc0)
            rw [slotAddr_succ] at hmk
            have hcb1 : blockAddr d ip (j / BSIZE) ≠ b1 := by
              intro h
              rw [h, hbfree1] at hmk
              exact Bool.noConfusion hmk.2
            rw [hFblocks_other _ hcb1, hblocks1]
        · intro x hx
          rw [hFbitmap, updF]
          split
          · rfl
          · rw [hbitmap1, updF]
            split
            · rfl
            · exact hx
        · intro h
          exact absurd hpre0 h
        · intro _
          rw [hFblocks_other a2 ha2b1, hblocks1]
          have : d.bitmap a2 = false := by
            rw [hbitmap1, updF, if_neg ha2b1] at ha2free
            exact ha2free
          exact hWF.freeZero a2 this
        · have hfF : freeBlocks dF = freeBlocks d2 := rfl
          omega
    · -- indirect block present
      set iaddr := ip.addr NDIRECT with hia
      have hpre : blockAddr d ip bn = blkGetU32 (d.blocks iaddr) (bn - NDIRECT) :=
        blockAddr_ind d ip bn hdir hiz
      by_cases haz : blkGetU32 (d.blocks iaddr) (bn - NDIRECT) = 0
      · -- allocate the data block, record it in the indirect block
        have hpre0 : blockAddr d ip bn = 0 := by rw [hpre]; exact haz
        have hfree2 : 2 ≤ freeBlocks d := by
          rcases hfree with h | h
          · exact h
          · exact absurd hpre0 h
        obtain ⟨a2, d2, hok2, ha2free, ha2lt, hd2, hfb2⟩ := balloc_spec d (by omega)
        have hblocks2 : d2.blocks = d.blocks := by rw [hd2]
        have hbitmap2 : d2.bitmap = updF d.bitmap a2 true := by rw [hd2]
        have hsb2 : d2.sbSize = d.sbSize := by rw [hd2]
        have ha20 : a2 ≠ 0 := freshNe0 d a2 hWF.boot ha2free
        have ha2ia : a2 ≠ iaddr := by
          intro h
          have hmk := hWF.marked 0 (by omega) (by rw [slotAddr_zero]; exact hiz)
          rw [slotAddr_zero, ← hia] at hmk
          rw [h, hmk.2] at ha2free
          exact Bool.noConfusion ha2free
        set dF : Disk :=
          { d2 with blocks := updF d2.blocks iaddr (blkSetU32 (d.blocks iaddr) (bn - NDIRECT) a2) }
          with hdF
        have hFblocks_ia : dF.blocks iaddr = blkSetU32 (d.blocks iaddr) (bn - NDIRECT) a2 := by
          rw [hdF]
          show updF _ _ _ iaddr = _
          rw [updF, if_pos rfl]
        have hFblocks_other : ∀ x, x ≠ iaddr → dF.blocks x = d.blocks x := by
          intro x hx
          rw [hdF]
          show updF _ _ _ x = _
          rw [updF, if_neg hx, hblocks2]
        have hFbitmap : dF.bitmap = updF d.bitmap a2 true := by
          rw [hdF]
          exact hbitmap2
        have hFsb : dF.sbSize = d.sbSize := by rw [hdF]; exact hsb2
        have ha2U : a2 < U32 := by
          have := hWF.sbLt
          omega
        have hmapsF : blockAddr dF ip bn = a2 := by
          rw [blockAddr_ind dF ip bn hdir hiz, ← hia, hFblocks_ia,
            blkGet_set_same _ _ _ ha2U]
        have hafF : ∀ bn', bn' ≠ bn → blockAddr dF ip bn' = blockAddr d ip bn' := by
          intro bn' hne
          by_cases hd' : bn' < NDIRECT
          · rw [blockAddr_direct _ _ _ hd', blockAddr_direct _ _ _ hd']
          · rw [blockAddr_ind dF ip bn' hd' hiz, blockAddr_ind d ip bn' hd' hiz, ← hia,
              hFblocks_ia, blkGet_set_other _ _ _ _ (by omega)]
        have hWF2 : WF dF ip := by
          refine WF_addBlock d dF ip ip (bn + 1) a2 hWF ?_ hmapsF ha2free ha2lt
            hFbitmap ?_ hWF.addrsLen rfl hFsb
          · intro s hs
            match s with
            | 0 => rfl
            | bn' + 1 =>
              rw [slotAddr_succ, slotAddr_succ]
              exact hafF bn' (by omega)
          · intro x hx
            rw [hFbitmap, updF] at hx
            split at hx
            · exact absurd hx (by simp)
            · have hxia : x ≠ iaddr := by
                intro h
                have hmk := hWF.marked 0 (by omega) (by rw [slotAddr_zero]; exact hiz)
                rw [slotAddr_zero, ← hia] at hmk
                rw [h, hmk.2] at hx
                exact Bool.noConfusion hx
              rw [hFblocks_other x hxia]
              exact hWF.freeZero x hx
        refine ⟨a2, ip, dF, ?_, ?_⟩
        · simp only [bmap]
          rw [if_neg hdir, if_pos hind, if_neg hiz]
          dsimp only
          rw [← hia, if_pos haz, hok2]
        · refine ⟨hWF2, ha20, hmapsF, rfl, ?_, hafF, ?_, ?_, ?_, ?_, ?_⟩
          · rw [hdF, hd2]
          · intro j hj hjlt
            have hba : blockAddr dF ip (j / BSIZE) = blockAddr d ip (j / BSIZE) := hafF _ hj
            rw [fileByteD, fileByteD, hba]
            by_cases hc0 : blockAddr d ip (j / BSIZE) = 0
            · rw [if_pos hc0, if_pos hc0]
            · rw [if_neg hc0, if_neg hc0]
              have hjM : j / BSIZE < MAXFILE := div_lt_maxfile j hjlt
              have hmk := hWF.marked (j / BSIZE + 1) (by omega)
                (by rw [slotAddr_succ]; exact hc0)
              rw [slotAddr_succ] at hmk
              have hcia : blockAddr d ip (j / BSIZE) ≠ iaddr := by
                have := hWF.inj (j / BSIZE + 1) 0 (by omega) (by omega)
                  (Nat.succ_ne_zero _) (by rw [slotAddr_succ]; exact hc0)
                rw [slotAddr_succ, slotAddr_zero, ← hia] at this
                exact this
              rw [hFblocks_other _ hcia]
          · intro x hx
            rw [hFbitmap, updF]
            split
            · rfl
            · exact hx
          · intro h
            exact absurd hpre0 h
          · intro _
            rw [hFblocks_other a2 ha2ia]
            exact hWF.freeZero a2 ha2free
          · have hfF : freeBlocks dF = freeBlocks d2 := rfl
            omega
      · -- entry present: no-op
        refine ⟨blkGetU32 (d.blocks iaddr) (bn - NDIRECT), ip, d, ?_, ?_⟩
        · simp only [bmap]
          rw [if_neg hdir, if_pos hind, if_neg hiz]
          dsimp only
          rw [← hia, if_neg haz]
        · exact ⟨hWF, haz, hpre.symm ▸ rfl, rfl, rfl, fun _ _ => rfl, fun _ _ _ => rfl,
            fun _ h => h, fun _ => ⟨hpre.symm, rfl, rfl⟩,
            fun h => absurd (hpre ▸ h) haz, by omega⟩

/-! ## The `writei`/`readi` loops -/

theorem blockAddr_update_data (d : Disk) (ip : Inode) (a : Nat) (blk : Blk)
    (hne : a ≠ ip.addr NDIRECT) :
    blockAddr { d with blocks := updF d.blocks a blk } ip = blockAddr d ip := by
  funext bn
  by_cases hdir : bn < NDIRECT
  · rw [blockAddr_direct _ _ _ hdir, blockAddr_direct _ _ _ hdir]
  · by_cases hiz : ip.addr NDIRECT = 0
    · rw [blockAddr_ind0 _ _ _ hdir hiz, blockAddr_ind0 _ _ _ hdir hiz]
    · rw [blockAddr_ind _ _ _ hdir hiz, blockAddr_ind _ _ _ hdir hiz]
      show blkGetU32 (updF d.blocks a blk (ip.addr NDIRECT)) _ = _
      rw [updF, if_neg (fun h => hne h.symm)]

theorem dataBlock_ne_ind (d : Disk) (ip : Inode) (bn : Nat) (hWF : WF d ip)
    (hbn : bn < MAXFILE) (hnz : blockAddr d ip bn ≠ 0) :
    blockAddr d ip bn ≠ ip.addr NDIRECT := by
  by_cases h0 : ip.addr NDIRECT = 0
  · rw [h0]
    exact hnz
  · have := hWF.inj (bn + 1) 0 (by omega) (by omega) (Nat.succ_ne_zero _)
      (by rw [slotAddr_succ]; exact hnz)
    rw [slotAddr_succ, slotAddr_zero] at this
    exact this

theorem WF_update_data (d : Disk) (ip : Inode) (a : Nat) (blk : Blk) (hWF : WF d ip)
    (hmk : d.bitmap a = true) (hne : a ≠ ip.addr NDIRECT) :
    WF { d with blocks := updF d.blocks a blk } ip := by
  have hba := blockAddr_update_data d ip a blk hne
  have hsl : ∀ s, slotAddr { d with blocks := updF d.blocks a blk } ip s = slotAddr d ip s := by
    intro s
    match s with
    | 0 => rfl
    | bn + 1 =>
      rw [slotAddr_succ, slotAddr_succ, hba]
  refine ⟨hWF.addrsLen, ?_, ?_, hWF.boot, ?_, hWF.sizeLe, hWF.sbLt⟩
  · intro s t hs ht hst hnz
    rw [hsl, hsl]
    rw [hsl] at hnz
    exact hWF.inj s t hs ht hst hnz
  · intro s hs hnz
    rw [hsl] at hnz ⊢
    exact hWF.marked s hs hnz
  · intro x hx
    have hxa : x ≠ a := by
      intro h
      rw [h, hmk] at hx
      exact Bool.noConfusion hx
    show updF d.blocks a blk x = zeroBlk
    rw [updF, if_neg hxa]
    exact hWF.freeZero x hx

theorem div_mod_within (off i : Nat) (h : i < BSIZE - off % BSIZE) :
    (off + i) / BSIZE = off / BSIZE ∧ (off + i) % BSIZE = off % BSIZE + i := by
  rw [bsize_val] at h ⊢
  omega

theorem dEq_trans (d d2 d' : Disk)
    (h1 : d2 = { d with bitmap := d2.bitmap, blocks := d2.blocks })
    (h2 : d' = { d2 with bitmap := d'.bitmap, blocks := d'.blocks }) :
    d' = { d with bitmap := d'.bitmap, blocks := d'.blocks } := by
  conv_lhs => rw [h2, h1]

theorem ipEq_trans (ip ip2 ip' : Inode)
    (h1 : ip2 = { ip with addrs := ip2.addrs })
    (h2 : ip' = { ip2 with addrs := ip'.addrs }) :
    ip' = { ip with addrs := ip'.addrs } := by
  conv_lhs => rw [h2, h1]

theorem writeLoop_spec (fuel : Nat) :
    ∀ d ip src n tot off0, WF d ip → n - tot ≤ fuel → tot ≤ n →
    off0 + n ≤ MAXFILE * BSIZE →
    (2 * (n - tot) ≤ freeBlocks d ∨
      ∀ k, tot ≤ k → k < n → blockAddr d ip ((off0 + k) / BSIZE) ≠ 0) →
    ∃ d' ip', writeLoop d ip src n tot (off0 + tot) = .ok (d', ip') ∧
      WF d' ip' ∧
      ip' = { ip with addrs := ip'.addrs } ∧
      d' = { d with bitmap := d'.bitmap, blocks := d'.blocks } ∧
      (∀ k, tot ≤ k → k < n → fileByteD d' ip' (off0 + k) = src k) ∧
      (∀ k, tot ≤ k → k < n → blockAddr d' ip' ((off0 + k) / BSIZE) ≠ 0) ∧
      (∀ bn', blockAddr d ip bn' ≠ 0 → blockAddr d' ip' bn' = blockAddr d ip bn') ∧
      (∀ j, j < MAXFILE * BSIZE → (j < off0 + tot ∨ off0 + n ≤ j) →
        fileByteD d' ip' j = fileByteD d ip j) ∧
      (∀ b, d.bitmap b = true → d'.bitmap b = true) ∧
      freeBlocks d ≤ freeBlocks d' + 2 * (n - tot) := by
  induction fuel with
  | zero =>
    intro d ip src n tot off0 hWF hfuel htot hmax hfree
    have hnt : ¬ tot < n := by omega
    refine ⟨d, ip, ?_, hWF, rfl, rfl, fun k hk1 hk2 => absurd hk2 (by omega),
      fun k hk1 hk2 => absurd hk2 (by omega), fun _ _ => rfl, fun _ _ _ => rfl,
      fun _ h => h, by omega⟩
    unfold writeLoop
    rw [dif_neg hnt]
  | succ f ih =>
    intro d ip src n tot off0 hWF hfuel htot hmax hfree
    by_cases h : tot < n
    · have eB := bsize_val
      set off := off0 + tot with hoffdef
      have hoffB : off % BSIZE < BSIZE := by rw [eB]; omega
      have hbnlt : off / BSIZE < MAXFILE := div_lt_maxfile off (by omega)
      have hbfree : 2 ≤ freeBlocks d ∨ blockAddr d ip (off / BSIZE) ≠ 0 := by
        rcases hfree with hf | hf
        · left; omega
        · right; exact hf tot (le_refl tot) h
      obtain ⟨a, ip1, d1, hok, post⟩ := bmap_spec d ip (off / BSIZE) hWF hbnlt hbfree
      set m := min (n - tot) (BSIZE - off % BSIZE) with hm
      have hm1 : 1 ≤ m := by rw [hm]; exact le_min (by omega) (by omega)
      have hmle : m ≤ n - tot := by rw [hm]; exact min_le_left _ _
      have hmr : m ≤ BSIZE - off % BSIZE := by rw [hm]; exact min_le_right _ _
      set blk2 := memmoveBlk (d1.blocks a) (off % BSIZE) src tot m with hblk2
      set d2 : Disk := { d1 with blocks := updF d1.blocks a blk2 } with hd2
      have hnz1 : blockAddr d1 ip1 (off / BSIZE) ≠ 0 := by
        rw [post.mapsTo]; exact post.aNz
      have hane : a ≠ ip1.addr NDIRECT := by
        have := dataBlock_ne_ind d1 ip1 (off / BSIZE) post.wf hbnlt hnz1
        rw [post.mapsTo] at this
        exact this
      have hamk : d1.bitmap a = true := by
        have := (post.wf.marked (off / BSIZE + 1) (by omega)
          (by rw [slotAddr_succ]; exact hnz1)).2
        rw [slotAddr_succ, post.mapsTo] at this
        exact this
      have hWF2 : WF d2 ip1 := WF_update_data d1 ip1 a blk2 post.wf hamk hane
      have hba2 : blockAddr d2 ip1 = blockAddr d1 ip1 :=
        blockAddr_update_data d1 ip1 a blk2 hane
      have hmaps2 : blockAddr d2 ip1 (off / BSIZE) = a := by
        rw [hba2]; exact post.mapsTo
      have hd2a : d2.blocks a = blk2 := by
        show updF d1.blocks a blk2 a = blk2
        rw [updF, if_pos rfl]
      have hd2other : ∀ x, x ≠ a → d2.blocks x = d1.blocks x := by
        intro x hx
        show updF d1.blocks a blk2 x = _
        rw [updF, if_neg hx]
      have hfree2eq : freeBlocks d2 = freeBlocks d1 := rfl
      have hdisj : 2 * (n - (tot + m)) ≤ freeBlocks d2 ∨
          ∀ k, tot + m ≤ k → k < n → blockAddr d2 ip1 ((off0 + k) / BSIZE) ≠ 0 := by
        rcases hfree with hf | hf
        · left
          have := post.freeLe
          omega
        · right
          intro k hk1 hk2
          have hk0 := hf k (by omega) hk2
          rw [hba2]
          by_cases hc : (off0 + k) / BSIZE = off / BSIZE
          · rw [hc]
            exact hnz1
          · rw [post.addrFrame _ hc]
            exact hk0
      have hrec := ih d2 ip1 src n (tot + m) off0 hWF2 (by omega) (by omega) hmax hdisj
      obtain ⟨d', ip', hok', hWF', hipEq', hdEq', hwritten', halloc', haf', hbyte', hmono', hfree'⟩ := hrec
      rw [show off0 + (tot + m) = off + m by omega] at hok'
      have heq : writeLoop d ip src n tot off = writeLoop d2 ip1 src n (tot + m) (off + m) := by
        conv_lhs => rw [writeLoop]
        rw [dif_pos h]
        simp only [hok]
      refine ⟨d', ip', by rw [heq]; exact hok', hWF',
        ipEq_trans ip ip1 ip' post.ipEq hipEq', dEq_trans d d2 d' ?_ hdEq',
        ?_, ?_, ?_, ?_, ?_, ?_⟩
      · conv_lhs => rw [hd2, post.dEq]
      · -- written bytes
        intro k hk1 hk2
        by_cases hkc : k < tot + m
        · have hdm := div_mod_within off (k - tot) (by omega)
          have hoffk : off0 + k = off + (k - tot) := by omega
          have hdiv : (off0 + k) / BSIZE = off / BSIZE := by rw [hoffk]; exact hdm.1
          have hmod : (off0 + k) % BSIZE = off % BSIZE + (k - tot) := by
            rw [hoffk]; exact hdm.2
          have hstep : fileByteD d2 ip1 (off0 + k) = src k := by
            rw [fileByteD, hdiv, hmaps2, if_neg post.aNz, hd2a, hblk2, memmoveBlk, hmod,
              if_pos ⟨by omega, by omega⟩]
            congr 1
            omega
          have hpres : fileByteD d' ip' (off0 + k) = fileByteD d2 ip1 (off0 + k) :=
            hbyte' (off0 + k) (by omega) (Or.inl (by omega))
          rw [hpres, hstep]
        · exact hwritten' k (by omega) hk2
      · -- allocatedness of the written range
        intro k hk1 hk2
        by_cases hkc : k < tot + m
        · have hdm := div_mod_within off (k - tot) (by omega)
          have hoffk : off0 + k = off + (k - tot) := by omega
          have hdiv : (off0 + k) / BSIZE = off / BSIZE := by rw [hoffk]; exact hdm.1
          rw [hdiv, haf' _ (by rw [hmaps2]; exact post.aNz), hmaps2]
          exact post.aNz
        · exact halloc' k (by omega) hk2
      · -- mapping of already-mapped blocks preserved
        intro bn' hnz0
        have h1 : blockAddr d1 ip1 bn' = blockAddr d ip bn' := by
          by_cases hc : bn' = off / BSIZE
          · subst hc
            obtain ⟨ha, hi, hdd⟩ := post.noop hnz0
            rw [hi, hdd]
          · exact post.addrFrame bn' hc
        have h2 : blockAddr d2 ip1 bn' = blockAddr d ip bn' := by
          rw [hba2, h1]
        rw [haf' bn' (by rw [h2]; exact hnz0), h2]
      · -- frame on bytes outside the written range
        intro j hjlt hj
        have hj2 : fileByteD d' ip' j = fileByteD d2 ip1 j := by
          refine hbyte' j hjlt ?_
          rcases hj with hj | hj
          · exact Or.inl (by omega)
          · exact Or.inr hj
        rw [hj2]
        by_cases hbj : j / BSIZE = off / BSIZE
        · rw [fileByteD, fileByteD, hbj, hmaps2, if_neg post.aNz, hd2a, hblk2, memmoveBlk]
          have hout : ¬ (off % BSIZE ≤ j % BSIZE ∧ j % BSIZE < off % BSIZE + m) := by
            rw [eB] at hbj hoffB hmr ⊢
            rcases hj with hj | hj
            · intro hc
              omega
            · intro hc
              omega
          rw [if_neg hout]
          by_cases hc0 : blockAddr d ip (off / BSIZE) = 0
          · rw [if_pos hc0, post.freshZero hc0]
            rfl
          · obtain ⟨ha, hi, hdd⟩ := post.noop hc0
            rw [if_neg hc0, hdd, ha]
        · have hstep : fileByteD d2 ip1 j = fileByteD d1 ip1 j := by
            rw [fileByteD, fileByteD, hba2]
            by_cases hc0 : blockAddr d1 ip1 (j / BSIZE) = 0
            · rw [if_pos hc0, if_pos hc0]
            · rw [if_neg hc0, if_neg hc0]
              have hjM : j / BSIZE < MAXFILE := div_lt_maxfile j hjlt
              have hne2 : blockAddr d1 ip1 (j / BSIZE) ≠ a := by
                have := post.wf.inj (j / BSIZE + 1) (off / BSIZE + 1) (by omega) (by omega)
                  (by omega) (by rw [slotAddr_succ]; exact hc0)
                rw [slotAddr_succ, slotAddr_succ, post.mapsTo] at this
                exact this
              rw [hd2other _ hne2]
          rw [hstep, post.byteFrame j hbj hjlt]
      · -- bitmap monotone
        intro b hb
        exact hmono' b (post.bitmapMono b hb)
      · -- free-block accounting
        have := post.freeLe
        have h2 : freeBlocks d2 = freeBlocks d1 := rfl
        omega
    · have hnt := h
      refine ⟨d, ip, ?_, hWF, rfl, rfl, fun k hk1 hk2 => absurd hk2 (by omega),
        fun k hk1 hk2 => absurd hk2 (by omega), fun _ _ => rfl, fun _ _ _ => rfl,
        fun _ hh => hh, by omega⟩
      unfold writeLoop
      rw [dif_neg hnt]

/-! ## The lock invariant (claim C3) -/

theorem lockInitial_invAux (ip : Inode) (h : lockInitial ip) : LockInvAux ip := by
  rcases h with ⟨h1, h2, h3⟩ | ⟨h1, h2, h3⟩ <;>
    exact ⟨⟨fun hw => by simp_all, fun hr => by simp_all⟩, fun hnr => by simp_all⟩

theorem ilockV_ok (ip ip' : Inode) (w : Bool) (h : ilockV ip w = .ok ip') :
    1 ≤ ip.ref ∧ ip.busyw = false ∧ (w = true → ip.busyr = false) ∧
      ip' = { ip with busyr := true, busyw := ip.busyw || w, readbusy := ip.readbusy + 1 } := by
  simp only [ilockV] at h
  split at h
  · exact absurd h (by simp)
  · split at h
    · exact absurd h (by simp)
    · split at h
      · exact absurd h (by simp)
      · rename_i href hbusy hval
        simp only [Except.ok.injEq] at h
        refine ⟨by omega, ?_, ?_, h.symm⟩
        · cases hb : ip.busyw <;> simp_all
        · intro hw; cases hb : ip.busyr <;> simp_all

theorem iunlockV_ok (ip ip' : Inode) (h : iunlockV ip = .ok ip') :
    (ip.busyr = true ∨ ip.busyw = true) ∧ 1 ≤ ip.ref ∧
      ip' = { ip with readbusy := ip.readbusy - 1, busyw := false,
                      busyr := ip.busyr && ! (ip.readbusy - 1 = 0 : Bool) } := by
  unfold iunlockV at h
  split at h
  · exact absurd h (by simp)
  · rename_i hg
    simp only [Except.ok.injEq] at h
    refine ⟨?_, ?_, h.symm⟩
    · rcases hr : ip.busyr with _ | _ <;> rcases hw : ip.busyw with _ | _ <;> simp_all
    · by_contra hc
      have : ip.ref < 1 := by omega
      simp_all

theorem iputAcquire_ok (ip ip' : Inode) (h : iputAcquire ip = .ok ip') :
    ip.busyr = false ∧ ip.busyw = false ∧ ip.valid = true ∧
      ip' = { ip with busyr := true, busyw := true, readbusy := ip.readbusy + 1 } := by
  unfold iputAcquire at h
  split at h
  · exact absurd h (by simp)
  · split at h
    · exact absurd h (by simp)
    · rename_i h1 h2
      simp only [Except.ok.injEq] at h
      refine ⟨?_, ?_, ?_, h.symm⟩
      · cases hb : ip.busyr <;> simp_all
      · cases hb : ip.busyw <;> simp_all
      · cases hb : ip.valid <;> simp_all

theorem lockStep_preserves (ip ip' : Inode) (h : LockStep ip ip')
    (hinv : LockInvAux ip) : LockInvAux ip' := by
  obtain ⟨⟨hw, hr⟩, haux⟩ := hinv
  cases h with
  | ilock w hok =>
    obtain ⟨-, hbw, hbr, rfl⟩ := ilockV_ok _ _ w hok
    cases w with
    | false =>
      refine ⟨⟨fun h => by simp_all, fun _ => ?_⟩, fun h => by simp_all⟩
      have : 0 ≤ ip.readbusy := by
        cases hb : ip.busyr
        · simp [haux hb]
        · have := hr hb; omega
      simp only []
      omega
    | true =>
      have hb := hbr rfl
      have h0 := haux hb
      refine ⟨⟨fun _ => ⟨by simp [h0], rfl⟩, fun _ => by simp [h0]⟩, fun h => by simp_all⟩
  | iunlock hok =>
    obtain ⟨hor, -, rfl⟩ := iunlockV_ok _ _ hok
    have hb : ip.busyr = true := by
      rcases hor with h | h
      · exact h
      · exact (hw h).2
    have h1 : 1 ≤ ip.readbusy := hr hb
    by_cases hz : ip.readbusy - 1 = 0
    · refine ⟨⟨fun h => by simp_all, fun h => by simp_all [hz]⟩, fun _ => by simp [hz]⟩
    · refine ⟨⟨fun h => by simp_all, fun _ => by simp only []; omega⟩, fun h => by simp_all⟩
  | iputAcq hok =>
    obtain ⟨hbr, hbw, -, rfl⟩ := iputAcquire_ok _ _ hok
    have h0 := haux hbr
    exact ⟨⟨fun _ => ⟨by simp [h0], rfl⟩, fun _ => by simp [h0]⟩, fun h => by simp_all⟩
  | iputRel hbr hbw =>
    have h1 := (hw hbw).1
    exact ⟨⟨fun h => by simp_all [iputRelease], fun h => by simp_all [iputRelease]⟩,
      fun _ => by simp [iputRelease, h1]⟩

theorem lockReachable_invAux (ip : Inode) (h : LockReachable ip) : LockInvAux ip := by
  obtain ⟨ip0, hinit, hsteps⟩ := h
  induction hsteps with
  | refl => exact lockInitial_invAux ip0 hinit
  | tail _ hstep ih => exact lockStep_preserves _ _ hstep ih

/-- Claim C3: every lock state of an in-memory inode reachable under the
lock operations (`ilock`, `iunlock`, and the busy-flag transitions in
`iget` and `iput`) satisfies `BUSYW ⇒ readbusy = 1 ∧ BUSYR` and
`BUSYR ⇒ readbusy ≥ 1`; and `iunlock` decrements `readbusy`, clears
`BUSYR` exactly when the count reaches zero, and always clears `BUSYW`. -/
theorem C3_lock_invariant :
    (∀ ip : Inode, LockReachable ip → LockInv ip) ∧
      (∀ ip ip' : Inode, LockInv ip → iunlockV ip = .ok ip' →
        ip.busyr = true ∧ ip'.readbusy = ip.readbusy - 1 ∧ ip'.busyw = false ∧
          (ip'.busyr = false ↔ ip.readbusy - 1 = 0)) := by
  constructor
  · exact fun ip h => (lockReachable_invAux ip h).1
  · intro ip ip' hinv hok
    obtain ⟨hor, -, rfl⟩ := iunlockV_ok ip ip' hok
    have hb : ip.busyr = true := by
      rcases hor with h | h
      · exact h
      · exact (hinv.1 h).2
    refine ⟨hb, rfl, rfl, ?_⟩
    by_cases hz : ip.readbusy - 1 = 0 <;> simp [hb, hz]

/-- Witness for C3 at a concrete reachable state (a fresh `iget` entry)
and a concrete `iunlock` call. -/
theorem C3_witness :
    LockInv (⟨0, 7, 1, true, true, true, false, 1, 0, 0, 0, 0, 0, 0, []⟩ : Inode) ∧
      ((⟨0, 7, 1, true, true, true, false, 1, 0, 0, 0, 0, 0, 0, []⟩ : Inode).busyr = true ∧
        (⟨0, 7, 1, true, false, false, false, 0, 0, 0, 0, 0, 0, 0, []⟩ : Inode).readbusy =
          (⟨0, 7, 1, true, true, true, false, 1, 0, 0, 0, 0, 0, 0, []⟩ : Inode).readbusy - 1 ∧
        (⟨0, 7, 1, true, false, false, false, 0, 0, 0, 0, 0, 0, 0, []⟩ : Inode).busyw = false ∧
        ((⟨0, 7, 1, true, false, false, false, 0, 0, 0, 0, 0, 0, 0, []⟩ : Inode).busyr = false ↔
          (⟨0, 7, 1, true, true, true, false, 1, 0, 0, 0, 0, 0, 0, []⟩ : Inode).readbusy - 1 = 0)) := by
  refine ⟨C3_lock_invariant.1 _ ⟨_, Or.inr ⟨rfl, rfl, rfl⟩, Relation.ReflTransGen.refl⟩, ?_⟩
  exact C3_lock_invariant.2 _ _ ⟨fun _ => ⟨rfl, rfl⟩, fun _ => le_refl 1⟩ (by rfl)

theorem readLoop_spec (fuel : Nat) :
    ∀ d ip dst n tot off0, WF d ip → n - tot ≤ fuel → tot ≤ n →
    off0 + n ≤ MAXFILE * BSIZE →
    (2 * (n - tot) ≤ freeBlocks d ∨
      ∀ k, tot ≤ k → k < n → blockAddr d ip ((off0 + k) / BSIZE) ≠ 0) →
    ∃ dst' d' ip', readLoop d ip dst n tot (off0 + tot) = .ok (dst', d', ip') ∧
      WF d' ip' ∧
      ip' = { ip with addrs := ip'.addrs } ∧
      d' = { d with bitmap := d'.bitmap, blocks := d'.blocks } ∧
      (∀ k, tot ≤ k → k < n → dst' k = fileByteD d ip (off0 + k)) ∧
      (∀ k, k < tot ∨ n ≤ k → dst' k = dst k) ∧
      (∀ j, j < MAXFILE * BSIZE → fileByteD d' ip' j = fileByteD d ip j) ∧
      (∀ bn', blockAddr d ip bn' ≠ 0 → blockAddr d' ip' bn' = blockAddr d ip bn') ∧
      (∀ b, d.bitmap b = true → d'.bitmap b = true) ∧
      freeBlocks d ≤ freeBlocks d' + 2 * (n - tot) := by
  induction fuel with
  | zero =>
    intro d ip dst n tot off0 hWF hfuel htot hmax hfree
    have hnt : ¬ tot < n := by omega
    refine ⟨dst, d, ip, ?_, hWF, rfl, rfl, fun k hk1 hk2 => absurd hk2 (by omega),
      fun _ _ => rfl, fun _ _ => rfl, fun _ _ => rfl, fun _ h => h, by omega⟩
    unfold readLoop
    rw [dif_neg hnt]
  | succ f ih =>
    intro d ip dst n tot off0 hWF hfuel htot hmax hfree
    by_cases h : tot < n
    · have eB := bsize_val
      set off := off0 + tot with hoffdef
      have hoffB : off % BSIZE < BSIZE := by rw [eB]; omega
      have hbnlt : off / BSIZE < MAXFILE := div_lt_maxfile off (by omega)
      have hbfree : 2 ≤ freeBlocks d ∨ blockAddr d ip (off / BSIZE) ≠ 0 := by
        rcases hfree with hf | hf
        · left; omega
        · right; exact hf tot (le_refl tot) h
      obtain ⟨a, ip1, d1, hok, post⟩ := bmap_spec d ip (off / BSIZE) hWF hbnlt hbfree
      set m := min (n - tot) (BSIZE - off % BSIZE) with hm
      have hm1 : 1 ≤ m := by rw [hm]; exact le_min (by omega) (by omega)
      have hmle : m ≤ n - tot := by rw [hm]; exact min_le_left _ _
      have hmr : m ≤ BSIZE - off % BSIZE := by rw [hm]; exact min_le_right _ _
      set dst1 := memmoveBuf dst tot (d1.blocks a) (off % BSIZE) m with hdst1
      have hByteAll : ∀ j, j < MAXFILE * BSIZE → fileByteD d1 ip1 j = fileByteD d ip j := by
        intro j hjlt
        by_cases hbj : j / BSIZE = off / BSIZE
        · by_cases hc0 : blockAddr d ip (off / BSIZE) = 0
          · rw [fileByteD, fileByteD, hbj, post.mapsTo, if_neg post.aNz,
              post.freshZero hc0, if_pos hc0]
            rfl
          · obtain ⟨ha, hi, hdd⟩ := post.noop hc0
            rw [hi, hdd]
        · exact post.byteFrame j hbj hjlt
      have hdisj : 2 * (n - (tot + m)) ≤ freeBlocks d1 ∨
          ∀ k, tot + m ≤ k → k < n → blockAddr d1 ip1 ((off0 + k) / BSIZE) ≠ 0 := by
        rcases hfree with hf | hf
        · left
          have := post.freeLe
          omega
        · right
          intro k hk1 hk2
          have hk0 := hf k (by omega) hk2
          by_cases hc : (off0 + k) / BSIZE = off / BSIZE
          · rw [hc, post.mapsTo]
            exact post.aNz
          · rw [post.addrFrame _ hc]
            exact hk0
      have hrec := ih d1 ip1 dst1 n (tot + m) off0 post.wf (by omega) (by omega) hmax hdisj
      obtain ⟨dst', d', ip', hok', hWF', hipEq', hdEq', hread', hdstfr', hbyte', haf', hmono', hfree'⟩ := hrec
      rw [show off0 + (tot + m) = off + m by omega] at hok'
      have heq : readLoop d ip dst n tot off = readLoop d1 ip1 dst1 n (tot + m) (off + m) := by
        conv_lhs => rw [readLoop]
        rw [dif_pos h]
        simp only [hok]
      refine ⟨dst', d', ip', by rw [heq]; exact hok', hWF',
        ipEq_trans ip ip1 ip' post.ipEq hipEq', dEq_trans d d1 d' post.dEq hdEq',
        ?_, ?_, ?_, ?_, ?_, ?_⟩
      · -- bytes read
        intro k hk1 hk2
        by_cases hkc : k < tot + m
        · have hdm := div_mod_within off (k - tot) (by omega)
          have hoffk : off0 + k = off + (k - tot) := by omega
          have hdiv : (off0 + k) / BSIZE = off / BSIZE := by rw [hoffk]; exact hdm.1
          have hmod : (off0 + k) % BSIZE = off % BSIZE + (k - tot) := by
            rw [hoffk]; exact hdm.2
          have hpres : dst' k = dst1 k := hdstfr' k (Or.inl (by omega))
          have hchunk : dst1 k = d1.blocks a (off % BSIZE + (k - tot)) := by
            rw [hdst1, memmoveBuf, if_pos ⟨by omega, by omega⟩]
          have hval : fileByteD d1 ip1 (off0 + k) = d1.blocks a (off % BSIZE + (k - tot)) := by
            rw [fileByteD, hdiv, post.mapsTo, if_neg post.aNz, hmod]
          rw [hpres, hchunk, ← hval, hByteAll (off0 + k) (by omega)]
        · rw [hread' k (by omega) hk2, hByteAll (off0 + k) (by omega)]
      · -- untouched buffer bytes
        intro k hk
        have h1 : dst' k = dst1 k := by
          refine hdstfr' k ?_
          rcases hk with hk | hk
          · exact Or.inl (by omega)
          · exact Or.inr hk
        rw [h1, hdst1, memmoveBuf, if_neg (by omega)]
      · -- file contents preserved
        intro j hjlt
        rw [hbyte' j hjlt, hByteAll j hjlt]
      · -- mapping of already-mapped blocks preserved
        intro bn' hnz0
        have h1 : blockAddr d1 ip1 bn' = blockAddr d ip bn' := by
          by_cases hc : bn' = off / BSIZE
          · subst hc
            obtain ⟨ha, hi, hdd⟩ := post.noop hnz0
            rw [hi, hdd]
          · exact post.addrFrame bn' hc
        rw [haf' bn' (by rw [h1]; exact hnz0), h1]
      · intro b hb
        exact hmono' b (post.bitmapMono b hb)
      · have := post.freeLe
        omega
    · refine ⟨dst, d, ip, ?_, hWF, rfl, rfl, fun k hk1 hk2 => absurd hk2 (by omega),
        fun _ _ => rfl, fun _ _ => rfl, fun _ _ => rfl, fun _ hh => hh, by omega⟩
      unfold readLoop
      rw [dif_neg h]

theorem WF_size (d : Disk) (ip : Inode) (hWF : WF d ip) (sz : Nat)
    (hsz : sz ≤ MAXFILE * BSIZE) : WF d { ip with size := sz } := by
  have hsl : ∀ s, slotAddr d { ip with size := sz } s = slotAddr d ip s := by
    intro s
    match s with
    | 0 => rfl
    | bn + 1 => rfl
  refine ⟨hWF.addrsLen, ?_, ?_, hWF.boot, hWF.freeZero, hsz, hWF.sbLt⟩
  · intro s t hs ht hst hnz
    rw [hsl, hsl]
    rw [hsl] at hnz
    exact hWF.inj s t hs ht hst hnz
  · intro s hs hnz
    rw [hsl] at hnz ⊢
    exact hWF.marked s hs hnz

theorem WF_iupdate (d : Disk) (ip ip2 : Inode) (hWF : WF d ip) :
    WF (iupdate d ip2) ip := by
  refine ⟨hWF.addrsLen, hWF.inj, hWF.marked, hWF.boot, hWF.freeZero, hWF.sizeLe, hWF.sbLt⟩

theorem writei_spec (d : Disk) (ip : Inode) (src : Nat → Nat) (off n n1 : Nat)
    (hT : ip.type ≠ T_DEV) (hWF : WF d ip) (hoff : off ≤ ip.size) (hn : off + n < U32)
    (hn1 : n1 = min n (MAXFILE * BSIZE - off))
    (hfree : 2 * n ≤ freeBlocks d ∨ ∀ k, k < n1 → blockAddr d ip ((off + k) / BSIZE) ≠ 0) :
    ∃ d' ip', writei d ip src off n = .ok ((n1 : Int), d', ip') ∧
      WF d' ip' ∧
      (∀ k, k < n1 → fileByteD d' ip' (off + k) = src k) ∧
      (∀ k, k < n1 → blockAddr d' ip' ((off + k) / BSIZE) ≠ 0) ∧
      (∀ j, j < MAXFILE * BSIZE → (j < off ∨ off + n1 ≤ j) →
        fileByteD d' ip' j = fileByteD d ip j) ∧
      (∀ bn', blockAddr d ip bn' ≠ 0 → blockAddr d' ip' bn' = blockAddr d ip bn') ∧
      ip' = { ip with addrs := ip'.addrs, size := ip'.size } ∧
      ip'.size = (if 0 < n1 ∧ ip.size < off + n1 then off + n1 else ip.size) ∧
      d'.dinodes = (if 0 < n1 ∧ ip.size < off + n1 then
        updF d.dinodes ip.inum (dinodeOf ip') else d.dinodes) ∧
      d'.sbSize = d.sbSize ∧ d'.ninodes = d.ninodes ∧
      (∀ b, d.bitmap b = true → d'.bitmap b = true) ∧
      freeBlocks d ≤ freeBlocks d' + 2 * n1 := by
  have hoffM : off ≤ MAXFILE * BSIZE := le_trans hoff hWF.sizeLe
  have hmax : off + n1 ≤ MAXFILE * BSIZE := by
    rw [hn1]
    have := min_le_right n (MAXFILE * BSIZE - off)
    omega
  have hle : n1 ≤ n := by rw [hn1]; exact min_le_left _ _
  obtain ⟨d1, ip1, hok, hWF1, hipEq1, hdEq1, hwr, hal, haf, hbf, hmono, hfb⟩ :=
    writeLoop_spec n1 d ip src n1 0 off hWF (by omega) (by omega) hmax
      (by
        rcases hfree with hf | hf
        · left; omega
        · right
          intro k hk1 hk2
          exact hf k hk2)
  simp only [Nat.add_zero] at hok
  have hsz1 : ip1.size = ip.size := by rw [hipEq1]
  have hin1 : ip1.inum = ip.inum := by rw [hipEq1]
  have hdin1 : d1.dinodes = d.dinodes := by rw [hdEq1]
  have hsb1 : d1.sbSize = d.sbSize := by rw [hdEq1]
  have hni1 : d1.ninodes = d.ninodes := by rw [hdEq1]
  have hmodu : (off + n) % U32 = off + n := Nat.mod_eq_of_lt hn
  have hguard : ¬ (off > ip.size ∨ (off + n) % U32 < off) := by
    rw [hmodu]
    intro hc
    rcases hc with hc | hc <;> omega
  have hn1eq : (if off + n > MAXFILE * BSIZE then MAXFILE * BSIZE - off else n) = n1 := by
    rw [hn1]
    split <;> omega
  have hcomp : writei d ip src off n =
      (if 0 < n1 ∧ off + n1 > ip1.size then
        .ok ((n1 : Int), iupdate d1 { ip1 with size := off + n1 }, { ip1 with size := off + n1 })
      else .ok ((n1 : Int), d1, ip1)) := by
    rw [writei, if_neg hT, if_neg hguard, hn1eq]
    simp only [hok]
  have hbf' : ∀ j, j < MAXFILE * BSIZE → (j < off ∨ off + n1 ≤ j) →
      fileByteD d1 ip1 j = fileByteD d ip j := by
    intro j h1 h2
    refine hbf j h1 ?_
    rcases h2 with h2 | h2
    · exact Or.inl (by omega)
    · exact Or.inr h2
  by_cases hup : 0 < n1 ∧ off + n1 > ip1.size
  · set ip2 : Inode := { ip1 with size := off + n1 } with hip2
    have hWF2 : WF (iupdate d1 ip2) ip2 :=
      WF_iupdate _ _ _ (WF_size d1 ip1 hWF1 (off + n1) hmax)
    have hfu : freeBlocks (iupdate d1 ip2) = freeBlocks d1 := rfl
    refine ⟨iupdate d1 ip2, ip2, by rw [hcomp, if_pos hup], hWF2,
      fun k hk => hwr k (by omega) hk, fun k hk => hal k (by omega) hk,
      hbf', haf, ?_, ?_, ?_, hsb1, hni1, hmono, by omega⟩
    · conv_lhs => rw [hip2, hipEq1]
    · rw [if_pos (by rw [← hsz1]; exact hup)]
    · rw [if_pos (by rw [← hsz1]; exact hup)]
      show updF d1.dinodes ip2.inum (dinodeOf ip2) = _
      have h2 : ip2.inum = ip.inum := by rw [hip2]; exact hin1
      rw [h2, hdin1]
  · refine ⟨d1, ip1, by rw [hcomp, if_neg hup], hWF1,
      fun k hk => hwr k (by omega) hk, fun k hk => hal k (by omega) hk,
      hbf', haf, ?_, ?_, ?_, hsb1, hni1, hmono, by omega⟩
    · rw [hsz1]
      exact hipEq1
    · rw [if_neg (by rw [← hsz1]; exact hup), hsz1]
    · rw [if_neg (by rw [← hsz1]; exact hup), hdin1]

theorem readi_spec (d : Disk) (ip : Inode) (dst : Nat → Nat) (off n n1 : Nat)
    (hT : ip.type ≠ T_DEV) (hWF : WF d ip) (hoff : off ≤ ip.size) (hn : off + n < U32)
    (hn1 : n1 = min n (ip.size - off))
    (hfree : 2 * n ≤ freeBlocks d ∨ ∀ k, k < n1 → blockAddr d ip ((off + k) / BSIZE) ≠ 0) :
    ∃ dst' d' ip', readi d ip dst off n = .ok ((n1 : Int), dst', d', ip') ∧
      WF d' ip' ∧
      (∀ k, k < n1 → dst' k = fileByteD d ip (off + k)) ∧
      (∀ k, n1 ≤ k → dst' k = dst k) ∧
      (∀ j, j < MAXFILE * BSIZE → fileByteD d' ip' j = fileByteD d ip j) ∧
      ip' = { ip with addrs := ip'.addrs } ∧
      d'.dinodes = d.dinodes ∧ d'.sbSize = d.sbSize ∧ d'.ninodes = d.ninodes ∧
      ip'.size = ip.size ∧
      (∀ b, d.bitmap b = true → d'.bitmap b = true) ∧
      freeBlocks d ≤ freeBlocks d' + 2 * n1 := by
  have hmax : off + n1 ≤ MAXFILE * BSIZE := by
    have := hWF.sizeLe
    have := min_le_right n (ip.size - off)
    omega
  have hle : n1 ≤ n := by rw [hn1]; exact min_le_left _ _
  obtain ⟨dst', d1, ip1, hok, hWF1, hipEq1, hdEq1, hrd, hfr, hbyte, haf, hmono, hfb⟩ :=
    readLoop_spec n1 d ip dst n1 0 off hWF (by omega) (by omega) hmax
      (by
        rcases hfree with hf | hf
        · left; omega
        · right
          intro k hk1 hk2
          exact hf k hk2)
  simp only [Nat.add_zero] at hok
  have hmodu : (off + n) % U32 = off + n := Nat.mod_eq_of_lt hn
  have hguard : ¬ (off > ip.size ∨ (off + n) % U32 < off) := by
    rw [hmodu]
    intro hc
    rcases hc with hc | hc <;> omega
  have hn1eq : (if off + n > ip.size then ip.size - off else n) = n1 := by
    rw [hn1]
    split <;> omega
  refine ⟨dst', d1, ip1, ?_, hWF1, fun k hk => hrd k (by omega) hk,
    fun k hk => hfr k (Or.inr hk), hbyte, hipEq1, by rw [hdEq1], by rw [hdEq1],
    by rw [hdEq1], by rw [hipEq1], hmono, by omega⟩
  rw [readi, if_neg hT, if_neg hguard, hn1eq]
  simp only [hok]

theorem exAddr0 (i : Nat) : exInode.addr i = 0 := by
  simp only [exInode, Inode.addr, List.getD_eq_getElem?_getD, List.getElem?_replicate]
  split <;> rfl

theorem exSlot0 (s : Nat) : slotAddr exDisk exInode s = 0 := by
  match s with
  | 0 => exact exAddr0 NDIRECT
  | bn + 1 =>
    rw [slotAddr_succ]
    by_cases h : bn < NDIRECT
    · rw [blockAddr_direct _ _ _ h]
      exact exAddr0 bn
    · exact blockAddr_ind0 _ _ _ h (exAddr0 NDIRECT)

theorem exWF : WF exDisk exInode := by
  refine ⟨rfl, ?_, ?_, rfl, fun _ _ => rfl, Nat.zero_le _,
    by rw [u32_val]; norm_num [exDisk]⟩
  · intro s t hs ht hst hnz
    exact absurd (exSlot0 s) hnz
  · intro s hs hnz
    exact absurd (exSlot0 s) hnz

theorem exFree : freeBlocks exDisk = 7 := by decide

/-! ## `writei` (claim C4) -/

/-- Claim C4: for every non-device inode, `writei(ip, src, off, n)`
returns −1 when `off > ip.size` or `off + n` overflows the 32-bit
counter; otherwise it clamps `n` to `MAXFILE*BSIZE - off`, writes the
clamped count of bytes block by block through `bmap`, updates `ip.size`
to the end of the written range and writes the inode to disk via
`iupdate` exactly when the write extended the file, and returns the
clamped byte count. -/
theorem C4_writei (d : Disk) (ip : Inode) (src : Nat → Nat) (off n : Nat)
    (hT : ip.type ≠ T_DEV) (hWF : WF d ip) (hnU : n < U32)
    (hfree : 2 * n ≤ freeBlocks d) :
    (ip.size < off ∨ U32 ≤ off + n → writei d ip src off n = .ok (-1, d, ip)) ∧
    (off ≤ ip.size → off + n < U32 →
      ∃ d' ip', writei d ip src off n =
          .ok (((min n (MAXFILE * BSIZE - off) : Nat) : Int), d', ip') ∧
        (∀ k, k < min n (MAXFILE * BSIZE - off) → fileByteD d' ip' (off + k) = src k) ∧
        ip'.size = (if 0 < min n (MAXFILE * BSIZE - off) ∧
            ip.size < off + min n (MAXFILE * BSIZE - off)
          then off + min n (MAXFILE * BSIZE - off) else ip.size) ∧
        d'.dinodes = (if 0 < min n (MAXFILE * BSIZE - off) ∧
            ip.size < off + min n (MAXFILE * BSIZE - off)
          then updF d.dinodes ip.inum (dinodeOf ip') else d.dinodes) ∧
        (∀ j, j < MAXFILE * BSIZE →
          (j < off ∨ off + min n (MAXFILE * BSIZE - off) ≤ j) →
          fileByteD d' ip' j = fileByteD d ip j)) := by
  constructor
  · intro hrej
    have hcond : off > ip.size ∨ (off + n) % U32 < off := by
      rcases hrej with hc | hc
      · exact Or.inl hc
      · refine Or.inr ?_
        rw [u32_val] at hc hnU ⊢
        omega
    rw [writei, if_neg hT, if_pos hcond]
  · intro hoff hn
    obtain ⟨d', ip', hok, hWF', hwr, hal, hbf, haf, hip, hsz, hdin, hsb, hni, hmono, hfb⟩ :=
      writei_spec d ip src off n (min n (MAXFILE * BSIZE - off)) hT hWF hoff hn rfl
        (Or.inl hfree)
    exact ⟨d', ip', hok, hwr, hsz, hdin, hbf⟩

/-- Witness for C4: a one-byte write at offset 0 on the concrete fresh
file. -/
theorem C4_witness :
    ∃ d' ip', writei exDisk exInode (fun _ => 65) 0 1 = .ok (1, d', ip') ∧
      fileByteD d' ip' 0 = 65 ∧ ip'.size = 1 := by
  obtain ⟨h1, h2⟩ := C4_writei exDisk exInode (fun _ => 65) 0 1 (by decide) exWF
    (by rw [u32_val]; norm_num) (by rw [exFree]; omega)
  obtain ⟨d', ip', hok, hwr, hsz, hdin, hbf⟩ := h2 (by omega) (by rw [u32_val]; norm_num)
  have hmin : min 1 (MAXFILE * BSIZE - 0) = 1 := by rw [maxfile_val, bsize_val]; omega
  refine ⟨d', ip', ?_, ?_, ?_⟩
  · rw [hmin] at hok
    exact hok
  · have := hwr 0 (by rw [hmin]; omega)
    simpa using this
  · rw [hsz, hmin]
    rw [if_pos (by decide : 0 < 1 ∧ exInode.size < 0 + 1)]

/-! ## `readi` (claim C5) -/

/-- Claim C5: for every non-device inode, `readi(ip, dst, off, n)`
returns −1 exactly when `off > ip.size` or `off + n` overflows;
otherwise it clamps `n` to `ip.size - off`, copies that many bytes block
by block via `bmap` honouring intra-block offsets, and returns the
number of bytes copied — the clamped count, which is 0 when
`off = ip.size`. -/
theorem C5_readi (d : Disk) (ip : Inode) (dst : Nat → Nat) (off n : Nat)
    (hT : ip.type ≠ T_DEV) (hWF : WF d ip) (hnU : n < U32)
    (hfree : 2 * n ≤ freeBlocks d) :
    (ip.size < off ∨ U32 ≤ off + n → readi d ip dst off n = .ok (-1, dst, d, ip)) ∧
    (off ≤ ip.size → off + n < U32 →
      ∃ dst' d' ip', readi d ip dst off n =
          .ok (((min n (ip.size - off) : Nat) : Int), dst', d', ip') ∧
        (0 : Int) ≤ ((min n (ip.size - off) : Nat) : Int) ∧
        (∀ k, k < min n (ip.size - off) → dst' k = fileByteD d ip (off + k)) ∧
        (∀ k, min n (ip.size - off) ≤ k → dst' k = dst k) ∧
        (off = ip.size → ((min n (ip.size - off) : Nat) : Int) = 0)) := by
  constructor
  · intro hrej
    have hcond : off > ip.size ∨ (off + n) % U32 < off := by
      rcases hrej with hc | hc
      · exact Or.inl hc
      · refine Or.inr ?_
        rw [u32_val] at hc hnU ⊢
        omega
    rw [readi, if_neg hT, if_pos hcond]
  · intro hoff hn
    obtain ⟨dst', d', ip', hok, hWF', hrd, hfr, hbyte, hip, hdin, hsb, hni, hsz, hmono, hfb⟩ :=
      readi_spec d ip dst off n (min n (ip.size - off)) hT hWF hoff hn rfl (Or.inl hfree)
    refine ⟨dst', d', ip', hok, Int.natCast_nonneg _, hrd, hfr, ?_⟩
    intro heq
    rw [heq]
    simp

/-- Witness for C5: a 3-byte read at offset 0 of the concrete empty file
clamps to 0 bytes. -/
theorem C5_witness :
    ∃ dst' d' ip', readi exDisk exInode (fun _ => 9) 0 3 = .ok (0, dst', d', ip') ∧
      dst' 1 = 9 := by
  obtain ⟨h1, h2⟩ := C5_readi exDisk exInode (fun _ => 9) 0 3 (by decide) exWF
    (by rw [u32_val]; norm_num) (by rw [exFree]; omega)
  obtain ⟨dst', d', ip', hok, hpos, hrd, hfr, hzero⟩ := h2 (by decide) (by rw [u32_val]; norm_num)
  have hmin : min 3 (exInode.size - 0) = 0 := by decide
  refine ⟨dst', d', ip', ?_, ?_⟩
  · rw [hmin] at hok
    exact hok
  · exact hfr 1 (by rw [hmin]; omega)

/-! ## Write/read round-trip (claim C6) -/

/-- Claim C6: on a regular (non-device) inode, a `writei` of `n` bytes at
an aligned offset that returns `n`, followed by a `readi` of `n` bytes at
the same offset, returns exactly the bytes written; on a fresh empty file
(`size = 0`, `off = 0`) the write leaves `size = n`, a nonzero direct
address for every written direct block, and a nonzero indirect slot as
soon as the write goes past `NDIRECT` blocks — in particular, with
`NDIRECT = 12` and `BSIZE = 512`, an 8192-byte write makes
`addrs[0..11]` and `addrs[NDIRECT]` all nonzero. -/
theorem C6_roundtrip (d : Disk) (ip : Inode) (src dst : Nat → Nat) (off n : Nat)
    (hT : ip.type ≠ T_DEV) (hWF : WF d ip) (haligned : off % BSIZE = 0)
    (hoff : off ≤ ip.size) (hmax : off + n ≤ MAXFILE * BSIZE)
    (hfree : 2 * n ≤ freeBlocks d) :
    ∃ d1 ip1 dst' d2 ip2,
      writei d ip src off n = .ok ((n : Int), d1, ip1) ∧
      readi d1 ip1 dst off n = .ok ((n : Int), dst', d2, ip2) ∧
      (∀ k, k < n → dst' k = src k) ∧
      (ip.size = 0 → off = 0 →
        ip1.size = n ∧
        (∀ i, i < NDIRECT → i * BSIZE < n → ip1.addr i ≠ 0) ∧
        (NDIRECT * BSIZE < n → ip1.addr NDIRECT ≠ 0)) := by
  have hU : MAXFILE * BSIZE < U32 := by rw [maxfile_val, bsize_val, u32_val]; norm_num
  have hmin : min n (MAXFILE * BSIZE - off) = n := by omega
  obtain ⟨d1, ip1, hok, hWF1, hwr, hal, hbf, haf, hip1, hsz1, hdin1, hsb1, hni1, hmono1, hfb1⟩ :=
    writei_spec d ip src off n n hT hWF hoff (by omega) hmin.symm (Or.inl hfree)
  have hT1 : ip1.type ≠ T_DEV := by rw [hip1]; exact hT
  have hoff1 : off ≤ ip1.size := by
    rw [hsz1]
    split <;> omega
  have hmin1 : min n (ip1.size - off) = n := by
    rw [hsz1]
    split <;> omega
  obtain ⟨dst', d2, ip2, hok2, hWF2, hrd, hfr, hbyte, hip2, hdin2, hsb2, hni2, hszr, hmono2, hfb2⟩ :=
    readi_spec d1 ip1 dst off n n hT1 hWF1 hoff1 (by omega) hmin1.symm
      (Or.inr (fun k hk => hal k hk))
  refine ⟨d1, ip1, dst', d2, ip2, hok, hok2, ?_, ?_⟩
  · intro k hk
    rw [hrd k hk, hwr k hk]
  · intro hsz0 hoff0
    subst hoff0
    have hsz1' : ip1.size = n := by
      rw [hsz1, hsz0]
      rcases Nat.eq_zero_or_pos n with hn0 | hn0
      · rw [hn0]
        rw [if_neg (by omega)]
      · rw [if_pos (by omega)]
        omega
    refine ⟨hsz1', ?_, ?_⟩
    · intro i hi hilt
      have := hal (i * BSIZE) hilt
      rw [Nat.zero_add, Nat.mul_div_cancel _ (by rw [bsize_val]; omega)] at this
      rw [← blockAddr_direct d1 ip1 i hi]
      exact this
    · intro hind
      have := hal (NDIRECT * BSIZE) hind
      rw [Nat.zero_add, Nat.mul_div_cancel _ (by rw [bsize_val]; omega)] at this
      intro hc
      rw [blockAddr_ind0 d1 ip1 NDIRECT (by omega) hc] at this
      exact this rfl

/-- Witness for C6: one-byte round-trip at offset 0 on the concrete fresh
file. -/
theorem C6_witness :
    ∃ d1 ip1 dst' d2 ip2,
      writei exDisk exInode (fun _ => 65) 0 1 = .ok (1, d1, ip1) ∧
      readi d1 ip1 (fun _ => 0) 0 1 = .ok (1, dst', d2, ip2) ∧
      dst' 0 = 65 ∧ ip1.size = 1 ∧ ip1.addr 0 ≠ 0 := by
  obtain ⟨d1, ip1, dst', d2, ip2, hok, hok2, hrt, hfresh⟩ :=
    C6_roundtrip exDisk exInode (fun _ => 65) (fun _ => 0) 0 1 (by decide) exWF rfl
      (by decide) (by rw [maxfile_val, bsize_val]; omega) (by rw [exFree]; omega)
  obtain ⟨hsz, hdir, hind⟩ := hfresh rfl rfl
  exact ⟨d1, ip1, dst', d2, ip2, hok, hok2, hrt 0 (by omega), hsz,
    hdir 0 (by rw [ndirect_val]; omega) (by rw [bsize_val]; omega)⟩

/-! ## `itrunc` and `iput`'s teardown (claim C1) -/

theorem updF_self {α : Type} (f : Nat → α) (i : Nat) (v : α) : updF f i v i = v := by
  rw [updF, if_pos rfl]

theorem updF_other {α : Type} (f : Nat → α) (i j : Nat) (v : α) (h : j ≠ i) :
    updF f i v j = f j := by
  rw [updF, if_neg h]

theorem updF_updF {α : Type} (f : Nat → α) (i : Nat) (a b : α) :
    updF (updF f i a) i b = updF f i b := by
  funext j
  rw [updF, updF, updF]
  split <;> rfl

/-- Re-establish `WF` after the block of slot `s0` has been freed: the slot
zeroed, the block's bit cleared and its contents zeroed. -/
theorem WF_delBlock (d d' : Disk) (ip ip' : Inode) (s0 b : Nat) (hWF : WF d ip)
    (hs0 : s0 ≤ MAXFILE) (hb : slotAddr d ip s0 = b) (hb0 : b ≠ 0)
    (hslot : ∀ s, s ≠ s0 → slotAddr d' ip' s = slotAddr d ip s)
    (hnew : slotAddr d' ip' s0 = 0)
    (hbm : d'.bitmap = updF d.bitmap b false)
    (hbl : d'.blocks = updF d.blocks b zeroBlk)
    (hlen : ip'.addrs.length = NDIRECT + 1) (hsize : ip'.size = ip.size)
    (hsb : d'.sbSize = d.sbSize) : WF d' ip' := by
  have hbne : ∀ s, s ≤ MAXFILE → s ≠ s0 → slotAddr d ip s ≠ 0 → slotAddr d ip s ≠ b := by
    intro s hs hss hnz
    rw [← hb]
    exact hWF.inj s s0 hs hs0 hss hnz
  constructor
  · exact hlen
  · intro s t hs ht hst hnz
    by_cases hss : s = s0
    · rw [hss, hnew] at hnz
      exact absurd rfl hnz
    · rw [hslot s hss] at hnz ⊢
      by_cases hts : t = s0
      · rw [hts, hnew]
        exact hnz
      · rw [hslot t hts]
        exact hWF.inj s t hs ht hst hnz
  · intro s hs hnz
    by_cases hss : s = s0
    · rw [hss, hnew] at hnz
      exact absurd rfl hnz
    · rw [hslot s hss] at hnz ⊢
      obtain ⟨h1, h2⟩ := hWF.marked s hs hnz
      refine ⟨by rw [hsb]; exact h1, ?_⟩
      rw [hbm, updF_other _ _ _ _ (hbne s hs hss hnz)]
      exact h2
  · rw [hbm, updF_other _ _ _ _ (fun h => hb0 h.symm)]
    exact hWF.boot
  · intro x hx
    rw [hbl]
    by_cases hxb : x = b
    · rw [hxb, updF_self]
    · rw [updF_other _ _ _ _ hxb]
      rw [hbm, updF_other _ _ _ _ hxb] at hx
      exact hWF.freeZero x hx
  · rw [hsize]
    exact hWF.sizeLe
  · rw [hsb]
    exact hWF.sbLt

theorem freeDirects_spec (fuel : Nat) : ∀ d ip i, WF d ip → NDIRECT - i ≤ fuel →
    ∃ d1 ip1, freeDirects d ip i = .ok (d1, ip1) ∧ WF d1 ip1 ∧
      ip1 = { ip with addrs := ip1.addrs } ∧
      (∀ j, j < i → ip1.addr j = ip.addr j) ∧
      (∀ j, i ≤ j → j < NDIRECT → ip1.addr j = 0) ∧
      ip1.addr NDIRECT = ip.addr NDIRECT ∧
      (∀ j, i ≤ j → j < NDIRECT → ip.addr j ≠ 0 →
        d1.bitmap (ip.addr j) = false ∧ d1.blocks (ip.addr j) = zeroBlk) ∧
      (∀ b, (∀ j, i ≤ j → j < NDIRECT → ip.addr j = 0 ∨ ip.addr j ≠ b) →
        d1.bitmap b = d.bitmap b ∧ d1.blocks b = d.blocks b) ∧
      d1.dinodes = d.dinodes ∧ d1.sbSize = d.sbSize ∧ d1.ninodes = d.ninodes := by
  induction fuel with
  | zero =>
    intro d ip i hWF hfuel
    have hni : ¬ i < NDIRECT := by omega
    refine ⟨d, ip, ?_, hWF, rfl, fun _ _ => rfl, fun j hj1 hj2 => absurd hj2 (by omega),
      rfl, fun j hj1 hj2 _ => absurd hj2 (by omega), fun _ _ => ⟨rfl, rfl⟩, rfl, rfl, rfl⟩
    unfold freeDirects
    rw [if_neg hni]
  | succ f ih =>
    intro d ip i hWF hfuel
    have eN := ndirect_val
    have eNI := nindirect_val
    have eM := maxfile_val
    by_cases hi : i < NDIRECT
    · by_cases hz : ip.addr i = 0
      · obtain ⟨d1, ip1, hok, hWF1, hipEq, hlow, hmid, hindp, hfreed, hframe, hdin, hsb, hni⟩ :=
          ih d ip (i + 1) hWF (by omega)
        refine ⟨d1, ip1, ?_, hWF1, hipEq, fun j hj => hlow j (by omega), ?_, hindp, ?_, ?_,
          hdin, hsb, hni⟩
        · unfold freeDirects
          rw [if_pos hi, if_neg (by simpa using hz)]
          exact hok
        · intro j hj1 hj2
          by_cases hji : j = i
          · rw [hji, hlow i (by omega)]
            exact hz
          · exact hmid j (by omega) hj2
        · intro j hj1 hj2 hjz
          have hji : j ≠ i := fun h => hjz (h ▸ hz)
          exact hfreed j (by omega) hj2 hjz
        · intro b hb
          exact hframe b (fun j hj1 hj2 => hb j (by omega) hj2)
      · have hmk : d.bitmap (ip.addr i) = true := by
          have h := (hWF.marked (i + 1) (by omega)
            (by rw [slotAddr_succ, blockAddr_direct _ _ _ hi]; exact hz)).2
          rw [slotAddr_succ, blockAddr_direct _ _ _ hi] at h
          exact h
        have hbf := bfree_spec d (ip.addr i) hmk
        set dB : Disk := { d with bitmap := updF d.bitmap (ip.addr i) false,
                                  blocks := updF d.blocks (ip.addr i) zeroBlk } with hdB
        set ipB : Inode := { ip with addrs := ip.addrs.set i 0 } with hipB
        have hleni : i < ip.addrs.length := by rw [hWF.addrsLen]; omega
        have hBind : ipB.addr NDIRECT = ip.addr NDIRECT :=
          addr_set_other ip i NDIRECT 0 (by omega)
        have hBlow : ∀ j, j ≠ i → ipB.addr j = ip.addr j := by
          intro j hj
          exact addr_set_other ip i j 0 hj
        have hBind_ne : ip.addr NDIRECT ≠ 0 → ip.addr i ≠ ip.addr NDIRECT := by
          intro hnz
          have h := hWF.inj (i + 1) 0 (by omega) (by omega) (Nat.succ_ne_zero _)
            (by rw [slotAddr_succ, blockAddr_direct _ _ _ hi]; exact hz)
          rw [slotAddr_succ, blockAddr_direct _ _ _ hi, slotAddr_zero] at h
          exact h
        have hDirNe : ∀ j1, j1 < NDIRECT → j1 ≠ i → ip.addr j1 = 0 ∨ ip.addr j1 ≠ ip.addr i := by
          intro j1 hj1 hji
          by_cases hz1 : ip.addr j1 = 0
          · exact Or.inl hz1
          · refine Or.inr ?_
            have hne := hWF.inj (j1 + 1) (i + 1) (by omega) (by omega) (by omega)
              (by rw [slotAddr_succ, blockAddr_direct _ _ _ hj1]; exact hz1)
            rw [slotAddr_succ, slotAddr_succ, blockAddr_direct _ _ _ hj1,
              blockAddr_direct _ _ _ hi] at hne
            exact hne
        have hslotB : ∀ s, s ≠ i + 1 → slotAddr dB ipB s = slotAddr d ip s := by
          intro s hs
          match s with
          | 0 =>
            rw [slotAddr_zero, slotAddr_zero, hBind]
          | j + 1 =>
            rw [slotAddr_succ, slotAddr_succ]
            by_cases hj : j < NDIRECT
            · rw [blockAddr_direct _ _ _ hj, blockAddr_direct _ _ _ hj,
                hBlow j (by omega)]
            · by_cases hiz : ip.addr NDIRECT = 0
              · rw [blockAddr_ind0 _ _ _ hj (by rw [hBind]; exact hiz),
                  blockAddr_ind0 _ _ _ hj hiz]
              · rw [blockAddr_ind _ _ _ hj (by rw [hBind]; exact hiz),
                  blockAddr_ind _ _ _ hj hiz, hBind]
                show blkGetU32 (updF d.blocks (ip.addr i) zeroBlk (ip.addr NDIRECT)) _ = _
                rw [updF_other _ _ _ _ (fun h => hBind_ne hiz h.symm)]
        have hnewB : slotAddr dB ipB (i + 1) = 0 := by
          rw [slotAddr_succ, blockAddr_direct _ _ _ hi, hipB, addr_set_self ip i 0 hleni]
        have hWFB : WF dB ipB :=
          WF_delBlock d dB ip ipB (i + 1) (ip.addr i) hWF (by omega)
            (by rw [slotAddr_succ, blockAddr_direct _ _ _ hi])
            hz hslotB hnewB rfl rfl (by rw [hipB, List.length_set]; exact hWF.addrsLen) rfl rfl
        obtain ⟨d1, ip1, hok, hWF1, hipEq, hlow, hmid, hindp, hfreed, hframe, hdin, hsb, hni⟩ :=
          ih dB ipB (i + 1) hWFB (by omega)
        refine ⟨d1, ip1, ?_, hWF1, ?_, ?_, ?_, ?_, ?_, ?_, by rw [hdin], by rw [hsb], by rw [hni]⟩
        · unfold freeDirects
          rw [if_pos hi, if_pos (by simpa using hz), hbf]
          exact hok
        · rw [hipEq, hipB]
        · intro j hj
          rw [hlow j (by omega), hBlow j (by omega)]
        · intro j hj1 hj2
          by_cases hji : j = i
          · rw [hji, hlow i (by omega), hipB, addr_set_self ip i 0 hleni]
          · exact hmid j (by omega) hj2
        · rw [hindp, hBind]
        · intro j hj1 hj2 hjz
          have hfrB : ∀ j1, i + 1 ≤ j1 → j1 < NDIRECT →
              ipB.addr j1 = 0 ∨ ipB.addr j1 ≠ ip.addr i := by
            intro j1 hj1' hj2'
            rw [hBlow j1 (by omega)]
            exact hDirNe j1 hj2' (by omega)
          by_cases hji : j = i
          · subst hji
            have hfr := hframe (ip.addr j) hfrB
            have h1 : dB.bitmap (ip.addr j) = false := updF_self _ _ _
            have h2 : dB.blocks (ip.addr j) = zeroBlk := updF_self _ _ _
            exact ⟨by rw [hfr.1, h1], by rw [hfr.2, h2]⟩
          · have h := hfreed j (by omega) hj2 (by rw [hBlow j hji]; exact hjz)
            rw [hBlow j hji] at h
            exact h
        · intro bb hbb
          by_cases hbbb : bb = ip.addr i
          · rcases hbb i (by omega) hi with hc | hc
            · exact absurd hc hz
            · exact absurd hbbb.symm hc
          · have hfr := hframe bb ?_
            · have h1 : dB.bitmap bb = d.bitmap bb := updF_other _ _ _ _ hbbb
              have h2 : dB.blocks bb = d.blocks bb := updF_other _ _ _ _ hbbb
              exact ⟨by rw [hfr.1, h1], by rw [hfr.2, h2]⟩
            · intro j hj1 hj2
              rw [hBlow j (by omega)]
              exact hbb j (by omega) hj2
    · have hni2 : ¬ i < NDIRECT := hi
      refine ⟨d, ip, ?_, hWF, rfl, fun _ _ => rfl, fun j hj1 hj2 => absurd hj2 (by omega),
        rfl, fun j hj1 hj2 _ => absurd hj2 (by omega), fun _ _ => ⟨rfl, rfl⟩, rfl, rfl, rfl⟩
      unfold freeDirects
      rw [if_neg hni2]

theorem freeIndirects_spec (fuel : Nat) : ∀ d a j,
    (∀ j1, j ≤ j1 → j1 < NINDIRECT → blkGetU32 a j1 ≠ 0 →
      d.bitmap (blkGetU32 a j1) = true) →
    (∀ j1 j2, j ≤ j1 → j1 < NINDIRECT → j ≤ j2 → j2 < NINDIRECT → j1 ≠ j2 →
      blkGetU32 a j1 ≠ 0 → blkGetU32 a j1 ≠ blkGetU32 a j2) →
    NINDIRECT - j ≤ fuel →
    ∃ d1, freeIndirects d a j = .ok d1 ∧
      (∀ j1, j ≤ j1 → j1 < NINDIRECT → blkGetU32 a j1 ≠ 0 →
        d1.bitmap (blkGetU32 a j1) = false ∧ d1.blocks (blkGetU32 a j1) = zeroBlk) ∧
      (∀ b, (∀ j1, j ≤ j1 → j1 < NINDIRECT → blkGetU32 a j1 = 0 ∨ blkGetU32 a j1 ≠ b) →
        d1.bitmap b = d.bitmap b ∧ d1.blocks b = d.blocks b) ∧
      d1.dinodes = d.dinodes ∧ d1.sbSize = d.sbSize ∧ d1.ninodes = d.ninodes := by
  induction fuel with
  | zero =>
    intro d a j hmk hinj hfuel
    have hnj : ¬ j < NINDIRECT := by omega
    refine ⟨d, ?_, fun j1 hj1 hj2 _ => absurd hj2 (by omega), fun _ _ => ⟨rfl, rfl⟩,
      rfl, rfl, rfl⟩
    unfold freeIndirects
    rw [if_neg hnj]
  | succ f ih =>
    intro d a j hmk hinj hfuel
    by_cases hj : j < NINDIRECT
    · by_cases hz : blkGetU32 a j = 0
      · obtain ⟨d1, hok, hfreed, hframe, hdin, hsb, hni⟩ :=
          ih d a (j + 1) (fun j1 h1 h2 h3 => hmk j1 (by omega) h2 h3)
            (fun j1 j2 h1 h2 h3 h4 h5 h6 => hinj j1 j2 (by omega) h2 (by omega) h4 h5 h6)
            (by omega)
        refine ⟨d1, ?_, ?_, ?_, hdin, hsb, hni⟩
        · unfold freeIndirects
          rw [if_pos hj, if_neg (by simpa using hz)]
          exact hok
        · intro j1 hj1 hj2 hnz
          have hjj : j1 ≠ j := fun h => hnz (h ▸ hz)
          exact hfreed j1 (by omega) hj2 hnz
        · intro b hb
          exact hframe b (fun j1 h1 h2 => hb j1 (by omega) h2)
      · have hbf := bfree_spec d (blkGetU32 a j) (hmk j (le_refl j) hj hz)
        set dB : Disk := { d with bitmap := updF d.bitmap (blkGetU32 a j) false,
                                  blocks := updF d.blocks (blkGetU32 a j) zeroBlk } with hdB
        have hmkB : ∀ j1, j + 1 ≤ j1 → j1 < NINDIRECT → blkGetU32 a j1 ≠ 0 →
            dB.bitmap (blkGetU32 a j1) = true := by
          intro j1 h1 h2 h3
          have hne : blkGetU32 a j1 ≠ blkGetU32 a j :=
            hinj j1 j (by omega) h2 (le_refl j) hj (by omega) h3
          have h4 := hmk j1 (by omega) h2 h3
          show updF d.bitmap (blkGetU32 a j) false (blkGetU32 a j1) = true
          rw [updF_other _ _ _ _ hne]
          exact h4
        obtain ⟨d1, hok, hfreed, hframe, hdin, hsb, hni⟩ :=
          ih dB a (j + 1) hmkB
            (fun j1 j2 h1 h2 h3 h4 h5 h6 => hinj j1 j2 (by omega) h2 (by omega) h4 h5 h6)
            (by omega)
        refine ⟨d1, ?_, ?_, ?_, by rw [hdin], by rw [hsb], by rw [hni]⟩
        · unfold freeIndirects
          rw [if_pos hj, if_pos (by simpa using hz), hbf]
          exact hok
        · intro j1 hj1 hj2 hnz
          by_cases hjj : j1 = j
          · subst hjj
            have hfr := hframe (blkGetU32 a j1) ?_
            · have h1 : dB.bitmap (blkGetU32 a j1) = false := updF_self _ _ _
              have h2 : dB.blocks (blkGetU32 a j1) = zeroBlk := updF_self _ _ _
              exact ⟨by rw [hfr.1, h1], by rw [hfr.2, h2]⟩
            · intro j2 h1 h2
              by_cases hz2 : blkGetU32 a j2 = 0
              · exact Or.inl hz2
              · exact Or.inr (hinj j2 j1 (by omega) h2 (le_refl j1) hj (by omega) hz2)
          · exact hfreed j1 (by omega) hj2 hnz
        · intro b hb
          by_cases hbb : b = blkGetU32 a j
          · rcases hb j (le_refl j) hj with hc | hc
            · exact absurd hc hz
            · exact absurd hbb.symm hc
          · have hfr := hframe b (fun j1 h1 h2 => hb j1 (by omega) h2)
            have h1 : dB.bitmap b = d.bitmap b := updF_other _ _ _ _ hbb
            have h2 : dB.blocks b = d.blocks b := updF_other _ _ _ _ hbb
            exact ⟨by rw [hfr.1, h1], by rw [hfr.2, h2]⟩
    · refine ⟨d, ?_, fun j1 hj1 hj2 _ => absurd hj2 (by omega), fun _ _ => ⟨rfl, rfl⟩,
        rfl, rfl, rfl⟩
      unfold freeIndirects
      rw [if_neg hj]

theorem WF_allZero (d : Disk) (ip : Inode) (hlen : ip.addrs.length = NDIRECT + 1)
    (hz : ∀ s, slotAddr d ip s = 0) (hboot : d.bitmap 0 = true)
    (hfz : ∀ b, d.bitmap b = false → d.blocks b = zeroBlk)
    (hsz : ip.size ≤ MAXFILE * BSIZE) (hsb : d.sbSize < U32) : WF d ip :=
  ⟨hlen, fun s t hs ht hst hnz => absurd (hz s) hnz,
    fun s hs hnz => absurd (hz s) hnz, hboot, hfz, hsz, hsb⟩

theorem slotAddr_of_addr0 (d : Disk) (ip : Inode) (h : ∀ j, ip.addr j = 0) :
    ∀ s, slotAddr d ip s = 0 := by
  intro s
  match s with
  | 0 => exact h NDIRECT
  | bn + 1 =>
    rw [slotAddr_succ]
    by_cases hb : bn < NDIRECT
    · rw [blockAddr_direct _ _ _ hb]
      exact h bn
    · exact blockAddr_ind0 _ _ _ hb (h NDIRECT)

theorem addr_of_ge_len (ip : Inode) (j : Nat) (h : ip.addrs.length ≤ j) : ip.addr j = 0 := by
  rw [Inode.addr, List.getD_eq_default]
  exact h

theorem itrunc_spec (d : Disk) (ip : Inode) (hWF : WF d ip) :
    ∃ d1 ip1, itrunc d ip = .ok (d1, ip1) ∧
      (∀ j, ip1.addr j = 0) ∧ ip1.size = 0 ∧
      ip1 = { ip with addrs := ip1.addrs, size := 0 } ∧
      d1.dinodes = updF d.dinodes ip.inum (dinodeOf ip1) ∧
      (∀ s, s ≤ MAXFILE → slotAddr d ip s ≠ 0 →
        d1.bitmap (slotAddr d ip s) = false ∧ d1.blocks (slotAddr d ip s) = zeroBlk) ∧
      (∀ b, (∀ s, s ≤ MAXFILE → slotAddr d ip s = 0 ∨ slotAddr d ip s ≠ b) →
        d1.bitmap b = d.bitmap b ∧ d1.blocks b = d.blocks b) ∧
      d1.sbSize = d.sbSize ∧ d1.ninodes = d.ninodes ∧ WF d1 ip1 := by
  have eN := ndirect_val
  have eNI := nindirect_val
  have eM := maxfile_val
  obtain ⟨dA, ipA, hokA, hWFA, hipEqA, hlowA, hmidA, hindA, hfreedA, hframeA, hdinA, hsbA, hniA⟩ :=
    freeDirects_spec NDIRECT d ip 0 hWF (by omega)
  have hlenA : ipA.addrs.length = NDIRECT + 1 := hWFA.addrsLen
  have hinumA : ipA.inum = ip.inum := by rw [hipEqA]
  have hframe0 : ∀ b, (∀ s, s ≤ MAXFILE → slotAddr d ip s = 0 ∨ slotAddr d ip s ≠ b) →
      dA.bitmap b = d.bitmap b ∧ dA.blocks b = d.blocks b := by
    intro b hb
    refine hframeA b ?_
    intro j hj1 hj2
    have := hb (j + 1) (by omega)
    rw [slotAddr_succ, blockAddr_direct _ _ _ hj2] at this
    exact this
  by_cases hiz : ip.addr NDIRECT = 0
  · -- no indirect block
    set ip3 : Inode := { ipA with size := 0 } with hip3
    have haddr3 : ∀ j, ip3.addr j = 0 := by
      intro j
      show ipA.addr j = 0
      by_cases hj : j < NDIRECT
      · exact hmidA j (by omega) hj
      · by_cases hj2 : j = NDIRECT
        · rw [hj2, hindA]
          exact hiz
        · exact addr_of_ge_len ipA j (by omega)
    have hcomp : itrunc d ip = .ok (iupdate dA ip3, ip3) := by
      rw [itrunc]
      simp only [hokA]
      rw [if_neg (not_not_intro (by rw [hindA]; exact hiz))]
    have hboot1 : dA.bitmap 0 = true := by
      have := hframe0 0 ?_
      · rw [this.1]
        exact hWF.boot
      · intro s hs
        by_cases hzs : slotAddr d ip s = 0
        · exact Or.inl hzs
        · exact Or.inr hzs
    have hfz1 : ∀ b, dA.bitmap b = false → dA.blocks b = zeroBlk := by
      intro x hx
      by_cases hex : ∃ j, j < NDIRECT ∧ ip.addr j = x ∧ ip.addr j ≠ 0
      · obtain ⟨j, hj, hjx, hjz⟩ := hex
        rw [← hjx]
        exact (hfreedA j (by omega) hj hjz).2
      · push_neg at hex
        have hfr := hframeA x ?_
        · rw [hfr.2]
          refine hWF.freeZero x ?_
          rw [← hfr.1]
          exact hx
        · intro j hj1 hj2
          by_cases hzj : ip.addr j = 0
          · exact Or.inl hzj
          · refine Or.inr ?_
            intro haj
            exact hzj (hex j hj2 haj)
    refine ⟨iupdate dA ip3, ip3, hcomp, haddr3, rfl, ?_, ?_, ?_, ?_,
      (show dA.sbSize = d.sbSize from hsbA), (show dA.ninodes = d.ninodes from hniA), ?_⟩
    · conv_lhs => rw [hip3, hipEqA]
    · show updF dA.dinodes ip3.inum (dinodeOf ip3) = _
      have h3 : ip3.inum = ip.inum := hinumA
      rw [h3, hdinA]
    · intro s hs hnz
      match s with
      | 0 =>
        rw [slotAddr_zero] at hnz
        exact absurd hiz hnz
      | bn + 1 =>
        rw [slotAddr_succ] at hnz ⊢
        by_cases hb : bn < NDIRECT
        · rw [blockAddr_direct _ _ _ hb] at hnz ⊢
          exact hfreedA bn (by omega) hb hnz
        · rw [blockAddr_ind0 _ _ _ hb hiz] at hnz
          exact absurd rfl hnz
    · intro b hb
      exact hframe0 b hb
    · refine WF_allZero _ _ hlenA (slotAddr_of_addr0 _ _ haddr3) hboot1 hfz1
        (Nat.zero_le _) ?_
      show dA.sbSize < U32
      rw [hsbA]
      exact hWF.sbLt
  · -- free the indirect entries, then the indirect block
    have hiaddrA : ipA.addr NDIRECT = ip.addr NDIRECT := hindA
    have hDirOther : ∀ b, ip.addr NDIRECT = b →
        (∀ j, 0 ≤ j → j < NDIRECT → ip.addr j = 0 ∨ ip.addr j ≠ b) := by
      intro b hbeq j hj1 hj2
      by_cases hzj : ip.addr j = 0
      · exact Or.inl hzj
      · refine Or.inr ?_
        have hne := hWF.inj (j + 1) 0 (by omega) (by omega) (Nat.succ_ne_zero _)
          (by rw [slotAddr_succ, blockAddr_direct _ _ _ hj2]; exact hzj)
        rw [slotAddr_succ, slotAddr_zero, blockAddr_direct _ _ _ hj2] at hne
        rw [← hbeq]
        exact hne
    have hblkA : dA.blocks (ip.addr NDIRECT) = d.blocks (ip.addr NDIRECT) :=
      (hframeA (ip.addr NDIRECT) (hDirOther _ rfl)).2
    have hbmA : dA.bitmap (ip.addr NDIRECT) = d.bitmap (ip.addr NDIRECT) :=
      (hframeA (ip.addr NDIRECT) (hDirOther _ rfl)).1
    have hEntry : ∀ j1, j1 < NINDIRECT →
        blkGetU32 (dA.blocks (ipA.addr NDIRECT)) j1 = slotAddr d ip (NDIRECT + j1 + 1) := by
      intro j1 hj1
      rw [hiaddrA, hblkA, slotAddr_succ,
        blockAddr_ind d ip (NDIRECT + j1) (by omega) hiz]
      congr 1
      omega
    have hEntryNeDir : ∀ j1 j, j1 < NINDIRECT → j < NDIRECT →
        slotAddr d ip (NDIRECT + j1 + 1) = 0 ∨
        ip.addr j = 0 ∨ ip.addr j ≠ slotAddr d ip (NDIRECT + j1 + 1) := by
      intro j1 j hj1 hj
      by_cases he : slotAddr d ip (NDIRECT + j1 + 1) = 0
      · exact Or.inl he
      · by_cases hzj : ip.addr j = 0
        · exact Or.inr (Or.inl hzj)
        · refine Or.inr (Or.inr ?_)
          have hne := hWF.inj (j + 1) (NDIRECT + j1 + 1) (by omega) (by omega) (by omega)
            (by rw [slotAddr_succ, blockAddr_direct _ _ _ hj]; exact hzj)
          rw [slotAddr_succ, blockAddr_direct _ _ _ hj] at hne
          exact hne
    have hMkB : ∀ j1, 0 ≤ j1 → j1 < NINDIRECT →
        blkGetU32 (dA.blocks (ipA.addr NDIRECT)) j1 ≠ 0 →
        dA.bitmap (blkGetU32 (dA.blocks (ipA.addr NDIRECT)) j1) = true := by
      intro j1 hj1' hj1 hnz
      rw [hEntry j1 hj1] at hnz ⊢
      have hmk := (hWF.marked (NDIRECT + j1 + 1) (by omega) hnz).2
      have hfr := hframeA (slotAddr d ip (NDIRECT + j1 + 1)) ?_
      · rw [hfr.1]
        exact hmk
      · intro j hja hjb
        rcases hEntryNeDir j1 j hj1 hjb with hc | hc
        · exact absurd hc hnz
        · exact hc
    have hInjB : ∀ j1 j2, 0 ≤ j1 → j1 < NINDIRECT → 0 ≤ j2 → j2 < NINDIRECT → j1 ≠ j2 →
        blkGetU32 (dA.blocks (ipA.addr NDIRECT)) j1 ≠ 0 →
        blkGetU32 (dA.blocks (ipA.addr NDIRECT)) j1 ≠
          blkGetU32 (dA.blocks (ipA.addr NDIRECT)) j2 := by
      intro j1 j2 hj1' hj1 hj2' hj2 hne hnz
      rw [hEntry j1 hj1] at hnz
      rw [hEntry j1 hj1, hEntry j2 hj2]
      exact hWF.inj (NDIRECT + j1 + 1) (NDIRECT + j2 + 1) (by omega) (by omega)
        (by omega) hnz
    obtain ⟨dB, hokB, hfreedB, hframeB, hdinB, hsbB, hniB⟩ :=
      freeIndirects_spec NINDIRECT dA (dA.blocks (ipA.addr NDIRECT)) 0 hMkB hInjB (by omega)
    -- after the entry loop, free the indirect block itself
    have hbmB : dB.bitmap (ip.addr NDIRECT) = true := by
      have hfr := hframeB (ip.addr NDIRECT) ?_
      · rw [hfr.1, hbmA]
        have := (hWF.marked 0 (by omega) (by rw [slotAddr_zero]; exact hiz)).2
        rw [slotAddr_zero] at this
        exact this
      · intro j1 hj1' hj1
        rw [hEntry j1 hj1]
        by_cases he : slotAddr d ip (NDIRECT + j1 + 1) = 0
        · exact Or.inl he
        · refine Or.inr ?_
          have hne := hWF.inj (NDIRECT + j1 + 1) 0 (by omega) (by omega)
            (Nat.succ_ne_zero _) he
          rw [slotAddr_zero] at hne
          exact hne
    have hbfC := bfree_spec dB (ip.addr NDIRECT) hbmB
    set dC : Disk := { dB with bitmap := updF dB.bitmap (ip.addr NDIRECT) false,
                               blocks := updF dB.blocks (ip.addr NDIRECT) zeroBlk } with hdC
    set ip2 : Inode := { ipA with addrs := ipA.addrs.set NDIRECT 0 } with hip2
    set ip3 : Inode := { ip2 with size := 0 } with hip3
    have hlen2 : NDIRECT < ipA.addrs.length := by rw [hlenA]; omega
    have haddr3 : ∀ j, ip3.addr j = 0 := by
      intro j
      show ip2.addr j = 0
      by_cases hj : j < NDIRECT
      · rw [hip2, addr_set_other ipA NDIRECT j 0 (by omega)]
        exact hmidA j (by omega) hj
      · by_cases hj2 : j = NDIRECT
        · rw [hj2, hip2, addr_set_self ipA NDIRECT 0 hlen2]
        · refine addr_of_ge_len ip2 j ?_
          rw [hip2]
          show (ipA.addrs.set NDIRECT 0).length ≤ j
          rw [List.length_set, hlenA]
          omega
    have hcomp : itrunc d ip = .ok (iupdate dC ip3, ip3) := by
      have hbfC2 : bfree dB (ipA.addr NDIRECT) = .ok dC := by
        rw [hindA]
        exact hbfC
      rw [itrunc]
      simp only [hokA]
      rw [if_pos (by rw [hindA]; exact hiz)]
      simp only [hokB, hbfC2]
    -- bitmap/blocks of dC relative to d
    have hfreedAll : ∀ s, s ≤ MAXFILE → slotAddr d ip s ≠ 0 →
        dC.bitmap (slotAddr d ip s) = false ∧ dC.blocks (slotAddr d ip s) = zeroBlk := by
      intro s hs hnz
      match s with
      | 0 =>
        rw [slotAddr_zero] at hnz ⊢
        exact ⟨updF_self _ _ _, updF_self _ _ _⟩
      | bn + 1 =>
        rw [slotAddr_succ] at hnz ⊢
        by_cases hb : bn < NDIRECT
        · -- a direct block: freed in dA, untouched afterwards
          rw [blockAddr_direct _ _ _ hb] at hnz ⊢
          have h1 := hfreedA bn (by omega) hb hnz
          have hne0 : ip.addr bn ≠ ip.addr NDIRECT := by
            rcases hDirOther (ip.addr NDIRECT) rfl bn (by omega) hb with hc | hc
            · exact absurd hc hnz
            · exact hc
          have hfrB := hframeB (ip.addr bn) ?_
          · refine ⟨?_, ?_⟩
            · show updF dB.bitmap (ip.addr NDIRECT) false (ip.addr bn) = false
              rw [updF_other _ _ _ _ hne0, hfrB.1]
              exact h1.1
            · show updF dB.blocks (ip.addr NDIRECT) zeroBlk (ip.addr bn) = zeroBlk
              rw [updF_other _ _ _ _ hne0, hfrB.2]
              exact h1.2
          · intro j1 hj1' hj1
            rw [hEntry j1 hj1]
            rcases hEntryNeDir j1 bn hj1 hb with hc | hc
            · exact Or.inl hc
            · rcases hc with hc | hc
              · exact absurd hc hnz
              · exact Or.inr (fun h => hc h.symm)
        · -- an indirect entry: freed in dB, untouched by the final bfree
          have hbn1 : bn - NDIRECT < NINDIRECT := by omega
          have hrw : blockAddr d ip bn = slotAddr d ip (NDIRECT + (bn - NDIRECT) + 1) := by
            rw [slotAddr_succ]
            congr 1
            omega
          rw [hrw] at hnz ⊢
          have h1 := hfreedB (bn - NDIRECT) (by omega) hbn1 ?_
          rotate_left
          · rw [hEntry _ hbn1]
            exact hnz
          rw [hEntry _ hbn1] at h1
          have hne0 : slotAddr d ip (NDIRECT + (bn - NDIRECT) + 1) ≠ ip.addr NDIRECT := by
            have hne := hWF.inj (NDIRECT + (bn - NDIRECT) + 1) 0 (by omega) (by omega)
              (Nat.succ_ne_zero _) hnz
            rw [slotAddr_zero] at hne
            exact hne
          refine ⟨?_, ?_⟩
          · show updF dB.bitmap (ip.addr NDIRECT) false _ = false
            rw [updF_other _ _ _ _ hne0]
            exact h1.1
          · show updF dB.blocks (ip.addr NDIRECT) zeroBlk _ = zeroBlk
            rw [updF_other _ _ _ _ hne0]
            exact h1.2
    have hframeAll : ∀ b, (∀ s, s ≤ MAXFILE → slotAddr d ip s = 0 ∨ slotAddr d ip s ≠ b) →
        dC.bitmap b = d.bitmap b ∧ dC.blocks b = d.blocks b := by
      intro b hb
      have hbia : b ≠ ip.addr NDIRECT := by
        rcases hb 0 (by omega) with hc | hc
        · rw [slotAddr_zero] at hc
          exact absurd hc hiz
        · rw [slotAddr_zero] at hc
          exact fun h => hc h.symm
      have hfrB := hframeB b ?_
      rotate_left
      · intro j1 hj1' hj1
        rw [hEntry j1 hj1]
        exact hb (NDIRECT + j1 + 1) (by omega)
      have hfrA := hframe0 b hb
      refine ⟨?_, ?_⟩
      · show updF dB.bitmap (ip.addr NDIRECT) false b = _
        rw [updF_other _ _ _ _ hbia, hfrB.1, hfrA.1]
      · show updF dB.blocks (ip.addr NDIRECT) zeroBlk b = _
        rw [updF_other _ _ _ _ hbia, hfrB.2, hfrA.2]
    have hboot1 : dC.bitmap 0 = true := by
      have := hframeAll 0 ?_
      · rw [this.1]
        exact hWF.boot
      · intro s hs
        by_cases hzs : slotAddr d ip s = 0
        · exact Or.inl hzs
        · exact Or.inr hzs
    have hfz1 : ∀ x, dC.bitmap x = false → dC.blocks x = zeroBlk := by
      intro x hx
      by_cases hex : ∃ s, s ≤ MAXFILE ∧ slotAddr d ip s = x ∧ slotAddr d ip s ≠ 0
      · obtain ⟨s, hs, hsx, hsz⟩ := hex
        rw [← hsx]
        exact (hfreedAll s hs hsz).2
      · push_neg at hex
        have hfr := hframeAll x ?_
        · rw [hfr.2]
          refine hWF.freeZero x ?_
          rw [← hfr.1]
          exact hx
        · intro s hs
          by_cases hzs : slotAddr d ip s = 0
          · exact Or.inl hzs
          · refine Or.inr ?_
            intro hsx
            exact hzs (hex s hs hsx)
    refine ⟨iupdate dC ip3, ip3, hcomp, haddr3, rfl, ?_, ?_, hfreedAll, hframeAll,
      ?_, ?_, ?_⟩
    · conv_lhs => rw [hip3, hip2, hipEqA]
    · show updF dC.dinodes ip3.inum (dinodeOf ip3) = _
      have h3 : ip3.inum = ip.inum := hinumA
      rw [h3]
      show updF dB.dinodes ip.inum (dinodeOf ip3) = _
      rw [hdinB, hdinA]
    · show dC.sbSize = d.sbSize
      rw [hdC]
      show dB.sbSize = d.sbSize
      rw [hsbB, hsbA]
    · show dC.ninodes = d.ninodes
      rw [hdC]
      show dB.ninodes = d.ninodes
      rw [hniB, hniA]
    · refine WF_allZero _ _ ?_ (slotAddr_of_addr0 _ _ haddr3) hboot1 hfz1
        (Nat.zero_le _) ?_
      · show (ipA.addrs.set NDIRECT 0).length = NDIRECT + 1
        rw [List.length_set]
        exact hlenA
      · show dC.sbSize < U32
        have h1 : dC.sbSize = d.sbSize := by
          rw [hdC]
          show dB.sbSize = d.sbSize
          rw [hsbB, hsbA]
        rw [h1]
        exact hWF.sbLt

/-! ## The teardown path of `iput` (claim C1) -/

/-- Claim C1: for every in-memory inode with `ref ≥ 1`, unlocked and
valid, `iput` decrements `ref`; and when the decrement reaches zero
while `nlink = 0`, the inode's contents are truncated — every data block
it referenced is freed (bitmap bit cleared, block zeroed) and its size
becomes 0 — its `type` (and `major`/`minor`) become 0, its `gen` counter
is incremented, and the result is written to the inode's disk slot via
`iupdate`. -/
theorem C1_iput (d : Disk) (ip : Inode) (hWF : WF d ip)
    (href : 1 ≤ ip.ref) (hbr : ip.busyr = false) (hbw : ip.busyw = false)
    (hv : ip.valid = true) :
    ∃ d' ip', iput d ip = .ok (d', ip') ∧ ip'.ref = ip.ref - 1 ∧
      (ip.ref = 1 → ip.nlink = 0 →
        (∀ j, ip'.addr j = 0) ∧ ip'.size = 0 ∧ ip'.type = 0 ∧ ip'.major = 0 ∧
        ip'.minor = 0 ∧ ip'.gen = ip.gen + 1 ∧
        d'.dinodes = updF d.dinodes ip.inum (dinodeOf ip') ∧
        (∀ s, s ≤ MAXFILE → slotAddr d ip s ≠ 0 →
          d'.bitmap (slotAddr d ip s) = false ∧
          d'.blocks (slotAddr d ip s) = zeroBlk)) := by
  by_cases hcase : ip.ref = 1 ∧ ip.nlink = 0
  · obtain ⟨hr1, hn0⟩ := hcase
    have hr0 : ip.ref - 1 = 0 := by omega
    have hWF1 : WF d { ip with
        ref := ip.ref - 1
        busyr := true
        busyw := true
        readbusy := ip.readbusy + 1 } :=
      ⟨hWF.addrsLen, hWF.inj, hWF.marked, hWF.boot, hWF.freeZero, hWF.sizeLe, hWF.sbLt⟩
    obtain ⟨dT, ipT, hokT, haddrT, hszT, hipEqT, hdinT, hfreedT, hframeT, hsbT, hniT, hWFT⟩ :=
      itrunc_spec d _ hWF1
    have hAcq : iputAcquire { ip with ref := ip.ref - 1 } =
        .ok { ip with
          ref := ip.ref - 1
          busyr := true
          busyw := true
          readbusy := ip.readbusy + 1 } := by
      rw [iputAcquire]
      simp [hbr, hbw, hv]
    refine ⟨iupdate dT { ipT with type := 0, major := 0, minor := 0, gen := ipT.gen + 1 },
      iputRelease { ipT with type := 0, major := 0, minor := 0, gen := ipT.gen + 1 },
      ?_, ?_, ?_⟩
    · rw [iput]
      simp only []
      rw [if_pos hr0, if_pos (⟨hr0, hn0⟩ : ip.ref - 1 = 0 ∧ ip.nlink = 0)]
      simp only [hAcq]
      simp only [hokT]
    · show ipT.ref = ip.ref - 1
      rw [hipEqT]
    · intro _ _
      have hinumT : ipT.inum = ip.inum := by rw [hipEqT]
      have hdin' : dT.dinodes = updF d.dinodes ip.inum (dinodeOf ipT) := by
        rw [hdinT]
      refine ⟨fun j => haddrT j, hszT, rfl, rfl, rfl, ?_, ?_, ?_⟩
      · show ipT.gen + 1 = ip.gen + 1
        rw [hipEqT]
      · show updF dT.dinodes ipT.inum
            (dinodeOf { ipT with type := 0, major := 0, minor := 0, gen := ipT.gen + 1 }) =
          updF d.dinodes ip.inum
            (dinodeOf { ipT with type := 0, major := 0, minor := 0, gen := ipT.gen + 1 })
        rw [hinumT, hdin', updF_updF]
      · intro s hs hnz
        exact hfreedT s hs hnz
  · refine ⟨d, { ip with ref := ip.ref - 1 }, ?_, rfl, ?_⟩
    · rw [iput]
      simp only []
      by_cases hr : ip.ref - 1 = 0
      · have hnl : ¬ (ip.ref - 1 = 0 ∧ ip.nlink = 0) := by
          intro hh
          exact hcase ⟨by omega, hh.2⟩
        rw [if_pos hr, if_neg hnl]
      · rw [if_neg hr]
    · intro h1 h2
      exact absurd ⟨h1, h2⟩ hcase

/-- Witness for C1: dropping the single reference of the unlinked cached
inode 2 of the example disk takes the teardown path. -/
theorem C1_witness :
    ∃ d' ip', iput exDisk { exInode with nlink := 0 } = .ok (d', ip') ∧
      ip'.ref = ({ exInode with nlink := 0 } : Inode).ref - 1 ∧
      (({ exInode with nlink := 0 } : Inode).ref = 1 →
        ({ exInode with nlink := 0 } : Inode).nlink = 0 →
        (∀ j, ip'.addr j = 0) ∧ ip'.size = 0 ∧ ip'.type = 0 ∧ ip'.major = 0 ∧
        ip'.minor = 0 ∧ ip'.gen = ({ exInode with nlink := 0 } : Inode).gen + 1 ∧
        d'.dinodes = updF exDisk.dinodes ({ exInode with nlink := 0 } : Inode).inum
          (dinodeOf ip') ∧
        (∀ s, s ≤ MAXFILE → slotAddr exDisk { exInode with nlink := 0 } s ≠ 0 →
          d'.bitmap (slotAddr exDisk { exInode with nlink := 0 } s) = false ∧
          d'.blocks (slotAddr exDisk { exInode with nlink := 0 } s) = zeroBlk)) :=
  C1_iput exDisk { exInode with nlink := 0 }
    ⟨exWF.addrsLen, exWF.inj, exWF.marked, exWF.boot, exWF.freeZero, exWF.sizeLe, exWF.sbLt⟩
    (by decide) rfl rfl rfl

/-! ## `ialloc` (claim C2) -/

theorem cacheLookup_inum {c : List Inode} {i : Nat} {e : Inode}
    (h : cacheLookup c i = some e) : e.inum = i := by
  have := List.find?_some h
  simpa using this

theorem cacheLookup_mem {c : List Inode} {i : Nat} {e : Inode}
    (h : cacheLookup c i = some e) : e ∈ c :=
  List.mem_of_find?_eq_some h

theorem cacheLookup_cacheSet_of_some (c : List Inode) (i : Nat) (b : Inode) (hb : b.inum = i) :
    ∀ e, cacheLookup c i = some e → cacheLookup (cacheSet c i b) i = some b := by
  induction c with
  | nil =>
    intro e h
    exact Option.noConfusion h
  | cons x rest ih =>
    intro e h
    by_cases hx : x.inum = i
    · show ((x :: rest).map fun y => if y.inum == i then b else y).find?
        (fun y => y.inum == i) = some b
      rw [List.map_cons]
      rw [List.find?_cons_of_pos]
      · rw [if_pos (by simp [hx])]
      · rw [if_pos (by simp [hx])]
        simp [hb]
    · have hpx : ¬ ((x.inum == i) = true) := by simp [hx]
      have h' : cacheLookup rest i = some e := by
        rw [cacheLookup] at h
        rw [@List.find?_cons_of_neg _ (fun y => y.inum == i) x rest hpx] at h
        exact h
      show ((x :: rest).map fun y => if y.inum == i then b else y).find?
        (fun y => y.inum == i) = some b
      rw [List.map_cons]
      rw [List.find?_cons_of_neg]
      · exact ih e h'
      · rw [if_neg (by simp [hx])]
        simp [hx]

theorem cacheLookup_none_not_mem {c : List Inode} {i : Nat} (h : cacheLookup c i = none) :
    ∀ e ∈ c, e.inum ≠ i := by
  intro e he
  have := List.find?_eq_none.mp h e he
  simpa using this

theorem cacheLookup_set_append (c : List Inode) (i : Nat) (x b : Inode)
    (hc : ∀ e ∈ c, e.inum ≠ i) (hx : x.inum = i) (hb : b.inum = i) :
    cacheLookup (cacheSet (c ++ [x]) i b) i = some b := by
  rw [cacheSet, List.map_append, cacheLookup, List.find?_append]
  have h1 : (c.map fun e => if e.inum == i then b else e).find?
      (fun e => e.inum == i) = none := by
    rw [List.find?_eq_none]
    intro y hy
    obtain ⟨z, hz, hzy⟩ := List.mem_map.mp hy
    have hne := hc z hz
    rw [← hzy, if_neg (by simp [hne])]
    simp [hne]
  rw [h1]
  simp [hx, hb]

theorem iallocLoop_skip (fuel : Nat) : ∀ (nino : Nat) (fs : FS) (dev t i i' : Nat),
    i ≤ i' → i' ≤ nino → i' - i ≤ fuel →
    (∀ j, i ≤ j → j < i' → (fs.disk.dinodes j).type ≠ 0) →
    iallocLoop nino fs dev t i = iallocLoop nino fs dev t i' := by
  induction fuel with
  | zero =>
    intro nino fs dev t i i' hle hub hf _
    have h : i = i' := by omega
    rw [h]
  | succ m ih =>
    intro nino fs dev t i i' hle hub hf hskip
    by_cases he : i = i'
    · rw [he]
    · have hlt : i < i' := by omega
      have h1 : iallocLoop nino fs dev t i = iallocLoop nino fs dev t (i + 1) := by
        conv_lhs => rw [iallocLoop]
        rw [if_pos (by omega : i < nino)]
        rw [if_neg (by simp only [beq_iff_eq]; exact hskip i (le_refl i) hlt)]
      rw [h1]
      exact ih nino fs dev t (i + 1) i' (by omega) hub (by omega)
        (fun j hj1 hj2 => hskip j (by omega) hj2)

/-- Claim C2: for every `type ≠ 0`, `ialloc(dev, type)` scans from inum 1;
at the first on-disk inode slot whose type is free it returns that inum,
with the cached entry locked (both busy flags, `readbusy = 1`), carrying
the requested type, zero `nlink`/`size`/`addrs`, and `gen` incremented, and
with the slot's dinode rewritten accordingly; and it panics with
"ialloc: no inodes" when no on-disk inode is free. -/
theorem C2_ialloc (fs : FS) (dev t i0 : Nat) (ht : t ≠ 0)
    (hCQ : CacheQuiet fs dev) (hFZ : FreeDinodesZeroed fs.disk) :
    (1 ≤ i0 → i0 < fs.disk.ninodes → (fs.disk.dinodes i0).type = 0 →
      (∀ j, 1 ≤ j → j < i0 → (fs.disk.dinodes j).type ≠ 0) →
      ∃ fs' ip2, ialloc fs dev t = .ok (fs', i0) ∧
        cacheLookup fs'.icache i0 = some ip2 ∧
        ip2.type = t ∧ ip2.busyr = true ∧ ip2.busyw = true ∧ ip2.readbusy = 1 ∧
        1 ≤ ip2.ref ∧ ip2.nlink = 0 ∧ ip2.size = 0 ∧ (∀ k, ip2.addr k = 0) ∧
        ip2.gen = (fs.disk.dinodes i0).gen + 1 ∧
        fs'.disk.dinodes = updF fs.disk.dinodes i0 (dinodeOf ip2)) ∧
    ((∀ j, 1 ≤ j → j < fs.disk.ninodes → (fs.disk.dinodes j).type ≠ 0) →
      ialloc fs dev t = .error "ialloc: no inodes") := by
  obtain ⟨hnd, hex, hall⟩ := hCQ
  constructor
  · intro h1 hlt hty hfirst
    have hFZ0 := hFZ i0 hlt hty
    have hskip : iallocLoop fs.disk.ninodes fs dev t 1 = iallocLoop fs.disk.ninodes fs dev t i0 :=
      iallocLoop_skip i0 fs.disk.ninodes fs dev t 1 i0 h1 (le_of_lt hlt) (by omega) hfirst
    cases hlk : cacheLookup fs.icache i0 with
    | some e =>
      -- hit path of iget
      have hmem := cacheLookup_mem hlk
      have hein : e.inum = i0 := cacheLookup_inum hlk
      obtain ⟨hfree, hrest⟩ := hall e hmem
      obtain ⟨hdev, hvalid, hbusyr, hbusyw, hrb, href0, hmirror⟩ :=
        hrest (by rw [hein]; exact hlt)
      rw [hein] at hmirror
      have hety : e.type = (fs.disk.dinodes i0).type := congrArg Dinode.type hmirror
      have hnlink : e.nlink = 0 := by
        have h := congrArg Dinode.nlink hmirror
        rw [show e.nlink = (fs.disk.dinodes i0).nlink from h]
        exact hFZ0.1
      have hsize : e.size = 0 := by
        have h := congrArg Dinode.size hmirror
        rw [show e.size = (fs.disk.dinodes i0).size from h]
        exact hFZ0.2.1
      have haddr0 : ∀ k, e.addrs.getD k 0 = 0 := by
        intro k
        have h := congrArg Dinode.addrs hmirror
        rw [show e.addrs = (fs.disk.dinodes i0).addrs from h]
        exact hFZ0.2.2 k
      have hgen : e.gen = (fs.disk.dinodes i0).gen := congrArg Dinode.gen hmirror
      have hIget : iget fs dev i0 = .ok ({ fs with icache := cacheSet fs.icache i0 { e with ref := e.ref + 1 } }, { e with ref := e.ref + 1 }) := by
        rw [iget]
        simp only [hlk]
        rw [if_neg (not_not_intro hdev)]
        simp [hfree, hvalid]
      have hLock : ilockV { e with ref := e.ref + 1 } true = .ok { e with ref := e.ref + 1, busyr := true, busyw := true, readbusy := 1 } := by
        rw [ilockV]
        rw [if_neg (show ¬(({ e with ref := e.ref + 1 } : Inode).ref < 1) by
          show ¬(e.ref + 1 < 1)
          omega)]
        simp [hbusyr, hbusyw, hvalid, hrb]
      set ip2H : Inode := { e with ref := e.ref + 1, busyr := true, busyw := true, readbusy := 1, type := t, gen := e.gen + 1 } with hip2H
      have hrun : iallocLoop fs.disk.ninodes fs dev t i0 = .ok ({ disk := iupdate fs.disk ip2H, icache := cacheSet (cacheSet fs.icache i0 { e with ref := e.ref + 1 }) i0 ip2H }, i0) := by
        rw [iallocLoop]
        rw [if_pos hlt]
        rw [if_pos (show ((fs.disk.dinodes i0).type == 0) = true by rw [hty]; rfl)]
        simp only [hIget]
        simp only [hLock]
        split
        · split
          · rename_i hg
            rcases hg with hg | hg | hg
            · exact absurd hnlink hg
            · exact absurd hsize hg
            · exact absurd (haddr0 0) hg
          · rfl
        · rename_i hg
          exact absurd (show (e.type == 0) = true by rw [hety, hty]; rfl) hg
      refine ⟨{ disk := iupdate fs.disk ip2H, icache := cacheSet (cacheSet fs.icache i0 { e with ref := e.ref + 1 }) i0 ip2H }, ip2H, ?_, ?_, rfl, rfl, rfl, rfl, ?_, hnlink, hsize,
        fun k => haddr0 k, ?_, ?_⟩
      · rw [ialloc, hskip]
        exact hrun
      · exact cacheLookup_cacheSet_of_some _ i0 ip2H hein _
          (cacheLookup_cacheSet_of_some _ i0 { e with ref := e.ref + 1 } hein _ hlk)
      · show 1 ≤ e.ref + 1
        omega
      · show e.gen + 1 = (fs.disk.dinodes i0).gen + 1
        rw [hgen]
      · show updF fs.disk.dinodes e.inum (dinodeOf ip2H) = updF fs.disk.dinodes i0 (dinodeOf ip2H)
        rw [hein]
    | none =>
      -- miss path of iget: evict a ref-zero entry and load the dinode
      obtain ⟨v, hv, hv0⟩ := hex
      have hevSome : (cacheEvict fs.icache).isSome := by
        rw [cacheEvict]
        refine List.find?_isSome.mpr ⟨v, hv, ?_⟩
        show (v.ref == 0) = true
        rw [hv0]
        rfl
      obtain ⟨victim, hvic⟩ := Option.isSome_iff_exists.mp hevSome
      have hnotmem := cacheLookup_none_not_mem hlk
      set ipF : Inode :=
        { dev := dev
          inum := i0
          ref := 1
          valid := true
          busyr := false
          busyw := false
          free := false
          readbusy := 0
          type := (fs.disk.dinodes i0).type
          major := (fs.disk.dinodes i0).major
          minor := (fs.disk.dinodes i0).minor
          nlink := (fs.disk.dinodes i0).nlink
          size := (fs.disk.dinodes i0).size
          gen := (fs.disk.dinodes i0).gen
          addrs := (fs.disk.dinodes i0).addrs } with hipF
      set ip2M : Inode := { ipF with busyr := true, busyw := true, readbusy := 1, type := t, gen := ipF.gen + 1 } with hip2M
      have hIget : iget fs dev i0 = .ok ({ fs with icache := cacheRemove fs.icache victim.inum ++ [ipF] }, ipF) := by
        rw [iget]
        simp only [hlk]
        simp only [hvic]
        rfl
      have hLockM : ilockV ipF true = .ok { ipF with busyr := true, busyw := true, readbusy := 1 } := rfl
      have hrun : iallocLoop fs.disk.ninodes fs dev t i0 = .ok ({ disk := iupdate fs.disk ip2M, icache := cacheSet (cacheRemove fs.icache victim.inum ++ [ipF]) i0 ip2M }, i0) := by
        rw [iallocLoop]
        rw [if_pos hlt]
        rw [if_pos (show ((fs.disk.dinodes i0).type == 0) = true by rw [hty]; rfl)]
        simp only [hIget]
        simp only [hLockM]
        split
        · split
          · rename_i hg
            rcases hg with hg | hg | hg
            · exact absurd hFZ0.1 hg
            · exact absurd hFZ0.2.1 hg
            · exact absurd (hFZ0.2.2 0) hg
          · rfl
        · rename_i hg
          exact absurd (show ((fs.disk.dinodes i0).type == 0) = true by rw [hty]; rfl) hg
      refine ⟨{ disk := iupdate fs.disk ip2M, icache := cacheSet (cacheRemove fs.icache victim.inum ++ [ipF]) i0 ip2M }, ip2M, ?_, ?_, rfl, rfl, rfl, rfl, le_refl 1, hFZ0.1, hFZ0.2.1,
        fun k => hFZ0.2.2 k, rfl, rfl⟩
      · rw [ialloc, hskip]
        exact hrun
      · refine cacheLookup_set_append _ i0 ipF ip2M ?_ rfl rfl
        intro x hx
        exact hnotmem x (List.mem_filter.mp hx).1
  · intro hallne
    rw [ialloc]
    by_cases h1 : 1 ≤ fs.disk.ninodes
    · have hskip := iallocLoop_skip fs.disk.ninodes fs.disk.ninodes fs dev t 1
        fs.disk.ninodes h1 (le_refl _) (by omega) hallne
      rw [hskip, iallocLoop, if_neg (lt_irrefl _)]
    · have hn : ¬ (1 < fs.disk.ninodes) := by omega
      rw [iallocLoop, if_neg hn]

theorem exFZ : FreeDinodesZeroed exDisk := by
  intro i hi hty
  by_cases h2 : i = 2
  · rw [h2] at hty
    exact absurd hty (by decide)
  · have he : exDisk.dinodes i = { type := 0, major := 0, minor := 0, nlink := 0, size := 0, gen := 0, addrs := List.replicate 13 0 } := if_neg h2
    rw [he]
    refine ⟨rfl, rfl, ?_⟩
    intro k
    show (List.replicate 13 0).getD k 0 = 0
    simp only [List.getD_eq_getElem?_getD, List.getElem?_replicate]
    split <;> rfl


theorem exCQ : CacheQuiet exFS 0 := by
  unfold CacheQuiet
  refine ⟨by decide, ⟨exVictim, by decide, by decide⟩, ?_⟩
  intro e he
  have h : e = exVictim := by
    rcases List.mem_singleton.mp he with h
    exact h
  rw [h]
  exact ⟨rfl, fun hlt => absurd hlt (by decide)⟩

/-- Witness for C2: allocating a `T_FILE` inode on the example system
takes slot 1 (the first free on-disk inode) through `iget`'s miss path. -/
theorem C2_witness :
    ∃ fs' ip2, ialloc exFS 0 T_FILE = .ok (fs', 1) ∧
      cacheLookup fs'.icache 1 = some ip2 ∧
      ip2.type = T_FILE ∧ ip2.busyr = true ∧ ip2.busyw = true ∧ ip2.readbusy = 1 ∧
      1 ≤ ip2.ref ∧ ip2.nlink = 0 ∧ ip2.size = 0 ∧ (∀ k, ip2.addr k = 0) ∧
      ip2.gen = (exFS.disk.dinodes 1).gen + 1 ∧
      fs'.disk.dinodes = updF exFS.disk.dinodes 1 (dinodeOf ip2) :=
  (C2_ialloc exFS 0 T_FILE 1 (by decide) exCQ exFZ).1 (le_refl 1) (by decide) (by decide)
    (fun j hj1 hj2 => absurd hj2 (by omega))

/-! ## `dirlookup` (claim C7) -/

theorem bmap_noop (d : Disk) (ip : Inode) (bn : Nat) (hWF : WF d ip) (hbn : bn < MAXFILE)
    (hnz : blockAddr d ip bn ≠ 0) : bmap d ip bn = .ok (blockAddr d ip bn, ip, d) := by
  obtain ⟨a, ip1, d1, hok, post⟩ := bmap_spec d ip bn hWF hbn (Or.inr hnz)
  obtain ⟨ha, hi, hdd⟩ := post.noop hnz
  rw [hok, ha, hi, hdd]

theorem strncmpEq_congr (s t t' : Nat → Nat) : ∀ n i,
    (∀ j, i ≤ j → j < i + n → t j = t' j) →
    strncmpEq s t n i = strncmpEq s t' n i := by
  intro n
  induction n with
  | zero =>
    intro i h
    rfl
  | succ m ih =>
    intro i h
    show (if s i ≠ t i then false else if s i = 0 then true else strncmpEq s t m (i + 1)) =
      (if s i ≠ t' i then false else if s i = 0 then true else strncmpEq s t' m (i + 1))
    rw [h i (le_refl i) (by omega)]
    by_cases hsi : s i ≠ t' i
    · rw [if_pos hsi, if_pos hsi]
    · rw [if_neg hsi, if_neg hsi]
      by_cases h0 : s i = 0
      · rw [if_pos h0, if_pos h0]
      · rw [if_neg h0, if_neg h0]
        exact ih (i + 1) (fun j hj1 hj2 => h j (by omega) (by omega))

theorem fileByteD_blk (d : Disk) (ip : Inode) (b j : Nat) (hj : j < BSIZE)
    (hnz : blockAddr d ip b ≠ 0) :
    fileByteD d ip (BSIZE * b + j) = d.blocks (blockAddr d ip b) j := by
  have eB := bsize_val
  rw [fileByteD, bsize_val]
  have h1 : (512 * b + j) / 512 = b := by omega
  have h2 : (512 * b + j) % 512 = j := by omega
  rw [h1, h2, if_neg hnz]

theorem deInum_dirInumAt (d : Disk) (ip : Inode) (b k : Nat) (hk : k < 32)
    (hnz : blockAddr d ip b ≠ 0) :
    deInum (d.blocks (blockAddr d ip b)) k = dirInumAt d ip (32 * b + k) := by
  have eB := bsize_val
  rw [deInum, dirInumAt]
  have e1 : 16 * (32 * b + k) = BSIZE * b + 16 * k := by rw [bsize_val]; ring
  rw [e1]
  have e2 : BSIZE * b + 16 * k + 1 = BSIZE * b + (16 * k + 1) := by ring
  rw [e2, fileByteD_blk d ip b (16 * k) (by omega) hnz,
    fileByteD_blk d ip b (16 * k + 1) (by omega) hnz]

theorem deName_dirNameAt (d : Disk) (ip : Inode) (b k i : Nat) (hk : k < 32) (hi : i < 14)
    (hnz : blockAddr d ip b ≠ 0) :
    deName (d.blocks (blockAddr d ip b)) k i = dirNameAt d ip (32 * b + k) i := by
  have eB := bsize_val
  simp only [deName, dirNameAt]
  have e1 : 16 * (32 * b + k) + 2 + i = BSIZE * b + (16 * k + 2 + i) := by rw [bsize_val]; ring
  rw [e1, fileByteD_blk d ip b (16 * k + 2 + i) (by omega) hnz]

theorem namecmpEq_deName (d : Disk) (ip : Inode) (name : Nat → Nat) (b k : Nat)
    (hk : k < 32) (hnz : blockAddr d ip b ≠ 0) :
    namecmpEq name (deName (d.blocks (blockAddr d ip b)) k) =
      namecmpEq name (dirNameAt d ip (32 * b + k)) := by
  rw [namecmpEq, namecmpEq]
  refine strncmpEq_congr _ _ _ DIRSIZ 0 ?_
  intro j hj1 hj2
  have eD := dirsiz_val
  exact deName_dirNameAt d ip b k j hk (by omega) hnz

theorem deMatch_iff (d : Disk) (ip : Inode) (name : Nat → Nat) (b k : Nat) (hk : k < 32)
    (hnz : blockAddr d ip b ≠ 0) :
    ((deInum (d.blocks (blockAddr d ip b)) k != 0) &&
      namecmpEq name (deName (d.blocks (blockAddr d ip b)) k)) = true ↔
    dirMatch d ip name (32 * b + k) := by
  rw [Bool.and_eq_true, bne_iff_ne, deInum_dirInumAt d ip b k hk hnz,
    namecmpEq_deName d ip name b k hk hnz, dirMatch]

theorem dirscanBlk_none (fuel : Nat) : ∀ (blk : Blk) (name : Nat → Nat) (k : Nat),
    BSIZE / 16 - k ≤ fuel →
    (∀ j, k ≤ j → j < BSIZE / 16 →
      ((deInum blk j != 0) && namecmpEq name (deName blk j)) = false) →
    dirscanBlk blk name k = none := by
  induction fuel with
  | zero =>
    intro blk name k hf h
    rw [dirscanBlk]
    rw [if_neg (by omega)]
  | succ m ih =>
    intro blk name k hf h
    rw [dirscanBlk]
    by_cases hk : k < BSIZE / 16
    · rw [if_pos hk]
      rw [h k (le_refl k) hk]
      rw [if_neg (by exact Bool.false_ne_true)]
      exact ih blk name (k + 1) (by omega) (fun j hj1 hj2 => h j (by omega) hj2)
    · rw [if_neg hk]

theorem dirscanBlk_first (fuel : Nat) : ∀ (blk : Blk) (name : Nat → Nat) (k k0 : Nat),
    BSIZE / 16 - k ≤ fuel → k ≤ k0 → k0 < BSIZE / 16 →
    ((deInum blk k0 != 0) && namecmpEq name (deName blk k0)) = true →
    (∀ j, k ≤ j → j < k0 →
      ((deInum blk j != 0) && namecmpEq name (deName blk j)) = false) →
    dirscanBlk blk name k = some k0 := by
  induction fuel with
  | zero =>
    intro blk name k k0 hf hle hk0 hm hmin
    omega
  | succ m ih =>
    intro blk name k k0 hf hle hk0 hm hmin
    rw [dirscanBlk]
    rw [if_pos (by omega : k < BSIZE / 16)]
    by_cases he : k = k0
    · rw [he, hm, if_pos rfl]
    · rw [hmin k (le_refl k) (by omega)]
      rw [if_neg (by exact Bool.false_ne_true)]
      exact ih blk name (k + 1) k0 (by omega) (by omega) hk0 hm
        (fun j hj1 hj2 => hmin j (by omega) hj2)

theorem dirInumAt_zero_of_ge (d : Disk) (ip : Inode) (e : Nat) (hDir : DirOK d ip)
    (hge : ip.size ≤ 16 * e) (hlt : e < 32 * MAXFILE) : dirInumAt d ip e = 0 := by
  have eB := bsize_val
  have eM := maxfile_val
  have hMB : MAXFILE * BSIZE = 71680 := by rw [maxfile_val, bsize_val]
  rw [dirInumAt, hDir.2 (16 * e) hge (by omega), hDir.2 (16 * e + 1) (by omega) (by omega)]

theorem dirlookupLoop_spec (fuel : Nat) : ∀ (fs : FS) (dp : Inode) (name : Nat → Nat) (b : Nat),
    WF fs.disk dp → DirOK fs.disk dp → MAXFILE + 1 - b ≤ fuel →
    ((∀ e, 32 * b ≤ e → 16 * e < dp.size → ¬ dirMatch fs.disk dp name e) →
      dirlookupLoop fs dp name dp.size (BSIZE * b) = .ok (fs, dp, none)) ∧
    (∀ e0, 32 * b ≤ e0 → 16 * e0 < dp.size → dirMatch fs.disk dp name e0 →
      (∀ e, 32 * b ≤ e → e < e0 → 16 * e < dp.size → ¬ dirMatch fs.disk dp name e) →
      dirlookupLoop fs dp name dp.size (BSIZE * b) =
        match iget fs dp.dev (dirInumAt fs.disk dp e0) with
        | .error err => .error err
        | .ok (fs2, child) => .ok (fs2, dp, some (child, 16 * e0))) := by
  have eB := bsize_val
  have eM := maxfile_val
  induction fuel with
  | zero =>
    intro fs dp name b hWF hDir hf
    have hMB : MAXFILE * BSIZE = 71680 := by rw [maxfile_val, bsize_val]
    have hszLe := hWF.sizeLe
    have hBb : BSIZE * b = 512 * b := by rw [bsize_val]
    have hble : ¬ (BSIZE * b < dp.size) := by
      omega
    constructor
    · intro _
      rw [dirlookupLoop, if_neg hble]
    · intro e0 hb0 hsz _ _
      exact absurd hsz (by omega)
  | succ m ih =>
    intro fs dp name b hWF hDir hf
    have hMB : MAXFILE * BSIZE = 71680 := by rw [maxfile_val, bsize_val]
    have hszLe := hWF.sizeLe
    have hBb : BSIZE * b = 512 * b := by rw [bsize_val]
    have hBb2 : b * BSIZE = 512 * b := by rw [bsize_val]; ring
    by_cases hlt : BSIZE * b < dp.size
    · have hbM : b < MAXFILE := by
        omega
      have hba : blockAddr fs.disk dp b ≠ 0 := hDir.1 b hbM (by omega)
      have hbm := bmap_noop fs.disk dp b hWF hbM hba
      have hdiv : BSIZE * b / BSIZE = b := by rw [bsize_val]; omega
      have hstep : dirlookupLoop fs dp name dp.size (BSIZE * b) =
          (match dirscanBlk (fs.disk.blocks (blockAddr fs.disk dp b)) name 0 with
           | some k =>
             (match iget fs dp.dev (deInum (fs.disk.blocks (blockAddr fs.disk dp b)) k) with
              | .error e => .error e
              | .ok (fs2, child) => .ok (fs2, dp, some (child, BSIZE * b + 16 * k)))
           | none => dirlookupLoop fs dp name dp.size (BSIZE * b + BSIZE)) := by
        rw [dirlookupLoop]
        rw [if_pos hlt, hdiv]
        simp only [hbm]
      -- a record of this block that lies beyond `size` is zeroed
      have hbeyond : ∀ j, j < 32 → ¬ (16 * (32 * b + j) < dp.size) →
          ((deInum (fs.disk.blocks (blockAddr fs.disk dp b)) j != 0) &&
            namecmpEq name (deName (fs.disk.blocks (blockAddr fs.disk dp b)) j)) = false := by
        intro j hj hout
        refine Bool.eq_false_iff.mpr ?_
        intro hc
        have hm := (deMatch_iff fs.disk dp name b j hj hba).mp hc
        have hz := dirInumAt_zero_of_ge fs.disk dp (32 * b + j) hDir (by omega) (by omega)
        exact hm.1 hz
      constructor
      · -- no match from this block on: the scan is empty and the loop recurses
        intro hno
        have hscan : dirscanBlk (fs.disk.blocks (blockAddr fs.disk dp b)) name 0 = none := by
          refine dirscanBlk_none 32 _ name 0 (by omega) ?_
          intro j hj1 hj2
          have hj32 : j < 32 := by omega
          by_cases hin : 16 * (32 * b + j) < dp.size
          · refine Bool.eq_false_iff.mpr ?_
            intro hc
            exact hno (32 * b + j) (by omega) hin ((deMatch_iff fs.disk dp name b j hj32 hba).mp hc)
          · exact hbeyond j hj32 hin
        rw [hstep]
        simp only [hscan]
        have hrw : BSIZE * b + BSIZE = BSIZE * (b + 1) := by ring
        rw [hrw]
        exact (ih fs dp name (b + 1) hWF hDir (by omega)).1
          (fun e he1 he2 => hno e (by omega) he2)
      · intro e0 hb0 hsz hm hmin
        by_cases hin : e0 < 32 * (b + 1)
        · -- the match is in this block
          have hk0 : e0 - 32 * b < 32 := by omega
          have he0 : 32 * b + (e0 - 32 * b) = e0 := by omega
          have hscan : dirscanBlk (fs.disk.blocks (blockAddr fs.disk dp b)) name 0 =
              some (e0 - 32 * b) := by
            refine dirscanBlk_first 32 _ name 0 (e0 - 32 * b) (by omega) (by omega)
              (by omega) ?_ ?_
            · refine (deMatch_iff fs.disk dp name b (e0 - 32 * b) hk0 hba).mpr ?_
              rw [he0]
              exact hm
            · intro j hj1 hj2
              have hj32 : j < 32 := by omega
              by_cases hjin : 16 * (32 * b + j) < dp.size
              · refine Bool.eq_false_iff.mpr ?_
                intro hc
                exact hmin (32 * b + j) (by omega) (by omega) hjin
                  ((deMatch_iff fs.disk dp name b j hj32 hba).mp hc)
              · exact hbeyond j hj32 hjin
          rw [hstep]
          simp only [hscan]
          rw [deInum_dirInumAt fs.disk dp b (e0 - 32 * b) hk0 hba, he0]
          have hoff : BSIZE * b + 16 * (e0 - 32 * b) = 16 * e0 := by
            rw [bsize_val]
            omega
          rw [hoff]
        · -- the match is in a later block: this block has no usable record
          have hscan : dirscanBlk (fs.disk.blocks (blockAddr fs.disk dp b)) name 0 = none := by
            refine dirscanBlk_none 32 _ name 0 (by omega) ?_
            intro j hj1 hj2
            have hj32 : j < 32 := by omega
            by_cases hjin : 16 * (32 * b + j) < dp.size
            · refine Bool.eq_false_iff.mpr ?_
              intro hc
              exact hmin (32 * b + j) (by omega) (by omega) hjin
                ((deMatch_iff fs.disk dp name b j hj32 hba).mp hc)
            · exact hbeyond j hj32 hjin
          rw [hstep]
          simp only [hscan]
          have hrw : BSIZE * b + BSIZE = BSIZE * (b + 1) := by ring
          rw [hrw]
          exact (ih fs dp name (b + 1) hWF hDir (by omega)).2 e0 (by omega) hsz hm
            (fun e he1 he2 he3 => hmin e (by omega) he2 he3)
    · constructor
      · intro _
        rw [dirlookupLoop, if_neg hlt]
      · intro e0 hb0 hsz _ _
        exact absurd hsz (by omega)

/-- Claim C7: `dirlookup(dp, name, poff)` returns absent exactly when no
record with that name exists within `dp`'s contents; when matches exist,
the first matching record wins: the child returned is `iget(dev, inum)`
of that record's inum and the reported offset (`*poff`) is the byte
offset of the record. -/
theorem C7_dirlookup (fs : FS) (dp : Inode) (name : Nat → Nat)
    (hT : dp.type = T_DIR) (hWF : WF fs.disk dp) (hDir : DirOK fs.disk dp) :
    ((∀ e, 16 * e < dp.size → ¬ dirMatch fs.disk dp name e) →
      dirlookup fs dp name = .ok (fs, dp, none)) ∧
    (∀ fs1 dp1, dirlookup fs dp name = .ok (fs1, dp1, none) →
      ∀ e, 16 * e < dp.size → ¬ dirMatch fs.disk dp name e) ∧
    (∀ e0, 16 * e0 < dp.size → dirMatch fs.disk dp name e0 →
      (∀ e, e < e0 → 16 * e < dp.size → ¬ dirMatch fs.disk dp name e) →
      ∀ fs2 child, iget fs dp.dev (dirInumAt fs.disk dp e0) = .ok (fs2, child) →
      dirlookup fs dp name = .ok (fs2, dp, some (child, 16 * e0))) := by
  have hL := dirlookupLoop_spec (MAXFILE + 1) fs dp name 0 hWF hDir (le_refl _)
  rw [show BSIZE * 0 = 0 from Nat.mul_zero BSIZE] at hL
  rw [dirlookup, if_neg (not_not_intro hT)]
  refine ⟨?_, ?_, ?_⟩
  · intro hno
    exact hL.1 (fun e _ h2 => hno e h2)
  · intro fs1 dp1 heq e hsz hm
    haveI hdm : ∀ e', Decidable (dirMatch fs.disk dp name e') := fun e' => by
      unfold dirMatch
      infer_instance
    have hex : ∃ e', 16 * e' < dp.size ∧ dirMatch fs.disk dp name e' := ⟨e, hsz, hm⟩
    have hspec := Nat.find_spec hex
    have hrun := hL.2 (Nat.find hex) (Nat.zero_le _) hspec.1 hspec.2
      (fun e' _ hlt' h1 => fun h2 => Nat.find_min hex hlt' ⟨h1, h2⟩)
    cases hig : iget fs dp.dev (dirInumAt fs.disk dp (Nat.find hex)) with
    | error err =>
      rw [hig] at hrun
      rw [hrun] at heq
      exact Except.noConfusion heq
    | ok pr =>
      obtain ⟨fs2, child⟩ := pr
      rw [hig] at hrun
      rw [hrun] at heq
      simp only [Except.ok.injEq, Prod.mk.injEq] at heq
      exact Option.noConfusion heq.2.2
  · intro e0 hsz hm hmin fs2 child hig
    have hrun := hL.2 e0 (Nat.zero_le _) hsz hm (fun e _ he2 he3 => hmin e he2 he3)
    rw [hig] at hrun
    exact hrun

theorem exWFdir : WF exDisk { exInode with type := T_DIR } :=
  ⟨exWF.addrsLen, exWF.inj, exWF.marked, exWF.boot, exWF.freeZero, exWF.sizeLe, exWF.sbLt⟩

theorem exDirOK : DirOK exDisk { exInode with type := T_DIR } := by
  constructor
  · intro bn h1 h2
    exact absurd h2 (Nat.not_lt_zero _)
  · intro j h1 h2
    have hz : blockAddr exDisk { exInode with type := T_DIR } (j / BSIZE) = 0 := by
      have h := exSlot0 (j / BSIZE + 1)
      rw [slotAddr_succ] at h
      exact h
    rw [fileByteD, if_pos hz]

/-- Witness for C7: looking any name up in an empty directory over the
example disk reports it absent. -/
theorem C7_witness :
    dirlookup exFS { exInode with type := T_DIR } (fun _ => 65) =
      .ok (exFS, { exInode with type := T_DIR }, none) :=
  (C7_dirlookup exFS { exInode with type := T_DIR } (fun _ => 65) rfl exWFdir exDirOK).1
    (fun e he => absurd he (Nat.not_lt_zero _))

/-! ## `dirlink` (claim C8) -/

theorem iput_noTeardown (d : Disk) (ip : Inode)
    (hcase : 0 < ip.ref - 1 ∨ (ip.ref - 1 = 0 ∧ 0 < ip.nlink)) :
    iput d ip = .ok (d, { ip with ref := ip.ref - 1 }) := by
  rw [iput]
  simp only []
  by_cases hr : ip.ref - 1 = 0
  · have hnl : ¬ (ip.ref - 1 = 0 ∧ ip.nlink = 0) := by
      intro hh
      rcases hcase with hc | hc <;> omega
    rw [if_pos hr, if_neg hnl]
  · rw [if_neg hr]

theorem readLoop_noop (fuel : Nat) : ∀ (d : Disk) (ip : Inode) (dst : Nat → Nat)
    (n tot off0 : Nat), WF d ip → n - tot ≤ fuel → tot ≤ n → off0 + n ≤ MAXFILE * BSIZE →
    (∀ k, tot ≤ k → k < n → blockAddr d ip ((off0 + k) / BSIZE) ≠ 0) →
    ∃ dst', readLoop d ip dst n tot (off0 + tot) = .ok (dst', d, ip) ∧
      (∀ k, tot ≤ k → k < n → dst' k = fileByteD d ip (off0 + k)) ∧
      (∀ k, k < tot ∨ n ≤ k → dst' k = dst k) := by
  induction fuel with
  | zero =>
    intro d ip dst n tot off0 hWF hf hle hmax hdense
    have ht : ¬ (tot < n) := by omega
    refine ⟨dst, ?_, fun k h1 h2 => absurd h2 (by omega), fun k _ => rfl⟩
    rw [readLoop, dif_neg ht]
  | succ m ih =>
    intro d ip dst n tot off0 hWF hf hle hmax hdense
    by_cases ht : tot < n
    · have eB := bsize_val
      have hMB : MAXFILE * BSIZE = 71680 := by rw [maxfile_val, bsize_val]
      have hbn : (off0 + tot) / BSIZE < MAXFILE := by
        have eM := maxfile_val
        rw [bsize_val]
        omega
      have hnz : blockAddr d ip ((off0 + tot) / BSIZE) ≠ 0 := hdense tot (le_refl _) ht
      have hbm := bmap_noop d ip ((off0 + tot) / BSIZE) hWF hbn hnz
      have hm1 : 1 ≤ min (n - tot) (BSIZE - (off0 + tot) % BSIZE) := by
        rw [bsize_val]
        omega
      have hstep : readLoop d ip dst n tot (off0 + tot) =
          readLoop d ip
            (memmoveBuf dst tot (d.blocks (blockAddr d ip ((off0 + tot) / BSIZE)))
              ((off0 + tot) % BSIZE) (min (n - tot) (BSIZE - (off0 + tot) % BSIZE)))
            n (tot + min (n - tot) (BSIZE - (off0 + tot) % BSIZE))
            (off0 + tot + min (n - tot) (BSIZE - (off0 + tot) % BSIZE)) := by
        conv_lhs => rw [readLoop]
        rw [dif_pos ht]
        simp only [hbm]
      have hassoc : off0 + tot + min (n - tot) (BSIZE - (off0 + tot) % BSIZE) =
          off0 + (tot + min (n - tot) (BSIZE - (off0 + tot) % BSIZE)) := by omega
      obtain ⟨dst', hok, hrd, hfr⟩ := ih d ip
        (memmoveBuf dst tot (d.blocks (blockAddr d ip ((off0 + tot) / BSIZE)))
          ((off0 + tot) % BSIZE) (min (n - tot) (BSIZE - (off0 + tot) % BSIZE)))
        n (tot + min (n - tot) (BSIZE - (off0 + tot) % BSIZE)) off0 hWF
        (by omega) (by omega) hmax
        (fun k h1 h2 => hdense k (by omega) h2)
      refine ⟨dst', ?_, ?_, ?_⟩
      · rw [hstep, hassoc]
        exact hok
      · intro k h1 h2
        by_cases hk : k < tot + min (n - tot) (BSIZE - (off0 + tot) % BSIZE)
        · rw [hfr k (Or.inl hk)]
          rw [memmoveBuf]
          rw [if_pos ⟨h1, by omega⟩]
          rw [fileByteD]
          have hdq : (off0 + k) / BSIZE = (off0 + tot) / BSIZE := by
            rw [bsize_val] at *
            omega
          have hmq : (off0 + k) % BSIZE = (off0 + tot) % BSIZE + (k - tot) := by
            rw [bsize_val] at *
            omega
          rw [hdq, if_neg hnz, hmq]
        · exact hrd k (by omega) h2
      · intro k hk
        have hk2 : k < tot ∨ tot + min (n - tot) (BSIZE - (off0 + tot) % BSIZE) ≤ k := by
          rcases hk with hk | hk
          · exact Or.inl hk
          · right
            omega
        rcases hk2 with hk2 | hk2
        · rw [hfr k (Or.inl (by omega))]
          rw [memmoveBuf, if_neg (by omega)]
        · rcases hk with hk | hk
          · rw [hfr k (Or.inl (by omega))]
            rw [memmoveBuf, if_neg (by omega)]
          · rw [hfr k (Or.inr hk)]
            rw [memmoveBuf, if_neg (by omega)]
    · have ht' : ¬ (tot < n) := ht
      refine ⟨dst, ?_, fun k h1 h2 => absurd h2 (by omega), fun k _ => rfl⟩
      rw [readLoop, dif_neg ht']

theorem readi_noop (d : Disk) (ip : Inode) (dst : Nat → Nat) (off n : Nat)
    (hT : ip.type ≠ T_DEV) (hWF : WF d ip) (hoffn : off + n ≤ ip.size) (hU : off + n < U32)
    (hdense : ∀ j, off ≤ j → j < off + n → blockAddr d ip (j / BSIZE) ≠ 0) :
    ∃ dst', readi d ip dst off n = .ok ((n : Int), dst', d, ip) ∧
      ∀ k, k < n → dst' k = fileByteD d ip (off + k) := by
  have hmax : off + n ≤ MAXFILE * BSIZE := le_trans hoffn hWF.sizeLe
  obtain ⟨dst', hok, hrd, _⟩ := readLoop_noop n d ip dst n 0 off hWF (by omega)
    (Nat.zero_le _) hmax (fun k h1 h2 => hdense (off + k) (by omega) (by omega))
  simp only [Nat.add_zero] at hok
  have hmodu : (off + n) % U32 = off + n := Nat.mod_eq_of_lt hU
  have hguard : ¬ (off > ip.size ∨ (off + n) % U32 < off) := by
    rw [hmodu]
    intro hc
    rcases hc with hc | hc <;> omega
  refine ⟨dst', ?_, fun k hk => hrd k (Nat.zero_le _) hk⟩
  rw [readi, if_neg hT, if_neg hguard]
  rw [if_neg (show ¬ (off + n > ip.size) by omega)]
  simp only [hok]

theorem dirlinkScan_spec (fuel : Nat) : ∀ (d : Disk) (dp : Inode) (off : Nat),
    WF d dp → DirOK d dp → dp.type ≠ T_DEV →
    dp.size % 16 = 0 → off % 16 = 0 → off ≤ dp.size →
    (dp.size - off) / 16 ≤ fuel →
    ∃ off', dirlinkScan d dp dp.size off = .ok (d, dp, off') ∧
      off ≤ off' ∧ off' ≤ dp.size ∧ off' % 16 = 0 ∧
      (∀ e, off ≤ 16 * e → 16 * e < off' → dirInumAt d dp e ≠ 0) ∧
      (off' < dp.size → dirInumAt d dp (off' / 16) = 0) := by
  induction fuel with
  | zero =>
    intro d dp off hWF hDir hT hsz16 hoff16 hole hf
    have heq : off = dp.size := by omega
    refine ⟨off, ?_, le_refl _, by omega, hoff16,
      fun e he1 he2 => absurd (lt_of_le_of_lt he1 he2) (lt_irrefl _), fun h => absurd h (by omega)⟩
    rw [dirlinkScan, if_neg (by omega)]
  | succ m ih =>
    intro d dp off hWF hDir hT hsz16 hoff16 hole hf
    by_cases hlt : off < dp.size
    · have eB := bsize_val
      have eM := maxfile_val
      have hMB : MAXFILE * BSIZE = 71680 := by rw [maxfile_val, bsize_val]
      have hszLe := hWF.sizeLe
      have hoffn : off + 16 ≤ dp.size := by omega
      have hU : off + 16 < U32 := by rw [u32_val]; omega
      have hdense : ∀ j, off ≤ j → j < off + 16 → blockAddr d dp (j / BSIZE) ≠ 0 := by
        intro j h1 h2
        refine hDir.1 (j / BSIZE) ?_ ?_
        · rw [bsize_val]
          omega
        · have hB2 : j / BSIZE * BSIZE ≤ j := Nat.div_mul_le_self j BSIZE
          omega
      obtain ⟨de, hrok, hrd⟩ := readi_noop d dp (fun _ => 0) off 16 hT hWF hoffn hU hdense
      have hde : deInum de 0 = dirInumAt d dp (off / 16) := by
        show de 0 % 256 + 256 * (de 1 % 256) = _
        rw [dirInumAt]
        rw [hrd 0 (by omega), hrd 1 (by omega)]
        have h1 : off + 0 = 16 * (off / 16) := by omega
        have h2 : off + 1 = 16 * (off / 16) + 1 := by omega
        rw [h1, h2]
      have hstep : dirlinkScan d dp dp.size off =
          (if (deInum de 0 == 0) = true then .ok (d, dp, off)
           else dirlinkScan d dp dp.size (off + 16)) := by
        rw [dirlinkScan]
        rw [if_pos hlt]
        simp only [hrok]
        rw [if_neg (show ¬ (((16 : Nat) : Int) ≠ 16) from not_not_intro rfl)]
      by_cases hz : dirInumAt d dp (off / 16) = 0
      · refine ⟨off, ?_, le_refl _, by omega, hoff16,
          fun e he1 he2 => absurd (lt_of_le_of_lt he1 he2) (lt_irrefl _), fun _ => hz⟩
        rw [hstep, if_pos (by rw [hde, hz]; rfl)]
      · obtain ⟨off', hok', h1', h2', h3', h4', h5'⟩ :=
          ih d dp (off + 16) hWF hDir hT hsz16 (by omega) (by omega) (by omega)
        refine ⟨off', ?_, by omega, h2', h3', ?_, h5'⟩
        · rw [hstep, if_neg (by
            rw [hde]
            intro hc
            exact hz (by simpa using hc))]
          exact hok'
        · intro e he1 he2
          by_cases hee : off + 16 ≤ 16 * e
          · exact h4' e hee he2
          · have : 16 * e = off := by omega
            have he' : e = off / 16 := by omega
            rw [he']
            exact hz
    · have heq : off = dp.size := by omega
      refine ⟨off, ?_, le_refl _, by omega, hoff16,
        fun e he1 he2 => absurd (lt_of_le_of_lt he1 he2) (lt_irrefl _), fun h => absurd h (by omega)⟩
      rw [dirlinkScan, if_neg (by omega)]

theorem strncmpEq_strncpy (s : Nat → Nat) : ∀ n i, (∀ j, j < i → s j ≠ 0) →
    strncmpEq s (strncpyN s) n i = true := by
  intro n
  induction n with
  | zero =>
    intro i h
    rfl
  | succ m ih =>
    intro i h
    show (if s i ≠ strncpyN s i then false
      else if s i = 0 then true else strncmpEq s (strncpyN s) m (i + 1)) = true
    have ht : strncpyN s i = s i := by
      rw [strncpyN]
      by_cases hex : (List.range (i + 1)).any (fun j => s j == 0)
      · rw [if_pos hex]
        obtain ⟨j, hj, hj0⟩ := List.any_eq_true.mp hex
        have hji : j < i + 1 := List.mem_range.mp hj
        have hs0 : s j = 0 := by simpa using hj0
        by_cases hji' : j < i
        · exact absurd hs0 (h j hji')
        · have hje : j = i := by omega
          rw [← hje, hs0]
      · rw [if_neg hex]
    rw [ht, if_neg (fun hc => hc rfl)]
    by_cases h0 : s i = 0
    · rw [if_pos h0]
    · rw [if_neg h0]
      refine ih (i + 1) ?_
      intro j hj
      by_cases hji : j < i
      · exact h j hji
      · have hje : j = i := by omega
        rw [hje]
        exact h0

theorem namecmpEq_strncpy (s : Nat → Nat) : namecmpEq s (strncpyN s) = true :=
  strncmpEq_strncpy s DIRSIZ 0 (fun j hj => absurd hj (Nat.not_lt_zero _))

/-- Claim C8: `dirlink(dp, name, inum)` returns −1 — after `iput` of the
looked-up child — when a record with the name is already present;
otherwise it writes the 16-byte record for `(inum, name)` at the first
free slot (or appends at `dp->size` when none is free) and returns 0.
The written state is again a well-formed directory and — for a nonzero
(truncated) inum — now contains a matching record at that slot, so a
second `dirlink` of the same name falls into the −1 case and `dirlookup`
finds the first call's record. -/
theorem C8_dirlink (fs : FS) (dp : Inode) (name : Nat → Nat) (inum : Nat)
    (hT : dp.type = T_DIR) (hWF : WF fs.disk dp) (hDir : DirOK fs.disk dp)
    (hsz16 : dp.size % 16 = 0) :
    (∀ e0, 16 * e0 < dp.size → dirMatch fs.disk dp name e0 →
      (∀ e, e < e0 → 16 * e < dp.size → ¬ dirMatch fs.disk dp name e) →
      ∀ fs2 child, iget fs dp.dev (dirInumAt fs.disk dp e0) = .ok (fs2, child) →
      (0 < child.ref - 1 ∨ (child.ref - 1 = 0 ∧ 0 < child.nlink)) →
      dirlink fs dp name inum = .ok
        ({ disk := fs2.disk,
           icache := cacheSet fs2.icache child.inum { child with ref := child.ref - 1 } },
          dp, -1)) ∧
    ((∀ e, 16 * e < dp.size → ¬ dirMatch fs.disk dp name e) →
      32 ≤ freeBlocks fs.disk → dp.size + 16 ≤ MAXFILE * BSIZE →
      ∃ d3 dp3 off, dirlink fs dp name inum = .ok ({ disk := d3, icache := fs.icache }, dp3, 0) ∧
        off % 16 = 0 ∧ off ≤ dp.size ∧
        (∀ e, 16 * e < off → dirInumAt fs.disk dp e ≠ 0) ∧
        (off < dp.size → dirInumAt fs.disk dp (off / 16) = 0) ∧
        (∀ k, k < 16 → fileByteD d3 dp3 (off + k) = mkDirent inum name k) ∧
        dp3.size = max dp.size (off + 16) ∧ dp3.type = T_DIR ∧
        WF d3 dp3 ∧ DirOK d3 dp3 ∧
        (inum % 65536 ≠ 0 → dirMatch d3 dp3 name (off / 16))) := by
  have hTdev : dp.type ≠ T_DEV := by
    rw [hT]
    decide
  have hMB : MAXFILE * BSIZE = 71680 := by rw [maxfile_val, bsize_val]
  have hszLe := hWF.sizeLe
  have hL := dirlookupLoop_spec (MAXFILE + 1) fs dp name 0 hWF hDir (le_refl _)
  rw [show BSIZE * 0 = 0 from Nat.mul_zero BSIZE] at hL
  constructor
  · -- duplicate name: −1 after iput of the child
    intro e0 hsz hm hmin fs2 child hig hcase
    have hloop := hL.2 e0 (Nat.zero_le _) hsz hm (fun e _ h2 h3 => hmin e h2 h3)
    rw [hig] at hloop
    have hdl : dirlookup fs dp name = .ok (fs2, dp, some (child, 16 * e0)) := by
      rw [dirlookup, if_neg (not_not_intro hT)]
      exact hloop
    rw [dirlink]
    simp only [hdl]
    simp only [iput_noTeardown fs2.disk child hcase]
  · -- absent name: write the record at the first free slot (or append)
    intro hno hfree hroom
    have hdl : dirlookup fs dp name = .ok (fs, dp, none) := by
      rw [dirlookup, if_neg (not_not_intro hT)]
      exact hL.1 (fun e _ h2 => hno e h2)
    obtain ⟨off, hscan, hog1, hog2, hog3, hbef, hslot⟩ :=
      dirlinkScan_spec (dp.size / 16) fs.disk dp 0 hWF hDir hTdev hsz16 (by omega)
        (Nat.zero_le _) (by omega)
    have hU : off + 16 < U32 := by rw [u32_val]; omega
    have hn1 : (16 : Nat) = min 16 (MAXFILE * BSIZE - off) := by omega
    obtain ⟨d3, dp3, hwok, hWF3, hwr, hal, hframe, haf, hipEq3, hsz3, hdin3, hsb3, hni3,
      hmono3, hfb3⟩ :=
      writei_spec fs.disk dp (mkDirent inum name) off 16 16 hTdev hWF hog2 hU hn1
        (Or.inl (by omega))
    have hmax3 : dp3.size = max dp.size (off + 16) := by
      rw [hsz3]
      by_cases hc : 0 < 16 ∧ dp.size < off + 16
      · rw [if_pos hc]
        omega
      · rw [if_neg hc]
        have hnc : ¬ dp.size < off + 16 := fun hcc => hc ⟨by omega, hcc⟩
        omega
    have hrun : dirlink fs dp name inum = .ok ({ disk := d3, icache := fs.icache }, dp3, 0) := by
      rw [dirlink]
      simp only [hdl]
      simp only [hscan]
      simp only [hwok]
      rw [if_neg (show ¬ (((16 : Nat) : Int) ≠ 16) from not_not_intro rfl)]
    refine ⟨d3, dp3, off, hrun, hog3, hog2, fun e he => hbef e (Nat.zero_le _) he, hslot,
      fun k hk => hwr k hk, hmax3, ?_, hWF3, ⟨?_, ?_⟩, ?_⟩
    · show dp3.type = T_DIR
      rw [hipEq3]
      exact hT
    · -- DirOK (1): every block within the new size is mapped
      intro bn h1 h2
      by_cases hcold : bn * BSIZE < dp.size
      · have hold := hDir.1 bn h1 hcold
        rw [haf bn hold]
        exact hold
      · have hBb : bn * BSIZE = 512 * bn := by rw [bsize_val]; ring
        have h2' : bn * BSIZE < off + 16 := by
          rw [hmax3] at h2
          omega
        have hge : off ≤ bn * BSIZE := by omega
        have hthis := hal (bn * BSIZE - off) (by omega)
        have harg : (off + (bn * BSIZE - off)) / BSIZE = bn := by
          have e1 : off + (bn * BSIZE - off) = bn * BSIZE := by omega
          rw [e1, bsize_val]
          omega
        rw [harg] at hthis
        exact hthis
    · -- DirOK (2): bytes beyond the new size still read zero
      intro j h1 h2
      have hj' : off + 16 ≤ j := by
        rw [hmax3] at h1
        omega
      rw [hframe j h2 (Or.inr (by omega))]
      refine hDir.2 j ?_ h2
      rw [hmax3] at h1
      omega
    · -- the written slot now matches the name
      intro hinz
      have hb0 : fileByteD d3 dp3 (16 * (off / 16)) = mkDirent inum name 0 := by
        have h16 : 16 * (off / 16) = off + 0 := by omega
        rw [h16]
        exact hwr 0 (by omega)
      have hb1 : fileByteD d3 dp3 (16 * (off / 16) + 1) = mkDirent inum name 1 := by
        have h16 : 16 * (off / 16) + 1 = off + 1 := by omega
        rw [h16]
        exact hwr 1 (by omega)
      refine ⟨?_, ?_⟩
      · show dirInumAt d3 dp3 (off / 16) ≠ 0
        rw [dirInumAt, hb0, hb1]
        show ¬ (inum % 256 % 256 + 256 * (inum / 256 % 256 % 256) = 0)
        omega
      · show namecmpEq name (dirNameAt d3 dp3 (off / 16)) = true
        have hcong : namecmpEq name (dirNameAt d3 dp3 (off / 16)) =
            namecmpEq name (strncpyN name) := by
          rw [namecmpEq, namecmpEq]
          refine strncmpEq_congr _ _ _ DIRSIZ 0 ?_
          intro j hj1 hj2
          have eD := dirsiz_val
          show fileByteD d3 dp3 (16 * (off / 16) + 2 + j) = strncpyN name j
          have h16 : 16 * (off / 16) + 2 + j = off + (2 + j) := by omega
          rw [h16, hwr (2 + j) (by omega)]
          show (if 2 + j = 0 then inum % 256
            else if 2 + j = 1 then inum / 256 % 256
            else if 2 + j < 16 then strncpyN name (2 + j - 2) else 0) = strncpyN name j
          rw [if_neg (by omega), if_neg (by omega), if_pos (by omega)]
          have hjj : 2 + j - 2 = j := by omega
          rw [hjj]
        rw [hcong]
        exact namecmpEq_strncpy name

theorem exSlot32 (s : Nat) : slotAddr exDisk32 { exInode with type := T_DIR } s = 0 := by
  match s with
  | 0 => exact exAddr0 NDIRECT
  | bn + 1 =>
    rw [slotAddr_succ]
    by_cases h : bn < NDIRECT
    · rw [blockAddr_direct _ _ _ h]
      exact exAddr0 bn
    · exact blockAddr_ind0 _ _ _ h (exAddr0 NDIRECT)

theorem exWF32 : WF exDisk32 { exInode with type := T_DIR } := by
  refine ⟨rfl, ?_, ?_, rfl, fun _ _ => rfl, Nat.zero_le _,
    by rw [u32_val]; norm_num [exDisk32]⟩
  · intro s t hs ht hst hnz
    exact absurd (exSlot32 s) hnz
  · intro s hs hnz
    exact absurd (exSlot32 s) hnz

theorem exDirOK32 : DirOK exDisk32 { exInode with type := T_DIR } := by
  constructor
  · intro bn h1 h2
    exact absurd h2 (Nat.not_lt_zero _)
  · intro j h1 h2
    have hz : blockAddr exDisk32 { exInode with type := T_DIR } (j / BSIZE) = 0 := by
      have h := exSlot32 (j / BSIZE + 1)
      rw [slotAddr_succ] at h
      exact h
    rw [fileByteD, if_pos hz]

/-- Witness for C8: linking inum 3 under a fresh name into an empty
directory on the 40-block example disk appends the record at offset 0 and
returns 0. -/
theorem C8_witness :
    ∃ d3 dp3 off, dirlink exFS32 { exInode with type := T_DIR } (fun _ => 65) 3 =
        .ok ({ disk := d3, icache := exFS32.icache }, dp3, 0) ∧
      off % 16 = 0 ∧ off ≤ ({ exInode with type := T_DIR } : Inode).size ∧
      (∀ e, 16 * e < off → dirInumAt exFS32.disk { exInode with type := T_DIR } e ≠ 0) ∧
      (off < ({ exInode with type := T_DIR } : Inode).size →
        dirInumAt exFS32.disk { exInode with type := T_DIR } (off / 16) = 0) ∧
      (∀ k, k < 16 → fileByteD d3 dp3 (off + k) = mkDirent 3 (fun _ => 65) k) ∧
      dp3.size = max ({ exInode with type := T_DIR } : Inode).size (off + 16) ∧
      dp3.type = T_DIR ∧ WF d3 dp3 ∧ DirOK d3 dp3 ∧
      (3 % 65536 ≠ 0 → dirMatch d3 dp3 (fun _ => 65) (off / 16)) :=
  (C8_dirlink exFS32 { exInode with type := T_DIR } (fun _ => 65) 3 rfl exWF32 exDirOK32
    rfl).2 (fun e he => absurd he (Nat.not_lt_zero _)) (by decide) (by decide)

/-! ## The non-teardown frame of `iput` (claim C10) -/

/-- Claim C10: when `iput` does not take the teardown path (the decremented
`ref` stays positive, or it reaches zero with `nlink > 0`), its only
effect is the `ref` decrement: every other inode field and the whole disk
are unchanged, and no block is freed. -/
theorem C10_iput_frame (d : Disk) (ip : Inode)
    (_href : 1 ≤ ip.ref) (_hbr : ip.busyr = false) (_hbw : ip.busyw = false)
    (hcase : 0 < ip.ref - 1 ∨ (ip.ref - 1 = 0 ∧ 0 < ip.nlink)) :
    ∃ ip', iput d ip = .ok (d, ip') ∧
      ip'.ref = ip.ref - 1 ∧ ip'.type = ip.type ∧ ip'.major = ip.major ∧
      ip'.minor = ip.minor ∧ ip'.nlink = ip.nlink ∧ ip'.size = ip.size ∧
      ip'.gen = ip.gen ∧ ip'.addrs = ip.addrs := by
  refine ⟨{ ip with ref := ip.ref - 1 }, ?_, rfl, rfl, rfl, rfl, rfl, rfl, rfl, rfl⟩
  unfold iput
  rcases hcase with h | ⟨h1, h2⟩
  · have : ¬ (ip.ref - 1 = 0) := by omega
    simp [this]
  · have : ¬ (ip.nlink = 0) := by omega
    simp [h1, this]

/-- Witness for C10 at a concrete inode with `ref = 2`. -/
theorem C10_witness :
    ∃ ip', iput ⟨8, 4, (fun _ => ⟨0, 0, 0, 0, 0, 0, []⟩), (fun _ => false), (fun _ => zeroBlk)⟩
        ⟨0, 7, 2, true, false, false, false, 0, 2, 0, 0, 1, 5, 3, []⟩ =
        .ok (⟨8, 4, (fun _ => ⟨0, 0, 0, 0, 0, 0, []⟩), (fun _ => false), (fun _ => zeroBlk)⟩, ip') ∧
      ip'.ref = 2 - 1 ∧ ip'.type = 2 ∧ ip'.major = 0 ∧ ip'.minor = 0 ∧
      ip'.nlink = 1 ∧ ip'.size = 5 ∧ ip'.gen = 3 ∧ ip'.addrs = [] := by
  have h := C10_iput_frame
    ⟨8, 4, (fun _ => ⟨0, 0, 0, 0, 0, 0, []⟩), (fun _ => false), (fun _ => zeroBlk)⟩
    ⟨0, 7, 2, true, false, false, false, 0, 2, 0, 0, 1, 5, 3, []⟩
    (by norm_num) rfl rfl (by norm_num)
  simpa using h

/-! ## `skipelem` (claim C9) -/

theorem drop_length_takeWhile (p : Nat → Bool) (l : List Nat) :
    l.drop (l.takeWhile p).length = l.dropWhile p := by
  induction l with
  | nil => rfl
  | cons a t ih =>
    by_cases h : p a <;> simp [List.takeWhile_cons, List.dropWhile_cons, h, ih]

theorem dropWhile_head_not (p : Nat → Bool) (l : List Nat) (c : Nat) (t : List Nat)
    (h : l.dropWhile p = c :: t) : p c = false := by
  induction l with
  | nil => simp at h
  | cons a l ih =>
    rw [List.dropWhile_cons] at h
    split at h
    · exact ih h
    · rename_i hpa
      cases h
      cases hb : p c
      · rfl
      · exact absurd hb hpa

/-- Claim C9: `skipelem` strips leading slashes; it returns `none` exactly
when the path is empty or slashes only; otherwise it splits off the first
component, copies it into `name` — NUL-terminated when shorter than
`DIRSIZ`, truncated to exactly `DIRSIZ` bytes with no NUL otherwise — and
returns the rest of the path with its leading slashes stripped. -/
theorem C9_skipelem (path : List Nat) (name : Nat → Nat) (h0 : ∀ c ∈ path, c ≠ 0) :
    (skipelem path name = none ↔ ∀ c ∈ path, c = 47) ∧
      (∀ rest name1, skipelem path name = some (rest, name1) →
        ∃ pre comp post,
          path = pre ++ comp ++ post ∧ (∀ c ∈ pre, c = 47) ∧ comp ≠ [] ∧
          (∀ c ∈ comp, c ≠ 47) ∧ (post = [] ∨ post.head? = some 47) ∧
          rest = post.dropWhile (fun c => c == 47) ∧
          (comp.length < DIRSIZ →
            (∀ i, i < comp.length → name1 i = comp.getD i 0) ∧
            name1 comp.length = 0 ∧ ∀ i, comp.length < i → name1 i = name i) ∧
          (DIRSIZ ≤ comp.length →
            (∀ i, i < DIRSIZ → name1 i = comp.getD i 0) ∧
            ∀ i, DIRSIZ ≤ i → name1 i = name i)) := by
  constructor
  · simp only [skipelem]
    split
    · rename_i hnil
      rw [List.dropWhile_eq_nil_iff] at hnil
      refine ⟨fun _ c hc => ?_, fun _ => rfl⟩
      have := hnil c hc
      simpa using this
    · rename_i hnil
      constructor
      · intro h
        exact Option.noConfusion h
      · intro hall
        exact (hnil (List.dropWhile_eq_nil_iff.2 (fun c hc => by simp [hall c hc]))).elim
  · intro rest name1 h
    simp only [skipelem] at h
    split at h
    · exact Option.noConfusion h
    · rename_i hnil
      set p1 := path.dropWhile (fun c => c == 47) with hp1
      set q : Nat → Bool := fun c => ! (c == 47) && ! (c == 0) with hq
      set comp := p1.takeWhile q with hcomp
      refine ⟨path.takeWhile (fun c => c == 47), comp, p1.dropWhile q, ?_, ?_, ?_, ?_, ?_, ?_, ?_, ?_⟩
      · rw [List.append_assoc, hcomp, List.takeWhile_append_dropWhile,
          hp1, List.takeWhile_append_dropWhile]
      · intro c hc
        have := List.mem_takeWhile_imp hc
        simpa using this
      · obtain ⟨c, t, hct⟩ := List.exists_cons_of_ne_nil hnil
        have hc47 : (fun c => (c == 47 : Bool)) c = false := dropWhile_head_not _ path c t hct
        have hc0 : c ≠ 0 := by
          refine h0 c ?_
          have hsub : p1.Sublist path := List.dropWhile_sublist _
          exact hsub.subset (by rw [hct]; exact List.mem_cons_self c t)
        have hqc : q c = true := by
          simp only [hq, Bool.and_eq_true, Bool.not_eq_true']
          exact ⟨by simpa using hc47, by simpa using hc0⟩
        rw [hcomp, hct, List.takeWhile_cons, hqc]
        simp
      · intro c hc
        have := List.mem_takeWhile_imp hc
        simp only [hq, Bool.and_eq_true, Bool.not_eq_true'] at this
        simpa using this.1
      · cases hpost : p1.dropWhile q with
        | nil => exact Or.inl rfl
        | cons c t =>
          refine Or.inr ?_
          have hqc : q c = false := dropWhile_head_not q p1 c t hpost
          have hc0 : c ≠ 0 := by
            refine h0 c ?_
            have hsub1 : (p1.dropWhile q).Sublist p1 := List.dropWhile_sublist _
            have hsub2 : p1.Sublist path := List.dropWhile_sublist _
            exact hsub2.subset (hsub1.subset (by rw [hpost]; exact List.mem_cons_self c t))
          simp only [hq, Bool.and_eq_false_iff, Bool.not_eq_false'] at hqc
          rcases hqc with hc | hc
          · simp [show c = 47 by simpa using hc]
          · exact absurd (by simpa using hc) hc0
      · have hr := congrArg Prod.fst (Option.some.inj h)
        simp only at hr
        rw [← hr, hcomp, drop_length_takeWhile]
      · intro hlt
        have hname := congrArg Prod.snd (Option.some.inj h)
        simp only at hname
        rw [if_neg (by omega : ¬ comp.length ≥ DIRSIZ)] at hname
        rw [← hname]
        refine ⟨fun i hi => by simp [hi], by simp, fun i hi => ?_⟩
        simp only [if_neg (by omega : ¬ i < comp.length), if_neg (by omega : ¬ i = comp.length)]
      · intro hge
        have hname := congrArg Prod.snd (Option.some.inj h)
        simp only at hname
        rw [if_pos (by omega : comp.length ≥ DIRSIZ)] at hname
        rw [← hname]
        exact ⟨fun i hi => by simp [hi], fun i hi => by simp [Nat.not_lt.2 hi]⟩

/-- Witness for C9 on the path `"a/bb"`. -/
theorem C9_witness :
    (skipelem [97, 47, 98, 98] (fun _ => 55) = none ↔ ∀ c ∈ [97, 47, 98, 98], c = 47) ∧
      (∀ rest name1, skipelem [97, 47, 98, 98] (fun _ => 55) = some (rest, name1) →
        ∃ pre comp post,
          [97, 47, 98, 98] = pre ++ comp ++ post ∧ (∀ c ∈ pre, c = 47) ∧ comp ≠ [] ∧
          (∀ c ∈ comp, c ≠ 47) ∧ (post = [] ∨ post.head? = some 47) ∧
          rest = post.dropWhile (fun c => c == 47) ∧
          (comp.length < DIRSIZ →
            (∀ i, i < comp.length → name1 i = comp.getD i 0) ∧
            name1 comp.length = 0 ∧ ∀ i, comp.length < i → name1 i = (fun _ => 55) i) ∧
          (DIRSIZ ≤ comp.length →
            (∀ i, i < DIRSIZ → name1 i = comp.getD i 0) ∧
            ∀ i, DIRSIZ ≤ i → name1 i = (fun _ => 55) i)) :=
  C9_skipelem [97, 47, 98, 98] (fun _ => 55) (by decide)

end XvFs
